import Mathlib

/-!
# cglp4: verification of prime-gap listings

A shallow embedding of `src/cglp4.c` (T. R. Nicely's gap checker).

Conventions of the embedding.

* `unsigned long` is the 64-bit type of an LP64 platform.  Gaps (up to 999999999), sieve
  divisors (below 2^32 + 30) and array indices stay far below 2^64, so they are natural
  numbers; the two places where the C code can wrap on them (`(x - 2)/2` with `x < 2`, and
  `mpz_get_ui`) carry an explicit `% 2^64`.  The offset `ulG` of the search loops is a
  natural number as well: the loops agree with the C loops as long as the offset stays in
  `[2, 2^64)`, and the theorems on a search from an arbitrary resume offset state that range.
* `mpz_t` values are natural numbers (integers where a sign can occur).
* The C arrays `uchSieve` and `ulLPD` are functions `Nat → Nat` (index to content), so the
  content left behind by an earlier candidate is part of the state.  `main` allocates `ulMG`
  bytes for `uchSieve` and `4*ulMG` bytes for `ulLPD`, which are `lpdCells ulMG` cells of
  8 bytes, while `vSieve2` stores up to `ulLPD[ulGap]`.  The functions have no bound, and a
  store beyond a block is undefined in C: the theorems on the sieve of an arbitrary gap
  assume `ulGap < lpdCells ulMG`, under which every access of `vSieve2` is inside its block
  (the theorems at a concrete candidate use gaps far below that size), and the theorems that
  exhibit a store out of range say at which index it lands.
* When a snapshot file has the header of the candidate and a wrong checksum, the C loader
  closes the file a second time (lines 1095 and 1107), which C leaves undefined; `vSieve2`
  goes on to the sieve there.  The theorems on a sieve that is built for an arbitrary
  snapshot file assume `HeaderMiss` (no file, or the header of another candidate), where the
  file is closed once.
* The checksum of a sieve snapshot, a `double` in C, is the exact sum of the offsets (the
  `double` sum is exact below 2^53, which covers every gap below 90 million).
* The routines of `trn.c` (`iPrP`, `iMillerRabin`, `ulPrmDiv`, `iIsPrime32`, the table
  `ulPrime16`, the expression parser) and the helper process are not part of this repository
  snapshot; they are the fields of `Ext`, and theorems state what they assume about them.
* Wall-clock values (`lfSeconds2`, the two elapsed times of a checkpoint) and the progress
  display are not modelled.
* `while(1)` loops take a fuel argument and return `none` when it runs out.
-/

namespace Cglp4

/-! ## External collaborators -/

/-- Routines declared in `trn.h` and the helper process; all are parameters. -/
structure Ext where
  /-- `iPrP(n, reps, maxdiv) != 0` -/
  iPrP : Nat → Nat → Nat → Bool
  /-- `iMillerRabin(n, base) != 0` -/
  iMillerRabin : Nat → Nat → Bool
  /-- `ulPrmDiv(n, bound)` -/
  ulPrmDiv : Nat → Nat → Nat
  /-- `ulPrime16[k]` after `vGenPrimes16()` -/
  ulPrime16 : Nat → Nat
  /-- `iIsPrime32(n) != 0` -/
  iIsPrime32 : Nat → Bool
  /-- exit status of `system(szPFGW1)` on the number written to the interchange file -/
  pfgw : Nat → Nat
  /-- `mpz_set_str(.., 10)` and, when that fails, `iEvalExpr`; `none` when both fail -/
  parseP1 : String → Option Int

/-! ## Small helpers -/

/-- `a[i] = v` -/
def setAt (a : Nat → Nat) (i v : Nat) : Nat → Nat :=
  fun j => if j = i then v else a j

/-- `for(ul=0; ul < n; ul++) a[ul]=v;` -/
def fillTo (a : Nat → Nat) (n v : Nat) : Nat → Nat :=
  fun j => if j < n then v else a j

/-- `(x - 2)/2` in 64-bit unsigned arithmetic. -/
def idx2 (x : Nat) : Nat :=
  ((x + 2 ^ 64 - 2) % 2 ^ 64) / 2

/-- Length of a decimal numeral, by repeated division. -/
def decLenAux : Nat → Nat → Nat
  | 0, _ => 1
  | fuel + 1, n => if n < 10 then 1 else 1 + decLenAux fuel (n / 10)

/-- `strlen(mpz_get_str(.., 10, n))` for `n >= 0`. -/
def decLen (n : Nat) : Nat :=
  decLenAux n n

/-- `strlen(mpz_get_str(.., 10, z))`, a leading minus sign included. -/
def strlenZ (z : Int) : Nat :=
  if z < 0 then 1 + decLen z.natAbs else decLen z.toNat

/-- `strstr(s, "..") != NULL` -/
def hasEllipsis : List Char → Bool
  | [] => false
  | c :: cs => (c == '.' && cs.head? == some '.') || hasEllipsis cs

/-- Least `c` from the start value on with `x <= c*c`. -/
def ceilSqrtAux (x : Nat) : Nat → Nat → Nat
  | 0, c => c
  | fuel + 1, c => if x ≤ c * c then c else ceilSqrtAux x fuel (c + 1)

/-- `ceil(sqrt(x))` (exact-real reading of the `double` computation). -/
def ceilSqrt (x : Nat) : Nat :=
  ceilSqrtAux x x 0

/-- The base-2 Fermat screen of the search loops:
`mpz_powm(mpzRem, mpzTwo, n, n); mpz_cmp(mpzRem, mpzTwo)==0`. -/
def fermat2 (n : Nat) : Bool :=
  2 ^ n % n == 2

/-! ## The sieve (`vSieve2`) -/

/-- The two buffers the sieve works on. -/
structure Buf where
  uchSieve : Nat → Nat
  ulLPD : Nat → Nat

/-- Number of cells of `ulLPD`: `main` allocates `malloc(4*ulMG)` bytes for an array of
`unsigned long`, 8 bytes each (and `ulMG` bytes for `uchSieve`). -/
def lpdCells (ulMG : Nat) : Nat :=
  4 * ulMG / 8

/-- Offset of the first multiple of `ulDiv` in `uchSieve`, from `ulRem = (P1+2) mod ulDiv`. -/
def ulOffset (ulRem ulDiv : Nat) : Nat :=
  if ulRem % 2 = 1 then (ulDiv - ulRem) / 2
  else if ulRem = 0 then 0
  else ulDiv - ulRem / 2

/-- Body of the strike loop at index `ul2 < ulGap`: when `uchSieve[ul2]==1`, the byte is set
to 0 and `ulLPD[ul3]=ulDiv` is stored for `ul3 = 2*ul2 + 2` if `ul3 <= ulGap`.  The largest
cell of `ulLPD` stored to is `ulGap`, which exists when `ulGap < lpdCells ulMG`. -/
def strikeAt (ulGap ulDiv ul2 : Nat) (b : Buf) : Buf :=
  if b.uchSieve ul2 = 1 then
    { uchSieve := setAt b.uchSieve ul2 0
      ulLPD := if 2 * ul2 + 2 ≤ ulGap then setAt b.ulLPD (2 * ul2 + 2) ulDiv else b.ulLPD }
  else b

/-- `for(ul2=ulOffset; ul2 < ulGap; ul2 += ulDiv) ...`; the first argument bounds the number
of iterations (`ulGap` is enough for every `ulDiv >= 1`). -/
def strike (ulGap ulDiv : Nat) : Nat → Nat → Buf → Buf
  | 0, _, b => b
  | fuel + 1, ul2, b =>
    if ul2 < ulGap then strike ulGap ulDiv fuel (ul2 + ulDiv) (strikeAt ulGap ulDiv ul2 b)
    else b

/-- One trial divisor: remainder of `P1 + 2`, offset, strike loop. -/
def sievePass (mpzP1 ulGap ulDiv : Nat) (b : Buf) : Buf :=
  strike ulGap ulDiv ulGap (ulOffset ((mpzP1 + 2) % ulDiv) ulDiv) b

/-- `for(ul=2; ul < 6542; ul++)` over the table of 16-bit primes; the first argument is the
number of iterations left (6540 at the start), the third the current `ulDiv` (not initialised
in C, assigned in the first iteration).  Returns the last value of `ulDiv` with the
buffers. -/
def loop16 (tbl : Nat → Nat) (ulMaxDiv mpzP1 ulGap : Nat) : Nat → Nat → Nat → Buf → Nat × Buf
  | 0, _, ulDiv, b => (ulDiv, b)
  | n + 1, ul, _, b =>
    if tbl ul > ulMaxDiv then (tbl ul, b)
    else loop16 tbl ulMaxDiv mpzP1 ulGap n (ul + 1) (tbl ul) (sievePass mpzP1 ulGap (tbl ul) b)

/-- The residues of the `30n + d` wheel. -/
def d30 : List Nat := [1, 7, 11, 13, 17, 19, 23, 29]

/-- `for(ul=0; ul < 8; ul++)` of the wheel loop at one `ulBase`. -/
def inner30 (isPrime32 : Nat → Bool) (ulMaxDiv mpzP1 ulGap ulBase : Nat) :
    List Nat → Nat → Buf → Nat × Buf
  | [], ulDiv, b => (ulDiv, b)
  | r :: rs, _, b =>
    if ulBase + r > ulMaxDiv then (ulBase + r, b)
    else if !isPrime32 (ulBase + r) then
      inner30 isPrime32 ulMaxDiv mpzP1 ulGap ulBase rs (ulBase + r) b
    else
      inner30 isPrime32 ulMaxDiv mpzP1 ulGap ulBase rs (ulBase + r)
        (sievePass mpzP1 ulGap (ulBase + r) b)

/-- The `while(1)` over `ulBase = 65520, 65550, ...`; the first argument bounds the number of
rounds. -/
def outer30 (isPrime32 : Nat → Bool) (ulMaxDiv mpzP1 ulGap : Nat) : Nat → Nat → Nat → Buf → Buf
  | 0, _, _, b => b
  | fuel + 1, ulBase, ulDiv, b =>
    let r := inner30 isPrime32 ulMaxDiv mpzP1 ulGap ulBase d30 ulDiv b
    if r.1 > ulMaxDiv then r.2
    else outer30 isPrime32 ulMaxDiv mpzP1 ulGap fuel (ulBase + 30) r.1 r.2

/-- Digit-count-dependent ceiling before the square-root cap. -/
def ulMaxDiv0 (ulD1 : Nat) : Nat :=
  if ulD1 ≥ 18000 then 4294967291
  else if ulD1 ≥ 10000 then 100000000
  else if ulD1 ≥ 5000 then 20000000
  else if ulD1 ≥ 1500 then 5000000
  else if ulD1 ≥ 500 then 1000000
  else 65519

/-- The sieve ceiling `ulMaxDiv`: for fewer than 21 digits it is capped at
`ceil(sqrt(P1 + 2*ulGap))` when it exceeds the square root.  The C code computes the root in
`double`; the cap only takes effect below `65519^2 < 2^32`, where the sum is represented
exactly and the correctly rounded root is an integer exactly for perfect squares, so the
comparison and the ceiling are the exact ones. -/
def ulMaxDiv (ulD1 mpzP1 ulGap : Nat) : Nat :=
  if ulD1 < 21 then
    if ulMaxDiv0 ulD1 * ulMaxDiv0 ulD1 > mpzP1 + 2 * ulGap then ceilSqrt (mpzP1 + 2 * ulGap)
    else ulMaxDiv0 ulD1
  else ulMaxDiv0 ulD1

/-- `ulLPD` after `for(ul=0; ul <= ulGap; ul += 2)ulLPD[ul]=0;
for(ul=1; ul < ulGap; ul += 2)ulLPD[ul]=2;`.  The largest cell stored to is `ulGap` (even
gap), which exists when `ulGap < lpdCells ulMG`. -/
def initLPD (lpd : Nat → Nat) (ulGap : Nat) : Nat → Nat :=
  fun j => if j % 2 = 0 then (if j ≤ ulGap then 0 else lpd j)
           else (if j < ulGap then 2 else lpd j)

/-- The divisor passes of `vSieve2`: the table loop, then the wheel loop unless the table
loop stopped on a divisor above the ceiling.  The wheel loop leaves by its `break` after at
most `ulMaxDiv/30 + 1` rounds, so `ulMaxDiv + 1` rounds of fuel are never used up. -/
def sieveCore (E : Ext) (ulD1 mpzP1 ulGap : Nat) (b : Buf) : Buf :=
  let m := ulMaxDiv ulD1 mpzP1 ulGap
  let r := loop16 E.ulPrime16 m mpzP1 ulGap 6540 2 0 b
  if r.1 > m then r.2
  else outer30 E.iIsPrime32 m mpzP1 ulGap (m + 1) 65520 r.1 r.2

/-- A sieve snapshot file `g<gap>.siv`: header `gap  p1rem  checksum`, then one offset a line. -/
structure SivFile where
  gap : Nat
  p1rem : Nat
  checksum : Nat
  offs : List Nat
  deriving DecidableEq, Repr

/-- The read loop of the snapshot loader: add each offset to the running checksum and switch
its index on when the offset is at most `2*ulGap`. -/
def loadOffs (ulGap : Nat) : List Nat → (Nat → Nat) → Nat → (Nat → Nat) × Nat
  | [], u, s => (u, s)
  | o :: os, u, s =>
    loadOffs ulGap os (if o ≤ 2 * ulGap then setAt u (idx2 o) 1 else u) (s + o)

/-- Snapshot load at the head of `vSieve2`: `some` buffer when the header matches the
candidate and the recomputed checksum equals the stored one. -/
def loadSiv (ulGap ulP1Rem : Nat) (f : Option SivFile) (uch : Nat → Nat) : Option (Nat → Nat) :=
  match f with
  | none => none
  | some s =>
    if s.gap = ulGap ∧ s.p1rem = ulP1Rem then
      let r := loadOffs ulGap s.offs (fillTo uch ulGap 0) 0
      if r.2 = s.checksum then some r.1 else none
    else none

/-- The sieve buffer the loader leaves behind when it does not accept a snapshot: untouched
when there is no file or the header does not match; otherwise zeroed below `ulGap` with the
offsets of the file switched on (the checksum was wrong). -/
def dirtySiv (ulGap ulP1Rem : Nat) (f : Option SivFile) (uch : Nat → Nat) : Nat → Nat :=
  match f with
  | none => uch
  | some s =>
    if s.gap = ulGap ∧ s.p1rem = ulP1Rem then
      (loadOffs ulGap s.offs (fillTo uch ulGap 0) 0).1
    else uch

/-- The loader finds no snapshot file, or one whose header names another gap or another
fingerprint: it reads no offset line and closes the file once (line 1107). -/
def HeaderMiss (ulGap ulP1Rem : Nat) (f : Option SivFile) : Prop :=
  ∀ s, f = some s → ¬ (s.gap = ulGap ∧ s.p1rem = ulP1Rem)

/-- Offsets `2*ul + 2` of the indices below `ulGap` that are still switched on. -/
def survivors (uch : Nat → Nat) (ulGap : Nat) : List Nat :=
  ((List.range ulGap).filter (fun ul => uch ul != 0)).map (fun ul => 2 * ul + 2)

/-- The snapshot written when backup is on. -/
def mkSiv (uch : Nat → Nat) (ulGap ulP1Rem : Nat) : SivFile :=
  { gap := ulGap, p1rem := ulP1Rem, checksum := (survivors uch ulGap).sum,
    offs := survivors uch ulGap }

/-- The `CHECK_SIEVE` block: the pairs `(ul, ulLPD[ul])` of the `SIEVING ERROR` lines. -/
def checkSieve (lpd : Nat → Nat) (mpzP1 ulGap : Nat) : List (Nat × Nat) :=
  ((List.range ulGap).filter
    (fun ul => decide (2 ≤ ul) && decide (ul % 2 = 0) && decide (3 ≤ lpd ul)
      && !decide (lpd ul ∣ mpzP1 + ul))).map (fun ul => (ul, lpd ul))

/-- Result of one call of `vSieve2`. -/
structure SieveOut where
  buf : Buf
  siv : Option SivFile
  errs : List (Nat × Nat)

/-- `vSieve2()`: the snapshot loader, the fill, the divisor passes on 3 digits or more, the
snapshot written when backup is on and the cross-check.  Two paths of the C routine leave
defined behaviour and are followed here as if they did not: the loader's second `fclose`
after a wrong checksum (excluded by `HeaderMiss`) and the stores to `ulLPD` when the block
has no cell `ulGap` (excluded by `ulGap < lpdCells ulMG`). -/
def vSieve2 (E : Ext) (iCheckSieve iBackup : Bool) (ulD1 mpzP1 ulGap ulP1Rem : Nat)
    (f : Option SivFile) (b : Buf) : SieveOut :=
  match loadSiv ulGap ulP1Rem f b.uchSieve with
  | some u => { buf := { b with uchSieve := u }, siv := f, errs := [] }
  | none =>
    let b1 : Buf :=
      { b with uchSieve := fillTo (dirtySiv ulGap ulP1Rem f b.uchSieve) ulGap 1 }
    if ulD1 < 3 then { buf := b1, siv := f, errs := [] }
    else
      let b2 := sieveCore E ulD1 mpzP1 ulGap { b1 with ulLPD := initLPD b1.ulLPD ulGap }
      { buf := b2
        siv := if iBackup then some (mkSiv b2.uchSieve ulGap ulP1Rem) else f
        errs := if iCheckSieve then checkSieve b2.ulLPD mpzP1 ulGap else [] }

/-! ## The interior search (`mpz_gap`, `mpz_gap_pfgw`) -/

/-- `iTest` of the search loops: beyond the sieved interval, or a sieve survivor. -/
def iTest (uch : Nat → Nat) (ulGap ulG : Nat) : Bool :=
  decide (ulG ≥ 2 * ulGap) || (uch (idx2 ulG) != 0)

/-- The oracle call of the search loops at offset `ulG`: at the claimed boundary the test of
`mpzP2` (Miller-Rabin in MR2 mode), elsewhere `iPrP(mpz, ulMRReps, 2)`. -/
def oracleAt (E : Ext) (mr2 : Bool) (ulMRReps mpzP1 ulGap ulG : Nat) : Bool :=
  if ulG = ulGap then
    if mr2 then E.iMillerRabin (mpzP1 + ulGap) 2 else E.iPrP (mpzP1 + ulGap) ulMRReps 2
  else E.iPrP (mpzP1 + ulG) ulMRReps 2

/-- The `while(1)` of `mpz_gap`, started at offset `ulG`.  The offset is a natural number:
the loop is the C loop as long as the offset stays in `[2, 2^64)`, where `ulG += 2` does not
wrap and the sieve cell read, `(ulG - 2)/2` for `ulG < 2*ulGap`, lies below `ulGap`. -/
def gapLoop (E : Ext) (uch : Nat → Nat) (mr2 : Bool) (ulMRReps mpzP1 ulGap : Nat) :
    Nat → Nat → Option Nat
  | 0, _ => none
  | fuel + 1, ulG =>
    if iTest uch ulGap ulG && fermat2 (mpzP1 + ulG)
        && oracleAt E mr2 ulMRReps mpzP1 ulGap ulG then some ulG
    else gapLoop E uch mr2 ulMRReps mpzP1 ulGap fuel (ulG + 2)

/-- A checkpoint file `g<gap>.bak`: gap, `ulP1Rem`, resume offset (the two elapsed times are
not modelled). -/
structure Bak where
  gap : Nat
  p1rem : Nat
  ulG : Nat
  deriving DecidableEq, Repr

/-- `iPrintCount` of `mpz_gap_pfgw`. -/
def iPrintCount (ulD1 : Nat) : Nat :=
  let c := if ulD1 > 3999 then 1 else (4200 - ulD1) / 100
  if c < 1 then 1 else c

/-- The `while(1)` of `mpz_gap_pfgw`: loop state is the offset, `iCount`, `iCount2` and the
checkpoint file.  As in `gapLoop` the offset is a natural number, and the loop is the C loop
as long as the offset stays in `[2, 2^64)`. -/
def pfgwLoop (E : Ext) (uch : Nat → Nat) (mr2 iBackup : Bool)
    (ulMRReps ulD1 mpzP1 ulGap ulP1Rem : Nat) :
    Nat → Nat → Nat → Nat → Option Bak → Option (Nat × Option Bak)
  | 0, _, _, _, _ => none
  | fuel + 1, ulG, iCount, iCount2, bak =>
    if iTest uch ulGap ulG then
      let show1 := decide (iCount + 1 ≥ iPrintCount ulD1)
      let save := show1 && iBackup && decide (iCount2 + 1 ≥ 10 * iPrintCount ulD1)
      let iCount1 := if show1 then 0 else iCount + 1
      let iCount21 := if save then 0 else iCount2 + 1
      let bak1 := if save then some { gap := ulGap, p1rem := ulP1Rem, ulG := ulG } else bak
      if E.pfgw (mpzP1 + ulG) != 1 && oracleAt E mr2 ulMRReps mpzP1 ulGap ulG then
        some (ulG, bak1)
      else pfgwLoop E uch mr2 iBackup ulMRReps ulD1 mpzP1 ulGap ulP1Rem fuel (ulG + 2)
        iCount1 iCount21 bak1
    else pfgwLoop E uch mr2 iBackup ulMRReps ulD1 mpzP1 ulGap ulP1Rem fuel (ulG + 2)
      iCount iCount2 bak

/-- The checkpoint file `g<gap>.bak` as the `while(1)` of `mpz_gap_pfgw` has it after at most
`n` rounds from the loop state `(ulG, iCount, iCount2, bak)`: what a run interrupted at that
moment leaves on disk (a loop that has ended keeps the file of its last round). -/
def pfgwBakAt (E : Ext) (uch : Nat → Nat) (mr2 iBackup : Bool)
    (ulMRReps ulD1 mpzP1 ulGap ulP1Rem : Nat) :
    Nat → Nat → Nat → Nat → Option Bak → Option Bak
  | 0, _, _, _, bak => bak
  | n + 1, ulG, iCount, iCount2, bak =>
    if iTest uch ulGap ulG then
      let show1 := decide (iCount + 1 ≥ iPrintCount ulD1)
      let save := show1 && iBackup && decide (iCount2 + 1 ≥ 10 * iPrintCount ulD1)
      let iCount1 := if show1 then 0 else iCount + 1
      let iCount21 := if save then 0 else iCount2 + 1
      let bak1 := if save then some { gap := ulGap, p1rem := ulP1Rem, ulG := ulG } else bak
      if E.pfgw (mpzP1 + ulG) != 1 && oracleAt E mr2 ulMRReps mpzP1 ulGap ulG then bak1
      else pfgwBakAt E uch mr2 iBackup ulMRReps ulD1 mpzP1 ulGap ulP1Rem n (ulG + 2)
        iCount1 iCount21 bak1
    else pfgwBakAt E uch mr2 iBackup ulMRReps ulD1 mpzP1 ulGap ulP1Rem n (ulG + 2)
      iCount iCount2 bak

/-! ## The record loop of `main` -/

/-- Command-line and environment settings, fixed before the record loop. -/
structure Cfg where
  ulMinGap : Nat
  ulMaxGap : Nat
  ulMinDigits : Nat
  ulMaxDigits : Nat
  iEPO : Bool
  iInterior : Bool
  iNoCheck : Bool
  iBackupAll : Bool
  iMR2Base : Bool
  iAllBPSW : Bool
  iCheckSieve : Bool
  iPFGW : Bool
  iScreen : Bool
  ulMRReps : Nat
  /-- `ulMG`, the size of the arrays, fixed before the record loop as
  `__MAX2(ulMaxGap, 10*__MAX_DIGITS__)` (the macro is in trn.h): `uchSieve` has `ulMG` bytes
  and `ulLPD` has `lpdCells ulMG` cells -/
  ulMG : Nat

/-- One record as `iGetGapRecExt`, `atol` and `strtoul` hand it to `main`. -/
structure Rec where
  /-- return value of `iGetGapRecExt`: 6, 9 or 1 for the three layouts, 0 for no record -/
  iStat : Nat
  /-- `atol(szBuffer)` -/
  iG : Int
  /-- `strtoul(szBuffer, &ep, 10)` -/
  ulGap : Nat
  /-- the digit-count column of the fixed-column layouts -/
  ulD1 : Nat
  /-- the prime field -/
  szP1 : String
  /-- `szBuffer` as `iGetGapRecExt` fills it: the text of the record -/
  szBuffer : String
  /-- `szBuffer` after `szTrimMWS(ep); pch=strstr(ep, "  "); if(pch)*pch=0;` (lines 446-448),
  which change the part behind the gap in place; only the free-form layout runs them -/
  szTrim : String
  deriving DecidableEq, Repr

/-- The parenthesised diagnosis of a composite endpoint. -/
inductive Wit where
  | factor (f : Nat)
  | xMR2
  | xBPSW
  deriving DecidableEq, Repr

/-- The lines `main` writes. -/
inductive Msg where
  | parseError (gap : Nat)
  | p1Composite (gap : Nat) (w : Wit)
  | okCertfd
  | oddGap (gap : Nat)
  | digitConflict (stated actual : Nat)
  | p2CompositeEpo (gap : Nat) (w : Wit)
  | okEpo (gap : Nat)
  | intermediate (gap off : Nat)
  | p2Composite (gap : Nat) (w : Wit) (gtrue : Nat)
  | ok (gap : Nat)
  | sievingError (off d : Nat)
  deriving DecidableEq, Repr

/-- Calls of the testing machinery, most recent first. -/
inductive Ev where
  | prp (n reps bound : Nat)
  | mr (n base : Nat)
  | prmDiv (n bound : Nat)
  | sieve (p1 gap : Nat)
  | search (p1 gap start : Nat) (helper : Bool)
  deriving DecidableEq, Repr

/-- Mutable state of the run: the two buffers, the resume offset, the backup flag, the
counters, the files (checkpoints and snapshots are named by the gap), the report file, the
interactive stream, the side file and the call log. -/
structure Globals where
  uchSieve : Nat → Nat
  ulLPD : Nat → Nat
  ulGBack : Nat
  iBackup : Bool
  ulOK : Nat
  ulErrors : Nat
  iNCGaps : Nat
  bak : Nat → Option Bak
  siv : Nat → Option SivFile
  report : List Msg
  screen : List Msg
  nocheck : List String
  log : List Ev

/-- `continue` or `break` of the record loop. -/
inductive Ctl where
  | next
  | stop
  deriving DecidableEq, Repr

/-- Replace the file of one gap. -/
def putFile {α : Type} (fs : Nat → Option α) (gap : Nat) (f : Option α) : Nat → Option α :=
  fun k => if k = gap then f else fs k

/-- The state when a search loop has ended: the buffers as the sieve left them, the
`SIEVING ERROR` lines on the interactive stream, the snapshot removed unless `iCheckSieve`,
the checkpoint removed by the helper-assisted search, `ulGBack` reset. -/
def afterSearch (C : Cfg) (helper : Bool) (mpzP1 ulGap : Nat) (so : SieveOut) (g : Globals) :
    Globals :=
  { g with
    uchSieve := so.buf.uchSieve
    ulLPD := so.buf.ulLPD
    bak := if helper then putFile g.bak ulGap none else g.bak
    siv := if C.iCheckSieve then putFile g.siv ulGap so.siv else putFile g.siv ulGap none
    screen := (so.errs.map (fun e => Msg.sievingError e.1 e.2)).reverse ++ g.screen
    ulGBack := 2
    log := Ev.search mpzP1 ulGap g.ulGBack helper :: Ev.sieve mpzP1 ulGap :: g.log }

/-- The call of `vSieve2` made by the search routines. -/
def sieveOf (E : Ext) (C : Cfg) (ulD1 mpzP1 ulGap ulP1Rem : Nat) (g : Globals) : SieveOut :=
  vSieve2 E C.iCheckSieve g.iBackup ulD1 mpzP1 ulGap ulP1Rem (g.siv ulGap)
    { uchSieve := g.uchSieve, ulLPD := g.ulLPD }

/-- `mpz_gap()`: sieve, search from `ulGBack`, remove the snapshot, reset `ulGBack`. -/
def mpz_gap (E : Ext) (C : Cfg) (fuel ulD1 : Nat) (mr2 : Bool) (mpzP1 ulGap ulP1Rem : Nat)
    (g : Globals) : Option (Nat × Globals) :=
  if mpzP1 = 2 then some (1, g)
  else
    match gapLoop E (sieveOf E C ulD1 mpzP1 ulGap ulP1Rem g).buf.uchSieve mr2 C.ulMRReps
        mpzP1 ulGap fuel g.ulGBack with
    | none => none
    | some ulG =>
      some (ulG, afterSearch C false mpzP1 ulGap (sieveOf E C ulD1 mpzP1 ulGap ulP1Rem g) g)

/-- `mpz_gap_pfgw()`: as `mpz_gap`, with the helper in front of the oracle and the
checkpoint written from inside the loop and removed at the end. -/
def mpz_gap_pfgw (E : Ext) (C : Cfg) (fuel ulD1 : Nat) (mr2 : Bool)
    (mpzP1 ulGap ulP1Rem : Nat) (g : Globals) : Option (Nat × Globals) :=
  if mpzP1 = 2 then some (1, g)
  else
    match pfgwLoop E (sieveOf E C ulD1 mpzP1 ulGap ulP1Rem g).buf.uchSieve mr2 g.iBackup
        C.ulMRReps ulD1 mpzP1 ulGap ulP1Rem fuel g.ulGBack 0 0 (g.bak ulGap) with
    | none => none
    | some r =>
      some (r.1, afterSearch C true mpzP1 ulGap (sieveOf E C ulD1 mpzP1 ulGap ulP1Rem g) g)

/-- Count an error and write its line to the interactive stream and, when `toReport`, to the
report file. -/
def countError (g : Globals) (m : Msg) (toReport : Bool) : Globals :=
  { g with ulErrors := g.ulErrors + 1
           screen := m :: g.screen
           report := if toReport then m :: g.report else g.report }

/-- Count a confirmation; the report line is always written, the screen line with `iScreen`. -/
def countOK (C : Cfg) (g : Globals) (m : Msg) : Globals :=
  { g with ulOK := g.ulOK + 1
           screen := if C.iScreen then m :: g.screen else g.screen
           report := m :: g.report }

/-- Diagnosis of a number the oracle rejected: a factor below 10^6, else which stage failed. -/
def diagnose (E : Ext) (n : Nat) : Wit :=
  if E.ulPrmDiv n 1000000 > 1 then Wit.factor (E.ulPrmDiv n 1000000)
  else if E.iMillerRabin n 2 then Wit.xBPSW else Wit.xMR2

/-- The endpoint test of `main`: Miller-Rabin base 2 in MR2 mode, else
`iPrP(n, ulMRReps, 1000)`. -/
def endTest (E : Ext) (C : Cfg) (mr2 : Bool) (n : Nat) : Bool :=
  if mr2 then E.iMillerRabin n 2 else E.iPrP n C.ulMRReps 1000

/-- The log entry of `endTest`. -/
def endEv (C : Cfg) (mr2 : Bool) (n : Nat) : Ev :=
  if mr2 then Ev.mr n 2 else Ev.prp n C.ulMRReps 1000

/-- Enter the endpoint test of `n` in the call log. -/
def logTest (C : Cfg) (mr2 : Bool) (n : Nat) (g : Globals) : Globals :=
  { g with log := endEv C mr2 n :: g.log }

/-- Enter the trial division of `n` in the call log. -/
def logDiv (n : Nat) (g : Globals) : Globals :=
  { g with log := Ev.prmDiv n 1000000 :: g.log }

/-- The comparison of the observed gap `ulGap2` with the claimed one and the line written. -/
def verdict (E : Ext) (C : Cfg) (mpzP1 ulGap ulGap2 : Nat) (g : Globals) : Globals :=
  if ulGap2 ≠ ulGap then
    if ulGap2 < ulGap then countError g (Msg.intermediate ulGap ulGap2) true
    else
      countError (logDiv (mpzP1 + ulGap) g)
        (Msg.p2Composite ulGap (diagnose E (mpzP1 + ulGap)) ulGap2) true
  else countOK C g (Msg.ok ulGap)

/-- `iPFGW && (ulD1 >= MIN_PFGW_DIGITS)`: the helper-assisted search is used. -/
def helperUsed (C : Cfg) (ulD1 : Nat) : Bool :=
  C.iPFGW && decide (ulD1 ≥ 1000)

/-- The search dispatched at the label `INTERIOR`. -/
def search (E : Ext) (C : Cfg) (fuel ulD1 : Nat) (mr2 : Bool) (mpzP1 ulGap : Nat)
    (g : Globals) : Option (Nat × Globals) :=
  if helperUsed C ulD1 then mpz_gap_pfgw E C fuel ulD1 mr2 mpzP1 ulGap (mpzP1 % 2 ^ 64) g
  else mpz_gap E C fuel ulD1 mr2 mpzP1 ulGap (mpzP1 % 2 ^ 64) g

/-- From the label `INTERIOR` to the end of the loop body. -/
def interior (E : Ext) (C : Cfg) (fuel ulD1 : Nat) (mr2 : Bool) (mpzP1 ulGap : Nat)
    (g : Globals) : Option (Ctl × Globals) :=
  match search E C fuel ulD1 mr2 mpzP1 ulGap g with
  | none => none
  | some (ulGap2, g1) => some (Ctl.next, verdict E C mpzP1 ulGap ulGap2 g1)

/-- From the label `CHECK_P1` to the end of the loop body. -/
def checkP1 (E : Ext) (C : Cfg) (fuel ulD1 : Nat) (mr2 : Bool) (mpzP1 ulGap : Nat)
    (g : Globals) : Option (Ctl × Globals) :=
  if C.iInterior then interior E C fuel ulD1 mr2 mpzP1 ulGap g
  else if !endTest E C mr2 mpzP1 then
    some (Ctl.next,
      countError (logDiv mpzP1 (logTest C mr2 mpzP1 g))
        (Msg.p1Composite ulGap (diagnose E mpzP1)) true)
  else if C.iEPO then
    if !endTest E C mr2 (mpzP1 + ulGap) then
      some (Ctl.next,
        countError
          (logDiv (mpzP1 + ulGap) (logTest C mr2 (mpzP1 + ulGap) (logTest C mr2 mpzP1 g)))
          (Msg.p2CompositeEpo ulGap (diagnose E (mpzP1 + ulGap))) true)
    else
      some (Ctl.next,
        countOK C (logTest C mr2 (mpzP1 + ulGap) (logTest C mr2 mpzP1 g)) (Msg.okEpo ulGap))
  else interior E C fuel ulD1 mr2 mpzP1 ulGap (logTest C mr2 mpzP1 g)

/-- `szBuffer` as `fprintf(fpNoCheck, "%s\n", szBuffer)` (line 592) writes it to the side file:
the record as read in the fixed-column layouts, which leave the buffer alone before that line;
the buffer changed in place in the free-form layout. -/
def sideLine (r : Rec) : String :=
  if r.iStat = 1 then r.szTrim else r.szBuffer

/-- The loop body from `if((ulGap==1) && mpz_cmp(mpzP1, mpzTwo))` on, for a parsed `P1 >= 2`. -/
def candidate (E : Ext) (C : Cfg) (fuel : Nat) (r : Rec) (ulD1 : Nat) (mr2 : Bool)
    (mpzP1 : Nat) (g : Globals) : Option (Ctl × Globals) :=
  if r.ulGap = 1 ∧ mpzP1 ≠ 2 then
    some (Ctl.next, countError g (Msg.p1Composite r.ulGap (Wit.factor 2)) true)
  else if r.ulGap = 1 then some (Ctl.next, countOK C g Msg.okCertfd)
  else if r.ulGap % 2 = 1 then some (Ctl.next, countError g (Msg.oddGap r.ulGap) true)
  else if mpzP1 % 2 = 0 then
    some (Ctl.next, countError g (Msg.p1Composite r.ulGap (Wit.factor 2)) true)
  else if decLen mpzP1 ≠ ulD1 then
    some (Ctl.next, countError g (Msg.digitConflict ulD1 (decLen mpzP1)) false)
  else if C.iNoCheck then
    some (Ctl.next, { g with nocheck := sideLine r :: g.nocheck, iNCGaps := g.iNCGaps + 1 })
  else if C.iEPO then checkP1 E C fuel ulD1 mr2 mpzP1 r.ulGap { g with iBackup := false }
  else if C.iInterior && !g.iBackup then interior E C fuel ulD1 mr2 mpzP1 r.ulGap g
  else
    match g.bak r.ulGap with
    | none => checkP1 E C fuel ulD1 mr2 mpzP1 r.ulGap g
    | some b =>
      if b.gap ≠ r.ulGap then checkP1 E C fuel ulD1 mr2 mpzP1 r.ulGap g
      else if b.p1rem ≠ mpzP1 % 2 ^ 64 then checkP1 E C fuel ulD1 mr2 mpzP1 r.ulGap g
      else interior E C fuel ulD1 mr2 mpzP1 r.ulGap { g with ulGBack := b.ulG }

/-- What the layout dispatch yields for `ulD1`. -/
inductive Field where
  | skip
  | parseError
  | digits (ulD1 : Nat)
  deriving DecidableEq, Repr

/-- The dispatch on `iStat`: the digit-count column for the fixed-column layouts; for the
free-form layout the prime is parsed and its length taken. -/
def field (E : Ext) (r : Rec) : Field :=
  if r.iStat = 6 ∨ r.iStat = 9 then Field.digits r.ulD1
  else if r.iStat = 1 then
    match E.parseP1 r.szP1 with
    | none => Field.parseError
    | some z => Field.digits (strlenZ z)
  else Field.skip

/-- Write the parse-error line (both streams, no counter). -/
def parseErr (g : Globals) (gap : Nat) : Globals :=
  { g with screen := Msg.parseError gap :: g.screen, report := Msg.parseError gap :: g.report }

/-- The state after `if(!iBackupAll)iBackup=0;` at the head of the loop body. -/
def headState (C : Cfg) (g : Globals) : Globals :=
  if C.iBackupAll then g else { g with iBackup := false }

/-- `iMR2ThisGap` for a record with digit count `ulD1`. -/
def mr2Of (C : Cfg) (ulD1 : Nat) : Bool :=
  (decide (ulD1 ≥ 1000000) && !C.iAllBPSW) || C.iMR2Base

/-- The state after `if(ulD1 > 1999)iBackup=1; if(ulGap > 99999UL)iBackup=1;`. -/
def backupState (C : Cfg) (r : Rec) (ulD1 : Nat) (g : Globals) : Globals :=
  { headState C g with
    iBackup := (headState C g).iBackup || decide (ulD1 > 1999) || decide (r.ulGap > 99999) }

/-- One round of the `while(1)` of `main` on a record that was read. -/
def step (E : Ext) (C : Cfg) (fuel : Nat) (r : Rec) (g : Globals) : Option (Ctl × Globals) :=
  if r.iStat = 0 then some (Ctl.next, headState C g)
  else if r.iG ≤ 0 then some (Ctl.next, headState C g)
  else if r.iG % 2 = 1 ∧ r.iG ≠ 1 then some (Ctl.next, headState C g)
  else if (r.ulGap : Int) ≠ r.iG ∨ r.ulGap > 999999999 then some (Ctl.next, headState C g)
  else
    match field E r with
    | Field.skip => some (Ctl.next, headState C g)
    | Field.parseError => some (Ctl.next, parseErr (headState C g) r.ulGap)
    | Field.digits ulD1 =>
      if r.ulGap < C.ulMinGap then some (Ctl.next, headState C g)
      else if r.ulGap > C.ulMaxGap then some (Ctl.stop, headState C g)
      else if hasEllipsis r.szP1.toList then some (Ctl.next, backupState C r ulD1 g)
      else if ulD1 < C.ulMinDigits ∨ ulD1 > C.ulMaxDigits then
        some (Ctl.next, backupState C r ulD1 g)
      else
        match E.parseP1 r.szP1 with
        | none => some (Ctl.next, parseErr (backupState C r ulD1 g) r.ulGap)
        | some z =>
          if z < 2 then some (Ctl.next, backupState C r ulD1 g)
          else candidate E C fuel r ulD1 (mr2Of C ulD1) z.toNat (backupState C r ulD1 g)

/-- The record loop over the records of the input file; the end of the list is end of file. -/
def run (E : Ext) (C : Cfg) (fuel : Nat) : List Rec → Globals → Option Globals
  | [], g => some g
  | r :: rs, g =>
    match step E C fuel r g with
    | none => none
    | some (Ctl.stop, g1) => some g1
    | some (Ctl.next, g1) => run E C fuel rs g1

/-! ## Specification-level definitions used by the theorems -/

/-- Index `j` is visited by the strike loop started at `ul2`. -/
def Hit (ulGap ulDiv ul2 j : Nat) : Prop :=
  j < ulGap ∧ ul2 ≤ j ∧ ulDiv ∣ j - ul2

instance (ulGap ulDiv ul2 j : Nat) : Decidable (Hit ulGap ulDiv ul2 j) := by
  unfold Hit; infer_instance

/-- The condition under which the strike loop from `ul2` records `ulDiv` at `ulLPD[m]`. -/
def HitL (ulGap ulDiv ul2 : Nat) (b : Buf) (m : Nat) : Prop :=
  m % 2 = 0 ∧ 2 ≤ m ∧ m ≤ ulGap ∧ Hit ulGap ulDiv ul2 ((m - 2) / 2) ∧ b.uchSieve ((m - 2) / 2) = 1

instance (ulGap ulDiv ul2 : Nat) (b : Buf) (m : Nat) : Decidable (HitL ulGap ulDiv ul2 b m) := by
  unfold HitL; infer_instance

/-- The passes of a list of divisors, in order. -/
def passes (mpzP1 ulGap : Nat) (ds : List Nat) (b : Buf) : Buf :=
  ds.foldl (fun b d => sievePass mpzP1 ulGap d b) b

/-- The divisors the table loop applies (same recursion as `loop16`). -/
def divs16 (tbl : Nat → Nat) (ulMaxDiv : Nat) : Nat → Nat → List Nat
  | 0, _ => []
  | n + 1, ul => if tbl ul > ulMaxDiv then [] else tbl ul :: divs16 tbl ulMaxDiv n (ul + 1)

/-- The value of `ulDiv` when the table loop ends (same recursion as `loop16`). -/
def end16 (tbl : Nat → Nat) (ulMaxDiv : Nat) : Nat → Nat → Nat → Nat
  | 0, _, ulDiv => ulDiv
  | n + 1, ul, _ => if tbl ul > ulMaxDiv then tbl ul else end16 tbl ulMaxDiv n (ul + 1) (tbl ul)

/-- The divisors one round of the wheel loop applies (same recursion as `inner30`). -/
def divsInner30 (isPrime32 : Nat → Bool) (ulMaxDiv ulBase : Nat) : List Nat → List Nat
  | [] => []
  | r :: rs =>
    if ulBase + r > ulMaxDiv then []
    else if !isPrime32 (ulBase + r) then divsInner30 isPrime32 ulMaxDiv ulBase rs
    else (ulBase + r) :: divsInner30 isPrime32 ulMaxDiv ulBase rs

/-- The value of `ulDiv` after one round of the wheel loop (same recursion as `inner30`). -/
def endInner30 (ulMaxDiv ulBase : Nat) : List Nat → Nat → Nat
  | [], ulDiv => ulDiv
  | r :: rs, _ =>
    if ulBase + r > ulMaxDiv then ulBase + r else endInner30 ulMaxDiv ulBase rs (ulBase + r)

/-- The divisors the wheel loop applies (same recursion as `outer30`). -/
def divsOuter30 (isPrime32 : Nat → Bool) (ulMaxDiv : Nat) : Nat → Nat → List Nat
  | 0, _ => []
  | fuel + 1, ulBase =>
    divsInner30 isPrime32 ulMaxDiv ulBase d30 ++
      (if endInner30 ulMaxDiv ulBase d30 0 > ulMaxDiv then []
       else divsOuter30 isPrime32 ulMaxDiv fuel (ulBase + 30))

/-- The trial divisors `vSieve2` applies to a candidate, in order. -/
def sieveDivs (E : Ext) (ulD1 mpzP1 ulGap : Nat) : List Nat :=
  divs16 E.ulPrime16 (ulMaxDiv ulD1 mpzP1 ulGap) 6540 2 ++
    (if end16 E.ulPrime16 (ulMaxDiv ulD1 mpzP1 ulGap) 6540 2 0 > ulMaxDiv ulD1 mpzP1 ulGap then []
     else divsOuter30 E.iIsPrime32 (ulMaxDiv ulD1 mpzP1 ulGap)
       (ulMaxDiv ulD1 mpzP1 ulGap + 1) 65520)

/-- The first offset `g, g+2, g+4, ...` at which `good` holds, within the fuel. -/
def firstGood (good : Nat → Bool) : Nat → Nat → Option Nat
  | 0, _ => none
  | fuel + 1, g => if good g then some g else firstGood good fuel (g + 2)

/-- The exit condition of the loop of `mpz_gap` at offset `ulG`. -/
def goodAt (E : Ext) (uch : Nat → Nat) (mr2 : Bool) (ulMRReps mpzP1 ulGap ulG : Nat) : Bool :=
  iTest uch ulGap ulG && fermat2 (mpzP1 + ulG) && oracleAt E mr2 ulMRReps mpzP1 ulGap ulG

/-- The exit condition of the loop of `mpz_gap_pfgw` at offset `ulG`. -/
def goodAtP (E : Ext) (uch : Nat → Nat) (mr2 : Bool) (ulMRReps mpzP1 ulGap ulG : Nat) : Bool :=
  iTest uch ulGap ulG && (E.pfgw (mpzP1 + ulG) != 1 && oracleAt E mr2 ulMRReps mpzP1 ulGap ulG)

/-- The exit condition of the search that `INTERIOR` dispatches to. -/
def searchGood (E : Ext) (C : Cfg) (ulD1 : Nat) (mr2 : Bool) (mpzP1 ulGap : Nat) (g : Globals)
    (ulG : Nat) : Bool :=
  if helperUsed C ulD1 then
    goodAtP E (sieveOf E C ulD1 mpzP1 ulGap (mpzP1 % 2 ^ 64) g).buf.uchSieve mr2 C.ulMRReps
      mpzP1 ulGap ulG
  else
    goodAt E (sieveOf E C ulD1 mpzP1 ulGap (mpzP1 % 2 ^ 64) g).buf.uchSieve mr2 C.ulMRReps
      mpzP1 ulGap ulG

/-- The helper reports the composite status 1 on no prime. -/
def HelperSound (E : Ext) : Prop :=
  ∀ n, Nat.Prime n → E.pfgw n ≠ 1

/-- The entries of `ulPrime16` the sieve reads (indices 2 to 6541) are odd primes. -/
def OddPrimeTable (tbl : Nat → Nat) : Prop :=
  ∀ k, 2 ≤ k → k < 6542 → Nat.Prime (tbl k) ∧ tbl k % 2 = 1

/-- The table is exact for a sieve ceiling `m`: the entries read are odd primes in
increasing order, every prime from 3 up to `min m 65519` is among them, and when the ceiling
lies above 65519 no entry does. -/
def TableExactTo (tbl : Nat → Nat) (m : Nat) : Prop :=
  OddPrimeTable tbl ∧
    (∀ j k, 2 ≤ j → j < k → k < 6542 → tbl j < tbl k) ∧
    (∀ p, Nat.Prime p → 3 ≤ p → p ≤ 65519 → p ≤ m → ∃ k, 2 ≤ k ∧ k < 6542 ∧ tbl k = p) ∧
    (65519 < m → ∀ k, 2 ≤ k → k < 6542 → tbl k ≤ 65519)

/-- The table is exact: the entries read are the odd primes up to 65519 in increasing
order. -/
def TableExact (tbl : Nat → Nat) : Prop :=
  OddPrimeTable tbl ∧
    (∀ j k, 2 ≤ j → j < k → k < 6542 → tbl j < tbl k) ∧
    (∀ p, Nat.Prime p → 3 ≤ p → p ≤ 65519 → ∃ k, 2 ≤ k ∧ k < 6542 ∧ tbl k = p) ∧
    (∀ k, 2 ≤ k → k < 6542 → tbl k ≤ 65519)

/-- The 32-bit primality filter is exact. -/
def FilterExact (isPrime32 : Nat → Bool) : Prop :=
  ∀ n, n < 2 ^ 32 → (isPrime32 n = true ↔ Nat.Prime n)

/-- The oracle `iPrP` accepts exactly the primes. -/
def PrpExact (E : Ext) : Prop :=
  ∀ n reps bound, E.iPrP n reps bound = true ↔ Nat.Prime n

/-- The base-2 Miller-Rabin fallback accepts exactly the primes. -/
def MrExact (E : Ext) : Prop :=
  ∀ n, E.iMillerRabin n 2 = true ↔ Nat.Prime n

/-- The record passes every filter of the loop body up to the parse of `P1`: a record was
read, its gap is positive, even or 1, consistent and at most 999999999, inside the gap range,
the prime field has no ellipsis, the digit count `ulD1` is inside the digit range, and the
prime field parses to `z >= 2`. -/
def Reaches (E : Ext) (C : Cfg) (r : Rec) (ulD1 : Nat) (z : Int) : Prop :=
  r.iStat ≠ 0 ∧ 0 < r.iG ∧ (r.iG % 2 = 1 → r.iG = 1) ∧ (r.ulGap : Int) = r.iG ∧
    r.ulGap ≤ 999999999 ∧ field E r = Field.digits ulD1 ∧
    C.ulMinGap ≤ r.ulGap ∧ r.ulGap ≤ C.ulMaxGap ∧ hasEllipsis r.szP1.toList = false ∧
    C.ulMinDigits ≤ ulD1 ∧ ulD1 ≤ C.ulMaxDigits ∧ E.parseP1 r.szP1 = some z ∧ 2 ≤ z

instance (E : Ext) (C : Cfg) (r : Rec) (ulD1 : Nat) (z : Int) :
    Decidable (Reaches E C r ulD1 z) := by
  unfold Reaches; infer_instance

/-- The record left the counters, the call log and the buffers as they were. -/
def Untouched (g g1 : Globals) : Prop :=
  g1.ulOK = g.ulOK ∧ g1.ulErrors = g.ulErrors ∧ g1.iNCGaps = g.iNCGaps ∧ g1.log = g.log ∧
    g1.uchSieve = g.uchSieve ∧ g1.ulLPD = g.ulLPD ∧ g1.nocheck = g.nocheck ∧
    g1.ulGBack = g.ulGBack ∧ g1.bak = g.bak ∧ g1.siv = g.siv

/-- A snapshot file `s1` that differs from the written file `s` in the header gap, in the
header fingerprint, in the stored checksum only, or in the value of one offset line only. -/
inductive Tampered (s : SivFile) : SivFile → Prop
  | gap (s1 : SivFile) (h : s1.gap ≠ s.gap) : Tampered s s1
  | p1rem (s1 : SivFile) (h : s1.p1rem ≠ s.p1rem) : Tampered s s1
  | checksum (v : Nat) (h : v ≠ s.checksum) : Tampered s { s with checksum := v }
  | offset (i v : Nat) (hi : i < s.offs.length) (h : v ≠ s.offs.get ⟨i, hi⟩) :
      Tampered s { s with offs := s.offs.set i v }

/-- The interior of a candidate with `P1 ≠ 2` read as a search for the first offset
`ulG0, ulG0 + 2, ...` at which the search loop stops, followed by the verdict. -/
def searchFrom (E : Ext) (C : Cfg) (fuel ulD1 : Nat) (mr2 : Bool) (mpzP1 ulGap ulG0 : Nat)
    (g : Globals) : Option (Ctl × Globals) :=
  (firstGood (searchGood E C ulD1 mr2 mpzP1 ulGap g) fuel ulG0).map
    (fun ulG => (Ctl.next, verdict E C mpzP1 ulGap ulG
      (afterSearch C (helperUsed C ulD1) mpzP1 ulGap
        (sieveOf E C ulD1 mpzP1 ulGap (mpzP1 % 2 ^ 64) g) g)))

/-- The collaborators `E1` answer as `E` does, except that the primality oracle (`iPrP`,
`iMillerRabin`) and the trial division may answer differently on the one number `n`. -/
def AgreeOff (E E1 : Ext) (n : Nat) : Prop :=
  E1.ulPrime16 = E.ulPrime16 ∧ E1.iIsPrime32 = E.iIsPrime32 ∧ E1.pfgw = E.pfgw ∧
    E1.parseP1 = E.parseP1 ∧
    ∀ m, m ≠ n → (∀ a b, E1.iPrP m a b = E.iPrP m a b) ∧
      (∀ a, E1.iMillerRabin m a = E.iMillerRabin m a) ∧
      (∀ b, E1.ulPrmDiv m b = E.ulPrmDiv m b)

/-! ## Reference collaborators and a start state, for the concrete examples -/

/-- Primality by trial division. -/
def isPrimeB (n : Nat) : Bool :=
  decide (2 ≤ n) && (List.range (n - 2)).all (fun i => n % (i + 2) != 0)

/-- Least number from `n` on that passes `isPrimeB`, within the fuel. -/
def nextPrimeAux : Nat → Nat → Nat
  | 0, n => n
  | fuel + 1, n => if isPrimeB n then n else nextPrimeAux fuel (n + 1)

/-- Modelled from the spec: the table `ulPrime16` filled by `vGenPrimes16` of `trn.c` (the
precomputed table of primes; the sieve reads it from index 2 on and expects 3 there, so
index `k >= 1` holds the `k`-th prime). -/
def primeTable : Nat → Nat
  | 0 => 1
  | 1 => 2
  | k + 2 => nextPrimeAux (primeTable (k + 1)) (primeTable (k + 1) + 1)

/-- Least divisor of `n` from `d` on, within the fuel. -/
def leastDivAux (n : Nat) : Nat → Nat → Nat
  | 0, _ => n
  | fuel + 1, d => if n % d = 0 then d else leastDivAux n fuel (d + 1)

/-- Value of a string of decimal digits, most significant first. -/
def parseDigits : List Char → Nat → Option Nat
  | [], acc => some acc
  | c :: cs, acc =>
    if c.isDigit then parseDigits cs (10 * acc + (c.toNat - 48)) else none

/-- A decimal literal; formulas are not evaluated. -/
def parseLiteral (s : String) : Option Int :=
  if s.toList = [] then none else (parseDigits s.toList 0).map Int.ofNat

/-- Ideal collaborators: the oracles decide primality, the helper reports status 1 exactly
on composites, trial division returns the least proper factor up to the bound or 1. -/
def exactExt : Ext where
  iPrP := fun n _ _ => isPrimeB n
  iMillerRabin := fun n _ => isPrimeB n
  ulPrmDiv := fun n bound =>
    if leastDivAux n n 2 < n ∧ leastDivAux n n 2 ≤ bound then leastDivAux n n 2 else 1
  ulPrime16 := primeTable
  iIsPrime32 := isPrimeB
  pfgw := fun n => if isPrimeB n then 0 else 1
  parseP1 := parseLiteral

/-- The settings of a run without options: `cglp4 infile` (gaps to 3000000, 300000 digits). -/
def cfg0 : Cfg where
  ulMinGap := 0
  ulMaxGap := 3000000
  ulMinDigits := 0
  ulMaxDigits := 300000
  iEPO := false
  iInterior := false
  iNoCheck := false
  iBackupAll := false
  iMR2Base := false
  iAllBPSW := false
  iCheckSieve := false
  iPFGW := false
  iScreen := true
  ulMRReps := 1
  ulMG := 3000000

/-- The state at the first record: no files, counters at zero, `ulGBack = 2`. -/
def init : Globals where
  uchSieve := fun _ => 0
  ulLPD := fun _ => 0
  ulGBack := 2
  iBackup := false
  ulOK := 0
  ulErrors := 0
  iNCGaps := 0
  bak := fun _ => none
  siv := fun _ => none
  report := []
  screen := []
  nocheck := []
  log := []

/-- A record of the free-form layout `gap  prime`: the line is the gap, two blanks and the
prime field; the trim in place moves the prime field up against the gap. -/
def freeRec (gap : Nat) (p : String) : Rec :=
  { iStat := 1, iG := gap, ulGap := gap, ulD1 := 0, szP1 := p,
    szBuffer := toString gap ++ "  " ++ p, szTrim := toString gap ++ p }

/-- Blanks in front of `s` up to the width `n`. -/
def padTo (n : Nat) (s : String) : String :=
  String.mk (List.replicate (n - s.length) ' ') ++ s

/-- A record of the fixed-column layout with a six-digit gap field: the gap in columns 1-6,
the digit count in columns 33-39, the prime from column 41 on. -/
def colRec (gap digits : Nat) (p : String) : Rec :=
  { iStat := 6, iG := gap, ulGap := gap, ulD1 := digits, szP1 := p,
    szBuffer := padTo 6 (toString gap) ++ padTo 33 (toString digits) ++ " " ++ p,
    szTrim := padTo 6 (toString gap) ++ padTo 33 (toString digits) ++ " " ++ p }

/-! ## Lemmas: arithmetic helpers and the strike loop -/

theorem ceilSqrtAux_spec (x : Nat) : ∀ fuel c, x ≤ (c + fuel) * (c + fuel) →
    (∀ k, k < c → k * k < x) →
    x ≤ ceilSqrtAux x fuel c * ceilSqrtAux x fuel c ∧
      ∀ k, k < ceilSqrtAux x fuel c → k * k < x := by
  intro fuel
  induction fuel with
  | zero => intro c h1 h2; simpa [ceilSqrtAux] using ⟨h1, h2⟩
  | succ n ih =>
    intro c h1 h2
    unfold ceilSqrtAux
    split
    · rename_i h; exact ⟨h, h2⟩
    · rename_i h
      apply ih
      · have : c + 1 + n = c + (n + 1) := by omega
        rw [this]; exact h1
      · intro k hk
        rcases Nat.lt_succ_iff_lt_or_eq.mp hk with h3 | h3
        · exact h2 k h3
        · subst h3; omega

theorem ceilSqrt_spec (x : Nat) :
    x ≤ ceilSqrt x * ceilSqrt x ∧ ∀ k, k < ceilSqrt x → k * k < x := by
  unfold ceilSqrt
  apply ceilSqrtAux_spec
  · simp only [Nat.zero_add]
    rcases Nat.eq_zero_or_pos x with h | h
    · simp [h]
    · exact Nat.le_mul_of_pos_left x h
  · intro k hk; omega



theorem hit_step {ulGap ulDiv ul2 j : Nat} (hd : 1 ≤ ulDiv) (hne : j ≠ ul2) :
    Hit ulGap ulDiv (ul2 + ulDiv) j ↔ Hit ulGap ulDiv ul2 j := by
  constructor
  · rintro ⟨h1, h2, h3⟩
    refine ⟨h1, by omega, ?_⟩
    have : j - ul2 = (j - (ul2 + ulDiv)) + ulDiv := by omega
    rw [this]
    exact Dvd.dvd.add h3 (dvd_refl _)
  · rintro ⟨h1, h2, h3⟩
    have hpos : 0 < j - ul2 := by omega
    have hle : ulDiv ≤ j - ul2 := Nat.le_of_dvd hpos h3
    refine ⟨h1, by omega, ?_⟩
    have : j - (ul2 + ulDiv) = (j - ul2) - ulDiv := by omega
    rw [this]
    exact Nat.dvd_sub' h3 (dvd_refl _)

theorem hit_self {ulGap ulDiv ul2 : Nat} (hd : 1 ≤ ulDiv) :
    ¬ Hit ulGap ulDiv (ul2 + ulDiv) ul2 := by
  rintro ⟨_, h, _⟩; omega

theorem hit_none {ulGap ulDiv ul2 j : Nat} (h : ulGap ≤ ul2) : ¬ Hit ulGap ulDiv ul2 j := by
  rintro ⟨h1, h2, _⟩; omega

theorem strikeAt_uch (ulGap ulDiv ul2 : Nat) (b : Buf) (j : Nat) :
    (strikeAt ulGap ulDiv ul2 b).uchSieve j =
      if j = ul2 ∧ b.uchSieve j = 1 then 0 else b.uchSieve j := by
  unfold strikeAt
  by_cases h : b.uchSieve ul2 = 1
  · by_cases hj : j = ul2
    · subst hj; simp [h, setAt]
    · simp [h, setAt, hj]
  · by_cases hj : j = ul2
    · subst hj; simp [h]
    · simp [h, hj]

theorem strikeAt_lpd (ulGap ulDiv ul2 : Nat) (b : Buf) (m : Nat) :
    (strikeAt ulGap ulDiv ul2 b).ulLPD m =
      if m = 2 * ul2 + 2 ∧ m ≤ ulGap ∧ b.uchSieve ul2 = 1 then ulDiv else b.ulLPD m := by
  unfold strikeAt
  by_cases h : b.uchSieve ul2 = 1
  · by_cases hm : m = 2 * ul2 + 2
    · subst hm
      by_cases hg : 2 * ul2 + 2 ≤ ulGap <;> simp [h, setAt, hg]
    · by_cases hg : 2 * ul2 + 2 ≤ ulGap <;> simp [h, setAt, hg, hm]
  · simp [h]

theorem strike_uch (ulGap ulDiv : Nat) (hd : 1 ≤ ulDiv) :
    ∀ fuel ul2 (b : Buf), ulGap ≤ fuel + ul2 → ∀ j,
      (strike ulGap ulDiv fuel ul2 b).uchSieve j =
        if Hit ulGap ulDiv ul2 j ∧ b.uchSieve j = 1 then 0 else b.uchSieve j := by
  intro fuel
  induction fuel with
  | zero =>
    intro ul2 b hf j
    have : ¬ Hit ulGap ulDiv ul2 j := hit_none (by omega)
    simp [strike, this]
  | succ n ih =>
    intro ul2 b hf j
    unfold strike
    by_cases hlt : ul2 < ulGap
    · rw [if_pos hlt, ih (ul2 + ulDiv) _ (by omega) j, strikeAt_uch]
      by_cases hj : j = ul2
      · subst hj
        have h1 : ¬ Hit ulGap ulDiv (j + ulDiv) j := hit_self hd
        have h2 : Hit ulGap ulDiv j j := ⟨hlt, le_refl _, by simp⟩
        simp [h1, h2]
      · simp [hit_step hd hj, hj]
    · rw [if_neg hlt]
      have : ¬ Hit ulGap ulDiv ul2 j := hit_none (by omega)
      simp [this]


theorem strike_lpd (ulGap ulDiv : Nat) (hd : 1 ≤ ulDiv) :
    ∀ fuel ul2 (b : Buf), ulGap ≤ fuel + ul2 → ∀ m,
      (strike ulGap ulDiv fuel ul2 b).ulLPD m =
        if HitL ulGap ulDiv ul2 b m then ulDiv else b.ulLPD m := by
  intro fuel
  induction fuel with
  | zero =>
    intro ul2 b hf m
    have : ¬ HitL ulGap ulDiv ul2 b m := fun h => hit_none (by omega) h.2.2.2.1
    simp only [strike, this, if_false]
  | succ n ih =>
    intro ul2 b hf m
    unfold strike
    by_cases hlt : ul2 < ulGap
    · rw [if_pos hlt, ih (ul2 + ulDiv) _ (by omega) m, strikeAt_lpd]
      by_cases hA : HitL ulGap ulDiv ul2 b m
      · rw [if_pos hA]
        obtain ⟨hm2, hm, hmg, hh, hu⟩ := hA
        by_cases hj : (m - 2) / 2 = ul2
        · have hB : ¬ HitL ulGap ulDiv (ul2 + ulDiv) (strikeAt ulGap ulDiv ul2 b) m := by
            rintro ⟨_, _, _, hh', _⟩
            rw [hj] at hh'
            exact hit_self hd hh'
          rw [if_neg hB, if_pos ⟨by omega, hmg, by rw [← hj]; exact hu⟩]
        · have hB : HitL ulGap ulDiv (ul2 + ulDiv) (strikeAt ulGap ulDiv ul2 b) m :=
            ⟨hm2, hm, hmg, (hit_step hd hj).mpr hh, by rw [strikeAt_uch]; simp [hj, hu]⟩
          rw [if_pos hB]
      · rw [if_neg hA]
        have hB : ¬ HitL ulGap ulDiv (ul2 + ulDiv) (strikeAt ulGap ulDiv ul2 b) m := by
          rintro ⟨hm2, hm, hmg, hh', hu'⟩
          have hj : (m - 2) / 2 ≠ ul2 := by
            intro h; rw [h] at hh'; exact hit_self hd hh'
          rw [strikeAt_uch] at hu'
          simp [hj] at hu'
          exact hA ⟨hm2, hm, hmg, (hit_step hd hj).mp hh', hu'⟩
        rw [if_neg hB]
        have hC : ¬ (m = 2 * ul2 + 2 ∧ m ≤ ulGap ∧ b.uchSieve ul2 = 1) := by
          rintro ⟨h1, h2, h3⟩
          have : (m - 2) / 2 = ul2 := by omega
          exact hA ⟨by omega, by omega, h2, by rw [this]; exact ⟨hlt, le_refl _, by simp⟩,
            by rw [this]; exact h3⟩
        rw [if_neg hC]
    · rw [if_neg hlt]
      have : ¬ HitL ulGap ulDiv ul2 b m := fun h => hit_none (by omega) h.2.2.2.1
      rw [if_neg this]


theorem ulOffset_spec (n d : Nat) (hodd : d % 2 = 1) :
    ulOffset (n % d) d < d ∧ d ∣ n + 2 * ulOffset (n % d) d := by
  have hd : 0 < d := by omega
  have hlt : n % d < d := Nat.mod_lt _ hd
  have hdm : d * (n / d) + n % d = n := Nat.div_add_mod n d
  unfold ulOffset
  split
  · rename_i h1
    refine ⟨by omega, ?_⟩
    have h2 : 2 * ((d - n % d) / 2) = d - n % d := by omega
    refine ⟨n / d + 1, ?_⟩
    rw [h2, Nat.mul_add, Nat.mul_one]
    omega
  · split
    · rename_i h1 h2
      refine ⟨hd, ?_⟩
      rw [Nat.mul_zero, Nat.add_zero]
      exact Nat.dvd_of_mod_eq_zero h2
    · rename_i h1 h2
      refine ⟨by omega, ?_⟩
      refine ⟨n / d + 2, ?_⟩
      rw [Nat.mul_add]
      omega

theorem odd_dvd_two_mul {d a : Nat} (hodd : d % 2 = 1) (h : d ∣ 2 * a) : d ∣ a := by
  have hc : Nat.Coprime d 2 := by
    rw [Nat.coprime_comm, Nat.coprime_two_left]
    exact Nat.odd_iff.mpr hodd
  exact hc.dvd_of_dvd_mul_left h


/-! ## Lemmas: one pass, a list of passes -/

theorem hit_offset_iff (mpzP1 ulGap d j : Nat) (hodd : d % 2 = 1) :
    Hit ulGap d (ulOffset ((mpzP1 + 2) % d) d) j ↔ j < ulGap ∧ d ∣ mpzP1 + 2 * j + 2 := by
  obtain ⟨hlt, hdvd⟩ := ulOffset_spec (mpzP1 + 2) d hodd
  generalize ulOffset ((mpzP1 + 2) % d) d = off at hlt hdvd
  unfold Hit
  constructor
  · rintro ⟨h1, h2, h3⟩
    refine ⟨h1, ?_⟩
    have : mpzP1 + 2 * j + 2 = (mpzP1 + 2 + 2 * off) + 2 * (j - off) := by omega
    rw [this]
    exact Dvd.dvd.add hdvd (Dvd.dvd.mul_left h3 2)
  · rintro ⟨h1, h2⟩
    refine ⟨h1, ?_⟩
    by_cases hle : off ≤ j
    · refine ⟨hle, ?_⟩
      apply odd_dvd_two_mul hodd
      have h4 : mpzP1 + 2 * j + 2 = (mpzP1 + 2 + 2 * off) + 2 * (j - off) := by omega
      rw [h4] at h2
      exact (Nat.dvd_add_right hdvd).mp h2
    · exfalso
      have h4 : mpzP1 + 2 + 2 * off = (mpzP1 + 2 * j + 2) + 2 * (off - j) := by omega
      rw [h4] at hdvd
      have h5 : d ∣ off - j := odd_dvd_two_mul hodd ((Nat.dvd_add_right h2).mp hdvd)
      have h6 : d ≤ off - j := Nat.le_of_dvd (by omega) h5
      omega

theorem sievePass_uch (mpzP1 ulGap d : Nat) (hodd : d % 2 = 1) (b : Buf) (j : Nat) :
    (sievePass mpzP1 ulGap d b).uchSieve j =
      if (j < ulGap ∧ d ∣ mpzP1 + 2 * j + 2) ∧ b.uchSieve j = 1 then 0 else b.uchSieve j := by
  unfold sievePass
  rw [strike_uch ulGap d (by omega) ulGap _ b (by omega) j]
  simp only [hit_offset_iff mpzP1 ulGap d j hodd]

theorem sievePass_lpd (mpzP1 ulGap d : Nat) (hodd : d % 2 = 1) (b : Buf) (m : Nat) :
    (sievePass mpzP1 ulGap d b).ulLPD m =
      if (m % 2 = 0 ∧ 2 ≤ m ∧ m ≤ ulGap ∧ d ∣ mpzP1 + m) ∧ b.uchSieve ((m - 2) / 2) = 1
      then d else b.ulLPD m := by
  unfold sievePass
  rw [strike_lpd ulGap d (by omega) ulGap _ b (by omega) m]
  have : HitL ulGap d (ulOffset ((mpzP1 + 2) % d) d) b m ↔
      (m % 2 = 0 ∧ 2 ≤ m ∧ m ≤ ulGap ∧ d ∣ mpzP1 + m) ∧ b.uchSieve ((m - 2) / 2) = 1 := by
    unfold HitL
    rw [hit_offset_iff mpzP1 ulGap d _ hodd]
    constructor
    · rintro ⟨h1, h2, h3, ⟨h4, h5⟩, h6⟩
      have : mpzP1 + 2 * ((m - 2) / 2) + 2 = mpzP1 + m := by omega
      rw [this] at h5
      exact ⟨⟨h1, h2, h3, h5⟩, h6⟩
    · rintro ⟨⟨h1, h2, h3, h5⟩, h6⟩
      have : mpzP1 + 2 * ((m - 2) / 2) + 2 = mpzP1 + m := by omega
      exact ⟨h1, h2, h3, ⟨by omega, by rw [this]; exact h5⟩, h6⟩
  simp only [this]

theorem passes_nil (mpzP1 ulGap : Nat) (b : Buf) : passes mpzP1 ulGap [] b = b := rfl

theorem passes_cons (mpzP1 ulGap d : Nat) (ds : List Nat) (b : Buf) :
    passes mpzP1 ulGap (d :: ds) b = passes mpzP1 ulGap ds (sievePass mpzP1 ulGap d b) := rfl

theorem passes_append (mpzP1 ulGap : Nat) (ds es : List Nat) (b : Buf) :
    passes mpzP1 ulGap (ds ++ es) b = passes mpzP1 ulGap es (passes mpzP1 ulGap ds b) := by
  unfold passes; rw [List.foldl_append]

/-- The sieve byte after the passes of a list of odd divisors. -/
theorem passes_uch (mpzP1 ulGap : Nat) :
    ∀ (ds : List Nat) (b : Buf), (∀ d ∈ ds, d % 2 = 1) → ∀ j,
      (passes mpzP1 ulGap ds b).uchSieve j =
        if (j < ulGap ∧ ∃ d ∈ ds, d ∣ mpzP1 + 2 * j + 2) ∧ b.uchSieve j = 1 then 0
        else b.uchSieve j := by
  intro ds
  induction ds with
  | nil => intro b _ j; simp [passes_nil]
  | cons d ds ih =>
    intro b hodd j
    rw [passes_cons, ih _ (fun e he => hodd e (List.mem_cons_of_mem _ he)) j,
      sievePass_uch mpzP1 ulGap d (hodd d (List.mem_cons_self _ _))]
    by_cases hu : b.uchSieve j = 1
    · by_cases hj : j < ulGap
      · by_cases hd : d ∣ mpzP1 + 2 * j + 2
        · simp [hu, hj, hd]
        · simp [hu, hj, hd]
      · simp [hu, hj]
    · simp [hu]


/-! ## Lemmas: the divisor loops as a list of passes -/

/-- The least-divisor entry after the passes of a list of odd divisors. -/
theorem passes_lpd (mpzP1 ulGap : Nat) :
    ∀ (ds : List Nat) (b : Buf), (∀ d ∈ ds, d % 2 = 1) → ∀ m,
      (passes mpzP1 ulGap ds b).ulLPD m =
        if (m % 2 = 0 ∧ 2 ≤ m ∧ m ≤ ulGap) ∧ b.uchSieve ((m - 2) / 2) = 1 then
          (ds.find? (fun d => decide (d ∣ mpzP1 + m))).getD (b.ulLPD m)
        else b.ulLPD m := by
  intro ds
  induction ds with
  | nil => intro b _ m; simp [passes_nil]
  | cons d ds ih =>
    intro b hodd m
    rw [passes_cons, ih _ (fun e he => hodd e (List.mem_cons_of_mem _ he)) m,
      sievePass_lpd mpzP1 ulGap d (hodd d (List.mem_cons_self _ _)),
      sievePass_uch mpzP1 ulGap d (hodd d (List.mem_cons_self _ _))]
    by_cases hc : m % 2 = 0 ∧ 2 ≤ m ∧ m ≤ ulGap
    · have hj : mpzP1 + 2 * ((m - 2) / 2) + 2 = mpzP1 + m := by omega
      have hlt : (m - 2) / 2 < ulGap := by omega
      rw [hj]
      by_cases hu : b.uchSieve ((m - 2) / 2) = 1
      · by_cases hd : d ∣ mpzP1 + m
        · simp [hc, hu, hd, hlt, List.find?]
        · simp [hc, hu, hd, hlt, List.find?]
      · simp [hc, hu]
    · have hc2 : ¬ ((m % 2 = 0 ∧ 2 ≤ m ∧ m ≤ ulGap ∧ d ∣ mpzP1 + m) ∧
          b.uchSieve ((m - 2) / 2) = 1) := fun h => hc ⟨h.1.1, h.1.2.1, h.1.2.2.1⟩
      rw [if_neg hc2]
      simp [hc]

theorem loop16_eq (tbl : Nat → Nat) (m mpzP1 ulGap : Nat) :
    ∀ n ul d0 (b : Buf), loop16 tbl m mpzP1 ulGap n ul d0 b =
      (end16 tbl m n ul d0, passes mpzP1 ulGap (divs16 tbl m n ul) b) := by
  intro n
  induction n with
  | zero => intro ul d0 b; rfl
  | succ n ih =>
    intro ul d0 b
    unfold loop16 end16 divs16
    by_cases h : tbl ul > m
    · simp [h, passes_nil]
    · simp [h, ih, passes_cons]

theorem inner30_eq (isP : Nat → Bool) (m mpzP1 ulGap ulBase : Nat) :
    ∀ rs d0 (b : Buf), inner30 isP m mpzP1 ulGap ulBase rs d0 b =
      (endInner30 m ulBase rs d0, passes mpzP1 ulGap (divsInner30 isP m ulBase rs) b) := by
  intro rs
  induction rs with
  | nil => intro d0 b; rfl
  | cons r rs ih =>
    intro d0 b
    unfold inner30 endInner30 divsInner30
    by_cases h : ulBase + r > m
    · simp [h, passes_nil]
    · by_cases hp : isP (ulBase + r) = true
      · simp [h, hp, ih, passes_cons]
      · simp [h, hp, ih]

theorem endInner30_cons (m ulBase r : Nat) (rs : List Nat) (d0 d1 : Nat) :
    endInner30 m ulBase (r :: rs) d0 = endInner30 m ulBase (r :: rs) d1 := by
  simp [endInner30]

theorem outer30_eq (isP : Nat → Bool) (m mpzP1 ulGap : Nat) :
    ∀ fuel ulBase d0 (b : Buf), outer30 isP m mpzP1 ulGap fuel ulBase d0 b =
      passes mpzP1 ulGap (divsOuter30 isP m fuel ulBase) b := by
  intro fuel
  induction fuel with
  | zero => intro ulBase d0 b; rfl
  | succ n ih =>
    intro ulBase d0 b
    unfold outer30 divsOuter30
    simp only [inner30_eq, passes_append]
    have : endInner30 m ulBase d30 d0 = endInner30 m ulBase d30 0 := endInner30_cons _ _ _ _ _ _
    rw [this]
    by_cases h : endInner30 m ulBase d30 0 > m
    · simp [h, passes_nil]
    · simp [h, ih]

/-- The divisor passes of `vSieve2` are the passes of `sieveDivs`, in order. -/
theorem sieveCore_eq (E : Ext) (ulD1 mpzP1 ulGap : Nat) (b : Buf) :
    sieveCore E ulD1 mpzP1 ulGap b = passes mpzP1 ulGap (sieveDivs E ulD1 mpzP1 ulGap) b := by
  unfold sieveCore sieveDivs
  simp only [loop16_eq, passes_append]
  by_cases h : end16 E.ulPrime16 (ulMaxDiv ulD1 mpzP1 ulGap) 6540 2 0 > ulMaxDiv ulD1 mpzP1 ulGap
  · simp [h, passes_nil]
  · simp [h, outer30_eq]


/-! ## Lemmas: the filters of the record loop -/

theorem untouched_refl (g : Globals) : Untouched g g :=
  ⟨rfl, rfl, rfl, rfl, rfl, rfl, rfl, rfl, rfl, rfl⟩

theorem untouched_head (C : Cfg) (g : Globals) : Untouched g (headState C g) := by
  unfold headState; split <;> exact ⟨rfl, rfl, rfl, rfl, rfl, rfl, rfl, rfl, rfl, rfl⟩

theorem untouched_backup (C : Cfg) (r : Rec) (d : Nat) (g : Globals) :
    Untouched g (backupState C r d g) := by
  have h := untouched_head C g
  unfold backupState
  exact h

theorem untouched_parseErr (g g1 : Globals) (gap : Nat) (h : Untouched g g1) :
    Untouched g (parseErr g1 gap) := h

/-- A record that passes the filters is handed to `candidate`. -/
theorem step_of_reaches (E : Ext) (C : Cfg) (fuel : Nat) (r : Rec) (g : Globals) (ulD1 : Nat)
    (z : Int) (h : Reaches E C r ulD1 z) :
    step E C fuel r g =
      candidate E C fuel r ulD1 (mr2Of C ulD1) z.toNat (backupState C r ulD1 g) := by
  obtain ⟨h1, h2, h3, h4, h5, h6, h7, h8, h9, h10, h11, h12, h13⟩ := h
  unfold step
  rw [if_neg h1, if_neg (by omega), if_neg (by intro hh; exact hh.2 (h3 hh.1)),
    if_neg (by intro hh; rcases hh with hh | hh; exact hh h4; omega)]
  simp only [h6]
  rw [if_neg (by omega), if_neg (by omega)]
  simp only [h9, h12]
  rw [if_neg (by simp), if_neg (by omega), if_neg (by omega)]

/-- Every round of the record loop either leaves counters, log and buffers untouched or hands
a record that passed the filters to `candidate`. -/
theorem step_cases (E : Ext) (C : Cfg) (fuel : Nat) (r : Rec) (g : Globals) (ctl : Ctl)
    (g1 : Globals) (h : step E C fuel r g = some (ctl, g1)) :
    Untouched g g1 ∨
      ∃ ulD1 z, Reaches E C r ulD1 z ∧
        candidate E C fuel r ulD1 (mr2Of C ulD1) z.toNat (backupState C r ulD1 g)
          = some (ctl, g1) := by
  unfold step at h
  by_cases h1 : r.iStat = 0
  · rw [if_pos h1] at h; cases h; exact Or.inl (untouched_head C g)
  rw [if_neg h1] at h
  by_cases h2 : r.iG ≤ 0
  · rw [if_pos h2] at h; cases h; exact Or.inl (untouched_head C g)
  rw [if_neg h2] at h
  by_cases h3 : r.iG % 2 = 1 ∧ r.iG ≠ 1
  · rw [if_pos h3] at h; cases h; exact Or.inl (untouched_head C g)
  rw [if_neg h3] at h
  by_cases h4 : (r.ulGap : Int) ≠ r.iG ∨ r.ulGap > 999999999
  · rw [if_pos h4] at h; cases h; exact Or.inl (untouched_head C g)
  rw [if_neg h4] at h
  cases h6 : field E r with
  | skip => rw [h6] at h; cases h; exact Or.inl (untouched_head C g)
  | parseError => rw [h6] at h; cases h; exact Or.inl (untouched_head C g)
  | digits ulD1 =>
    rw [h6] at h
    simp only at h
    by_cases h7 : r.ulGap < C.ulMinGap
    · rw [if_pos h7] at h; cases h; exact Or.inl (untouched_head C g)
    rw [if_neg h7] at h
    by_cases h8 : r.ulGap > C.ulMaxGap
    · rw [if_pos h8] at h; cases h; exact Or.inl (untouched_head C g)
    rw [if_neg h8] at h
    by_cases h9 : hasEllipsis r.szP1.toList = true
    · rw [if_pos h9] at h; cases h; exact Or.inl (untouched_backup C r ulD1 g)
    rw [if_neg h9] at h
    by_cases h10 : ulD1 < C.ulMinDigits ∨ ulD1 > C.ulMaxDigits
    · rw [if_pos h10] at h; cases h; exact Or.inl (untouched_backup C r ulD1 g)
    rw [if_neg h10] at h
    cases h12 : E.parseP1 r.szP1 with
    | none => rw [h12] at h; cases h; exact Or.inl (untouched_backup C r ulD1 g)
    | some z =>
      rw [h12] at h
      simp only at h
      by_cases h13 : z < 2
      · rw [if_pos h13] at h; cases h; exact Or.inl (untouched_backup C r ulD1 g)
      rw [if_neg h13] at h
      refine Or.inr ⟨ulD1, z, ⟨h1, by omega, ?_, ?_, ?_, h6, by omega, by omega, ?_, ?_, ?_,
        h12, by omega⟩, h⟩
      · intro hh; by_contra hc; exact h3 ⟨hh, hc⟩
      · by_contra hc; exact h4 (Or.inl hc)
      · by_contra hc; exact h4 (Or.inr (by omega))
      · simpa using h9
      · by_contra hc; exact h10 (Or.inl (by omega))
      · by_contra hc; exact h10 (Or.inr (by omega))


/-- Every round of the record loop on a record either returns at once with counters, log and
buffers untouched, or is the call of `candidate` on a record that passed the filters. -/
theorem step_dichotomy (E : Ext) (C : Cfg) (fuel : Nat) (r : Rec) (g : Globals) :
    (∃ ctl g1, step E C fuel r g = some (ctl, g1) ∧ Untouched g g1 ∧
        (r.ulGap ≤ C.ulMaxGap → ctl = Ctl.next)) ∨
      ∃ ulD1 z, Reaches E C r ulD1 z ∧
        step E C fuel r g =
          candidate E C fuel r ulD1 (mr2Of C ulD1) z.toNat (backupState C r ulD1 g) := by
  by_cases h1 : r.iStat = 0
  · exact Or.inl ⟨_, _, by unfold step; rw [if_pos h1], untouched_head C g, fun _ => rfl⟩
  by_cases h2 : r.iG ≤ 0
  · exact Or.inl ⟨_, _, by unfold step; rw [if_neg h1, if_pos h2], untouched_head C g,
      fun _ => rfl⟩
  by_cases h3 : r.iG % 2 = 1 ∧ r.iG ≠ 1
  · exact Or.inl ⟨_, _, by unfold step; rw [if_neg h1, if_neg h2, if_pos h3],
      untouched_head C g, fun _ => rfl⟩
  by_cases h4 : (r.ulGap : Int) ≠ r.iG ∨ r.ulGap > 999999999
  · exact Or.inl ⟨_, _, by unfold step; rw [if_neg h1, if_neg h2, if_neg h3, if_pos h4],
      untouched_head C g, fun _ => rfl⟩
  cases h6 : field E r with
  | skip =>
    exact Or.inl ⟨_, _, by unfold step; rw [if_neg h1, if_neg h2, if_neg h3, if_neg h4, h6],
      untouched_head C g, fun _ => rfl⟩
  | parseError =>
    exact Or.inl ⟨Ctl.next, parseErr (headState C g) r.ulGap,
      by unfold step; rw [if_neg h1, if_neg h2, if_neg h3, if_neg h4, h6],
      untouched_parseErr _ _ _ (untouched_head C g), fun _ => rfl⟩
  | digits ulD1 =>
    by_cases h7 : r.ulGap < C.ulMinGap
    · exact Or.inl ⟨_, _, by
        unfold step; rw [if_neg h1, if_neg h2, if_neg h3, if_neg h4, h6]; simp only
        rw [if_pos h7], untouched_head C g, fun _ => rfl⟩
    by_cases h8 : r.ulGap > C.ulMaxGap
    · exact Or.inl ⟨_, _, by
        unfold step; rw [if_neg h1, if_neg h2, if_neg h3, if_neg h4, h6]; simp only
        rw [if_neg h7, if_pos h8], untouched_head C g, fun hh => absurd hh (by omega)⟩
    by_cases h9 : hasEllipsis r.szP1.toList = true
    · exact Or.inl ⟨_, _, by
        unfold step; rw [if_neg h1, if_neg h2, if_neg h3, if_neg h4, h6]; simp only
        rw [if_neg h7, if_neg h8, if_pos h9], untouched_backup C r ulD1 g, fun _ => rfl⟩
    by_cases h10 : ulD1 < C.ulMinDigits ∨ ulD1 > C.ulMaxDigits
    · exact Or.inl ⟨_, _, by
        unfold step; rw [if_neg h1, if_neg h2, if_neg h3, if_neg h4, h6]; simp only
        rw [if_neg h7, if_neg h8, if_neg h9, if_pos h10], untouched_backup C r ulD1 g,
        fun _ => rfl⟩
    cases h12 : E.parseP1 r.szP1 with
    | none =>
      exact Or.inl ⟨Ctl.next, parseErr (backupState C r ulD1 g) r.ulGap, by
        unfold step; rw [if_neg h1, if_neg h2, if_neg h3, if_neg h4, h6]; simp only
        rw [if_neg h7, if_neg h8, if_neg h9, if_neg h10, h12],
        untouched_parseErr _ _ _ (untouched_backup C r ulD1 g), fun _ => rfl⟩
    | some z =>
      by_cases h13 : z < 2
      · exact Or.inl ⟨_, _, by
          unfold step; rw [if_neg h1, if_neg h2, if_neg h3, if_neg h4, h6]; simp only
          rw [if_neg h7, if_neg h8, if_neg h9, if_neg h10, h12]; simp only
          rw [if_pos h13], untouched_backup C r ulD1 g, fun _ => rfl⟩
      have hR : Reaches E C r ulD1 z := by
        refine ⟨h1, by omega, ?_, ?_, ?_, h6, by omega, by omega, ?_, ?_, ?_, h12, by omega⟩
        · intro hh; by_contra hc; exact h3 ⟨hh, hc⟩
        · by_contra hc; exact h4 (Or.inl hc)
        · by_contra hc; exact h4 (Or.inr (by omega))
        · simpa using h9
        · by_contra hc; exact h10 (Or.inl (by omega))
        · by_contra hc; exact h10 (Or.inr (by omega))
      exact Or.inr ⟨ulD1, z, hR, step_of_reaches E C fuel r g ulD1 z hR⟩


theorem backupState_fields (C : Cfg) (r : Rec) (d : Nat) (g : Globals) :
    (backupState C r d g).ulOK = g.ulOK ∧ (backupState C r d g).ulErrors = g.ulErrors ∧
      (backupState C r d g).log = g.log ∧ (backupState C r d g).report = g.report ∧
      (backupState C r d g).uchSieve = g.uchSieve ∧ (backupState C r d g).ulLPD = g.ulLPD ∧
      (backupState C r d g).bak = g.bak ∧ (backupState C r d g).siv = g.siv ∧
      (backupState C r d g).ulGBack = g.ulGBack ∧ (backupState C r d g).iNCGaps = g.iNCGaps ∧
      (backupState C r d g).nocheck = g.nocheck ∧ (backupState C r d g).screen = g.screen := by
  unfold backupState headState
  split <;> simp


/-! ## Lemmas: the trial divisors and the sieve as a whole -/

theorem mem_divs16 (tbl : Nat → Nat) (m : Nat) :
    ∀ n ul d, d ∈ divs16 tbl m n ul → ∃ k, ul ≤ k ∧ k < ul + n ∧ d = tbl k ∧ d ≤ m := by
  intro n
  induction n with
  | zero => intro ul d h; simp [divs16] at h
  | succ n ih =>
    intro ul d h
    unfold divs16 at h
    by_cases hc : tbl ul > m
    · simp [hc] at h
    · rw [if_neg hc] at h
      rcases List.mem_cons.mp h with h | h
      · exact ⟨ul, le_refl _, by omega, h, by omega⟩
      · obtain ⟨k, h1, h2, h3, h4⟩ := ih (ul + 1) d h
        exact ⟨k, by omega, by omega, h3, h4⟩

theorem mem_divsInner30 (isP : Nat → Bool) (m ulBase : Nat) :
    ∀ rs d, d ∈ divsInner30 isP m ulBase rs →
      ∃ r ∈ rs, d = ulBase + r ∧ d ≤ m ∧ isP d = true := by
  intro rs
  induction rs with
  | nil => intro d h; simp [divsInner30] at h
  | cons r rs ih =>
    intro d h
    unfold divsInner30 at h
    by_cases hc : ulBase + r > m
    · simp [hc] at h
    · rw [if_neg hc] at h
      by_cases hp : isP (ulBase + r) = true
      · simp only [hp, Bool.not_true, Bool.false_eq_true, if_false] at h
        rcases List.mem_cons.mp h with h | h
        · exact ⟨r, List.mem_cons_self _ _, h, by omega, by rw [h]; exact hp⟩
        · obtain ⟨r1, h1, h2⟩ := ih d h
          exact ⟨r1, List.mem_cons_of_mem _ h1, h2⟩
      · simp only [hp, Bool.not_false, if_true] at h
        obtain ⟨r1, h1, h2⟩ := ih d h
        exact ⟨r1, List.mem_cons_of_mem _ h1, h2⟩

theorem mem_divsOuter30 (isP : Nat → Bool) (m : Nat) :
    ∀ fuel ulBase d, d ∈ divsOuter30 isP m fuel ulBase →
      ∃ t r, r ∈ d30 ∧ d = ulBase + 30 * t + r ∧ d ≤ m ∧ isP d = true := by
  intro fuel
  induction fuel with
  | zero => intro ulBase d h; simp [divsOuter30] at h
  | succ n ih =>
    intro ulBase d h
    unfold divsOuter30 at h
    rcases List.mem_append.mp h with h | h
    · obtain ⟨r, h1, h2, h3, h4⟩ := mem_divsInner30 isP m ulBase d30 d h
      exact ⟨0, r, h1, by omega, h3, h4⟩
    · by_cases hc : endInner30 m ulBase d30 0 > m
      · simp [hc] at h
      · rw [if_neg hc] at h
        obtain ⟨t, r, h1, h2, h3, h4⟩ := ih (ulBase + 30) d h
        exact ⟨t + 1, r, h1, by omega, h3, h4⟩

theorem d30_odd {r : Nat} (h : r ∈ d30) : r % 2 = 1 := by
  simp [d30] at h
  rcases h with h | h | h | h | h | h | h | h <;> subst h <;> rfl

/-- Every trial divisor is at most the ceiling, and is either a table entry read by the
table loop or a wheel candidate above 65520 that passed `iIsPrime32`. -/
theorem mem_sieveDivs (E : Ext) (ulD1 mpzP1 ulGap d : Nat)
    (h : d ∈ sieveDivs E ulD1 mpzP1 ulGap) :
    d ≤ ulMaxDiv ulD1 mpzP1 ulGap ∧
      ((∃ k, 2 ≤ k ∧ k < 6542 ∧ d = E.ulPrime16 k) ∨
        (65520 < d ∧ d % 2 = 1 ∧ E.iIsPrime32 d = true)) := by
  unfold sieveDivs at h
  rcases List.mem_append.mp h with h | h
  · obtain ⟨k, h1, h2, h3, h4⟩ := mem_divs16 _ _ _ _ _ h
    exact ⟨h4, Or.inl ⟨k, h1, by omega, h3⟩⟩
  · split at h
    · simp at h
    · obtain ⟨t, r, h1, h2, h3, h4⟩ := mem_divsOuter30 _ _ _ _ _ h
      have := d30_odd h1
      have hr : 1 ≤ r := by omega
      exact ⟨h3, Or.inr ⟨by omega, by omega, h4⟩⟩

theorem sieveDivs_odd (E : Ext) (hT : OddPrimeTable E.ulPrime16) (ulD1 mpzP1 ulGap : Nat) :
    ∀ d ∈ sieveDivs E ulD1 mpzP1 ulGap, d % 2 = 1 := by
  intro d h
  rcases (mem_sieveDivs E ulD1 mpzP1 ulGap d h).2 with ⟨k, h1, h2, h3⟩ | ⟨_, h2, _⟩
  · rw [h3]; exact (hT k h1 h2).2
  · exact h2

theorem sieveDivs_gt_one (E : Ext) (hT : OddPrimeTable E.ulPrime16) (ulD1 mpzP1 ulGap : Nat) :
    ∀ d ∈ sieveDivs E ulD1 mpzP1 ulGap, 1 < d := by
  intro d h
  rcases (mem_sieveDivs E ulD1 mpzP1 ulGap d h).2 with ⟨k, h1, h2, h3⟩ | ⟨h1, _, _⟩
  · rw [h3]; exact (hT k h1 h2).1.one_lt
  · omega

/-- The buffers after `vSieve2` when no snapshot is accepted and `P1` has at least three
digits: the passes of `sieveDivs` on the freshly initialised buffers. -/
theorem vSieve2_buf (E : Ext) (cs bk : Bool) (ulD1 mpzP1 ulGap rem : Nat) (f : Option SivFile)
    (b : Buf) (hl : loadSiv ulGap rem f b.uchSieve = none) (hD : 3 ≤ ulD1) :
    (vSieve2 E cs bk ulD1 mpzP1 ulGap rem f b).buf =
      passes mpzP1 ulGap (sieveDivs E ulD1 mpzP1 ulGap)
        { uchSieve := fillTo (dirtySiv ulGap rem f b.uchSieve) ulGap 1,
          ulLPD := initLPD b.ulLPD ulGap } := by
  unfold vSieve2
  rw [hl]
  simp only
  rw [if_neg (by omega), sieveCore_eq]

theorem vSieve2_buf_small (E : Ext) (cs bk : Bool) (ulD1 mpzP1 ulGap rem : Nat)
    (f : Option SivFile) (b : Buf) (hl : loadSiv ulGap rem f b.uchSieve = none)
    (hD : ulD1 < 3) :
    (vSieve2 E cs bk ulD1 mpzP1 ulGap rem f b).buf =
      { uchSieve := fillTo (dirtySiv ulGap rem f b.uchSieve) ulGap 1, ulLPD := b.ulLPD } := by
  unfold vSieve2
  rw [hl]
  simp only
  rw [if_pos hD]

/-- The sieve byte of an index below `ulGap` after `vSieve2` (no snapshot, at least three
digits, odd table): 0 when a trial divisor divides `P1 + 2j + 2`, else 1. -/
theorem vSieve2_uch (E : Ext) (hT : OddPrimeTable E.ulPrime16) (cs bk : Bool)
    (ulD1 mpzP1 ulGap rem : Nat) (f : Option SivFile) (b : Buf)
    (hl : loadSiv ulGap rem f b.uchSieve = none) (hD : 3 ≤ ulD1) (j : Nat) (hj : j < ulGap) :
    (vSieve2 E cs bk ulD1 mpzP1 ulGap rem f b).buf.uchSieve j =
      if ∃ d ∈ sieveDivs E ulD1 mpzP1 ulGap, d ∣ mpzP1 + 2 * j + 2 then 0 else 1 := by
  rw [vSieve2_buf E cs bk ulD1 mpzP1 ulGap rem f b hl hD,
    passes_uch mpzP1 ulGap _ _ (sieveDivs_odd E hT ulD1 mpzP1 ulGap) j]
  simp [fillTo, hj]


/-! ## Lemmas: the reference collaborators -/

theorem isPrimeB_iff (n : Nat) : isPrimeB n = true ↔ Nat.Prime n := by
  unfold isPrimeB
  rw [Nat.prime_def_lt']
  simp only [Bool.and_eq_true, decide_eq_true_eq, List.all_eq_true, List.mem_range, bne_iff_ne,
    ne_eq]
  constructor
  · rintro ⟨h1, h2⟩
    refine ⟨h1, fun m hm hlt hdvd => ?_⟩
    have := h2 (m - 2) (by omega)
    have h3 : m - 2 + 2 = m := by omega
    rw [h3] at this
    exact this (Nat.mod_eq_zero_of_dvd hdvd)
  · rintro ⟨h1, h2⟩
    refine ⟨h1, fun i hi hmod => ?_⟩
    exact h2 (i + 2) (by omega) (by omega) (Nat.dvd_of_mod_eq_zero hmod)

theorem prpExact_exactExt : PrpExact exactExt := fun n _ _ => isPrimeB_iff n

theorem mrExact_exactExt : MrExact exactExt := fun n => isPrimeB_iff n

theorem nextPrimeAux_spec : ∀ fuel n, (∃ q, n ≤ q ∧ q ≤ n + fuel ∧ Nat.Prime q) →
    Nat.Prime (nextPrimeAux fuel n) ∧ n ≤ nextPrimeAux fuel n ∧
      ∀ q, n ≤ q → q < nextPrimeAux fuel n → ¬ Nat.Prime q := by
  intro fuel
  induction fuel with
  | zero =>
    rintro n ⟨q, h1, h2, h3⟩
    have : q = n := by omega
    subst this
    exact ⟨h3, le_refl _, fun q' h4 h5 => by simp [nextPrimeAux] at h5; omega⟩
  | succ f ih =>
    rintro n ⟨q, h1, h2, h3⟩
    unfold nextPrimeAux
    by_cases hp : isPrimeB n = true
    · rw [if_pos hp]
      exact ⟨(isPrimeB_iff n).mp hp, le_refl _, fun q' h4 h5 => by omega⟩
    · rw [if_neg hp]
      have hnp : ¬ Nat.Prime n := fun h => hp ((isPrimeB_iff n).mpr h)
      have hq : n + 1 ≤ q := by
        rcases Nat.eq_or_lt_of_le h1 with h | h
        · subst h; exact absurd h3 hnp
        · exact h
      obtain ⟨i1, i2, i3⟩ := ih (n + 1) ⟨q, hq, by omega, h3⟩
      refine ⟨i1, by omega, fun q' h4 h5 => ?_⟩
      rcases Nat.eq_or_lt_of_le h4 with h | h
      · subst h; exact hnp
      · exact i3 q' h h5

theorem primeTable_step (k : Nat) (hk : 1 ≤ k) :
    Nat.Prime (primeTable k) ∧ Nat.Prime (primeTable (k + 1)) ∧
      primeTable k < primeTable (k + 1) ∧
      ∀ q, primeTable k < q → q < primeTable (k + 1) → ¬ Nat.Prime q := by
  induction k with
  | zero => omega
  | succ k ih =>
    have hp : Nat.Prime (primeTable (k + 1)) := by
      rcases Nat.eq_zero_or_pos k with h | h
      · subst h; exact Nat.prime_two
      · exact (ih h).2.1
    obtain ⟨q, hq, h1, h2⟩ := Nat.exists_prime_lt_and_le_two_mul (primeTable (k + 1))
      hp.pos.ne'
    have hs := nextPrimeAux_spec (primeTable (k + 1)) (primeTable (k + 1) + 1)
      ⟨q, by omega, by omega, hq⟩
    have he : primeTable (k + 1 + 1) =
        nextPrimeAux (primeTable (k + 1)) (primeTable (k + 1) + 1) := rfl
    rw [he]
    exact ⟨hp, hs.1, by omega, fun q' h3 h4 => hs.2.2 q' (by omega) h4⟩

theorem primeTable_prime (k : Nat) (hk : 1 ≤ k) : Nat.Prime (primeTable k) :=
  (primeTable_step k hk).1

theorem primeTable_lt (j k : Nat) (hj : 1 ≤ j) (hjk : j < k) : primeTable j < primeTable k := by
  induction k with
  | zero => omega
  | succ k ih =>
    rcases Nat.eq_or_lt_of_le (Nat.lt_succ_iff.mp hjk) with h | h
    · subst h; exact (primeTable_step j hj).2.2.1
    · exact lt_trans (ih h) (primeTable_step k (by omega)).2.2.1

theorem primeTable_ge (k : Nat) (hk : 1 ≤ k) : k + 1 ≤ primeTable k := by
  induction k with
  | zero => omega
  | succ k ih =>
    rcases Nat.eq_zero_or_pos k with h | h
    · subst h; decide
    · have := ih h
      have := (primeTable_step k h).2.2.1
      omega

theorem oddPrimeTable_primeTable : OddPrimeTable primeTable := by
  intro k h1 _
  have hp := primeTable_prime k (by omega)
  refine ⟨hp, ?_⟩
  have h2 : primeTable 1 < primeTable k := primeTable_lt 1 k (le_refl _) (by omega)
  have h3 : primeTable 1 = 2 := rfl
  rcases hp.eq_two_or_odd with h | h
  · omega
  · exact h

/-- Every prime up to a table entry is itself a table entry at a smaller or equal index. -/
theorem primeTable_covers (k : Nat) (hk : 1 ≤ k) :
    ∀ p, Nat.Prime p → p ≤ primeTable k → ∃ j, 1 ≤ j ∧ j ≤ k ∧ primeTable j = p := by
  induction k with
  | zero => omega
  | succ k ih =>
    intro p hp hle
    rcases Nat.eq_zero_or_pos k with h | h
    · subst h
      have h1 : primeTable (0 + 1) = 2 := rfl
      rw [h1] at hle
      have := hp.two_le
      exact ⟨1, le_refl _, le_refl _, by rw [h1]; omega⟩
    · obtain ⟨_, _, s3, s4⟩ := primeTable_step k h
      by_cases hc : p ≤ primeTable k
      · obtain ⟨j, j1, j2, j3⟩ := ih h p hp hc
        exact ⟨j, j1, by omega, j3⟩
      · rcases Nat.eq_or_lt_of_le hle with h5 | h5
        · exact ⟨k + 1, by omega, le_refl _, h5.symm⟩
        · exact absurd hp (s4 p (by omega) h5)


/-- The least-divisor entry of an even offset `2 <= o <= ulGap` after `vSieve2` (no snapshot,
at least three digits, odd table): the first trial divisor that divides `P1 + o`, or 0. -/
theorem vSieve2_lpd (E : Ext) (hT : OddPrimeTable E.ulPrime16) (cs bk : Bool)
    (ulD1 mpzP1 ulGap rem : Nat) (f : Option SivFile) (b : Buf)
    (hl : loadSiv ulGap rem f b.uchSieve = none) (hD : 3 ≤ ulD1) (o : Nat)
    (he : o % 2 = 0) (h2 : 2 ≤ o) (hg : o ≤ ulGap) :
    (vSieve2 E cs bk ulD1 mpzP1 ulGap rem f b).buf.ulLPD o =
      ((sieveDivs E ulD1 mpzP1 ulGap).find? (fun d => decide (d ∣ mpzP1 + o))).getD 0 := by
  rw [vSieve2_buf E cs bk ulD1 mpzP1 ulGap rem f b hl hD,
    passes_lpd mpzP1 ulGap _ _ (sieveDivs_odd E hT ulD1 mpzP1 ulGap) o]
  have h1 : (o - 2) / 2 < ulGap := by omega
  simp [fillTo, initLPD, he, h2, hg, h1]

theorem vSieve2_lpd_dvd (E : Ext) (hT : OddPrimeTable E.ulPrime16) (cs bk : Bool)
    (ulD1 mpzP1 ulGap rem : Nat) (f : Option SivFile) (b : Buf)
    (hl : loadSiv ulGap rem f b.uchSieve = none) (hD : 3 ≤ ulD1) (o : Nat)
    (he : o % 2 = 0) (h2 : 2 ≤ o) (hg : o ≤ ulGap)
    (h3 : 3 ≤ (vSieve2 E cs bk ulD1 mpzP1 ulGap rem f b).buf.ulLPD o) :
    (vSieve2 E cs bk ulD1 mpzP1 ulGap rem f b).buf.ulLPD o ∣ mpzP1 + o := by
  rw [vSieve2_lpd E hT cs bk ulD1 mpzP1 ulGap rem f b hl hD o he h2 hg] at h3 ⊢
  cases hf : (sieveDivs E ulD1 mpzP1 ulGap).find? (fun d => decide (d ∣ mpzP1 + o)) with
  | none => rw [hf] at h3; simp at h3
  | some d =>
    have := List.find?_some hf
    simpa using this

theorem vSieve2_errs (E : Ext) (hT : OddPrimeTable E.ulPrime16) (cs bk : Bool)
    (ulD1 mpzP1 ulGap rem : Nat) (f : Option SivFile) (b : Buf) :
    (vSieve2 E cs bk ulD1 mpzP1 ulGap rem f b).errs = [] := by
  cases hl : loadSiv ulGap rem f b.uchSieve with
  | some u => unfold vSieve2; rw [hl]
  | none =>
    by_cases hD : ulD1 < 3
    · unfold vSieve2; rw [hl]; simp only; rw [if_pos hD]
    · have hb := vSieve2_buf E cs bk ulD1 mpzP1 ulGap rem f b hl (by omega)
      have key : ∀ o, o % 2 = 0 → 2 ≤ o → o ≤ ulGap →
          3 ≤ (vSieve2 E cs bk ulD1 mpzP1 ulGap rem f b).buf.ulLPD o →
          (vSieve2 E cs bk ulD1 mpzP1 ulGap rem f b).buf.ulLPD o ∣ mpzP1 + o :=
        fun o he h2 hg h3 =>
          vSieve2_lpd_dvd E hT cs bk ulD1 mpzP1 ulGap rem f b hl (by omega) o he h2 hg h3
      unfold vSieve2 at key ⊢
      rw [hl] at key ⊢
      simp only at key ⊢
      rw [if_neg hD] at key ⊢
      simp only at key ⊢
      cases cs with
      | false => rfl
      | true =>
        simp only [if_true]
        unfold checkSieve
        rw [List.map_eq_nil_iff, List.filter_eq_nil_iff]
        intro ul hul
        have hlt : ul < ulGap := List.mem_range.mp hul
        simp only [Bool.and_eq_true, decide_eq_true_eq, Bool.not_eq_true', decide_eq_false_iff_not,
          not_and, not_not]
        intro h
        exact key ul h.1.2 h.1.1 (by omega) h.2


/-! ## Lemmas: completeness of the divisor loops -/

theorem ceilSqrt_le_of_le_sq (x c : Nat) (h : x ≤ c * c) : ceilSqrt x ≤ c := by
  by_contra hc
  have := (ceilSqrt_spec x).2 c (by omega)
  omega

theorem ulMaxDiv0_le (ulD1 : Nat) : ulMaxDiv0 ulD1 ≤ 4294967291 := by
  unfold ulMaxDiv0
  split_ifs <;> omega

theorem ulMaxDiv_le (ulD1 mpzP1 ulGap : Nat) : ulMaxDiv ulD1 mpzP1 ulGap ≤ 4294967291 := by
  unfold ulMaxDiv
  have h0 := ulMaxDiv0_le ulD1
  split_ifs with h1 h2
  · have := ceilSqrt_le_of_le_sq (mpzP1 + 2 * ulGap) (ulMaxDiv0 ulD1) (by omega)
    omega
  · exact h0
  · exact h0

theorem mem_divs16_of (tbl : Nat → Nat) (m : Nat) :
    ∀ n ul k, ul ≤ k → k < ul + n → (∀ j, ul ≤ j → j ≤ k → tbl j ≤ m) →
      tbl k ∈ divs16 tbl m n ul := by
  intro n
  induction n with
  | zero => intro ul k h1 h2; omega
  | succ n ih =>
    intro ul k h1 h2 h3
    unfold divs16
    rw [if_neg (by have := h3 ul (le_refl _) h1; omega)]
    rcases Nat.eq_or_lt_of_le h1 with h | h
    · subst h; exact List.mem_cons_self _ _
    · exact List.mem_cons_of_mem _ (ih (ul + 1) k h (by omega)
        (fun j hj1 hj2 => h3 j (by omega) hj2))

theorem end16_le (tbl : Nat → Nat) (m : Nat) :
    ∀ n ul d0, 0 < n → (∀ j, ul ≤ j → j < ul + n → tbl j ≤ m) → end16 tbl m n ul d0 ≤ m := by
  intro n
  induction n with
  | zero => intro ul d0 h; omega
  | succ n ih =>
    intro ul d0 _ h3
    unfold end16
    rw [if_neg (by have := h3 ul (le_refl _) (by omega); omega)]
    rcases Nat.eq_zero_or_pos n with h | h
    · subst h; simp only [end16]; exact h3 ul (le_refl _) (by omega)
    · exact ih (ul + 1) _ h (fun j hj1 hj2 => h3 j (by omega) (by omega))

theorem mem_divsInner30_of (isP : Nat → Bool) (m ulBase : Nat) :
    ∀ rs : List Nat, rs.Pairwise (· < ·) → ∀ r ∈ rs, ulBase + r ≤ m →
      isP (ulBase + r) = true → ulBase + r ∈ divsInner30 isP m ulBase rs := by
  intro rs
  induction rs with
  | nil => intro _ r hr; simp at hr
  | cons r0 rs ih =>
    intro hp r hr hle hpr
    rw [List.pairwise_cons] at hp
    unfold divsInner30
    rcases List.mem_cons.mp hr with h | h
    · subst h
      rw [if_neg (by omega)]
      simp only [hpr, Bool.not_true, Bool.false_eq_true, if_false]
      exact List.mem_cons_self _ _
    · have hlt := hp.1 r h
      rw [if_neg (by omega)]
      have := ih hp.2 r h hle hpr
      split
      · exact this
      · exact List.mem_cons_of_mem _ this

theorem endInner30_le (m ulBase : Nat) :
    ∀ (rs : List Nat) d0, rs ≠ [] → (∀ r ∈ rs, ulBase + r ≤ m) →
      endInner30 m ulBase rs d0 ≤ m := by
  intro rs
  induction rs with
  | nil => intro d0 h; exact absurd rfl h
  | cons r0 rs ih =>
    intro d0 _ h
    unfold endInner30
    rw [if_neg (by have := h r0 (List.mem_cons_self _ _); omega)]
    cases rs with
    | nil => simp only [endInner30]; exact h r0 (List.mem_cons_self _ _)
    | cons r1 rs =>
      exact ih _ (by simp) (fun r hr => h r (List.mem_cons_of_mem _ hr))

theorem d30_le {r : Nat} (h : r ∈ d30) : 1 ≤ r ∧ r ≤ 29 := by
  simp [d30] at h
  rcases h with h | h | h | h | h | h | h | h <;> subst h <;> decide

theorem d30_pairwise : d30.Pairwise (· < ·) := by decide

theorem mem_divsOuter30_of (isP : Nat → Bool) (m : Nat) :
    ∀ fuel ulBase t r, r ∈ d30 → ulBase + 30 * t + r ≤ m →
      isP (ulBase + 30 * t + r) = true → t < fuel →
      ulBase + 30 * t + r ∈ divsOuter30 isP m fuel ulBase := by
  intro fuel
  induction fuel with
  | zero => intro ulBase t r _ _ _ h; omega
  | succ n ih =>
    intro ulBase t r hr hle hp ht
    unfold divsOuter30
    rcases Nat.eq_zero_or_pos t with h | h
    · subst h
      simp only [Nat.mul_zero, Nat.add_zero] at hle hp ⊢
      exact List.mem_append_left _ (mem_divsInner30_of isP m ulBase d30 d30_pairwise r hr hle hp)
    · apply List.mem_append_right
      have hend : endInner30 m ulBase d30 0 ≤ m :=
        endInner30_le m ulBase d30 0 (by decide) (fun r' hr' => by
          have := (d30_le hr').2
          have := (d30_le hr).1
          omega)
      rw [if_neg (by omega)]
      have := ih (ulBase + 30) (t - 1) r hr (by omega)
        (by have h1 : ulBase + 30 + 30 * (t - 1) + r = ulBase + 30 * t + r := by omega
            rw [h1]; exact hp) (by omega)
      have h1 : ulBase + 30 + 30 * (t - 1) + r = ulBase + 30 * t + r := by omega
      rw [h1] at this
      exact this

theorem prime_mod30 {d : Nat} (hp : Nat.Prime d) (h : 30 < d) : d % 30 ∈ d30 := by
  have h2 : ¬ 2 ∣ d := fun hd => by
    have := (Nat.prime_dvd_prime_iff_eq Nat.prime_two hp).mp hd; omega
  have h3 : ¬ 3 ∣ d := fun hd => by
    have := (Nat.prime_dvd_prime_iff_eq Nat.prime_three hp).mp hd; omega
  have h5 : ¬ 5 ∣ d := fun hd => by
    have := (Nat.prime_dvd_prime_iff_eq Nat.prime_five hp).mp hd; omega
  have e2 : d % 2 ≠ 0 := fun hh => h2 (Nat.dvd_of_mod_eq_zero hh)
  have e3 : d % 3 ≠ 0 := fun hh => h3 (Nat.dvd_of_mod_eq_zero hh)
  have e5 : d % 5 ≠ 0 := fun hh => h5 (Nat.dvd_of_mod_eq_zero hh)
  have m2 : (d % 30) % 2 = d % 2 := Nat.mod_mod_of_dvd d (by decide)
  have m3 : (d % 30) % 3 = d % 3 := Nat.mod_mod_of_dvd d (by decide)
  have m5 : (d % 30) % 5 = d % 5 := Nat.mod_mod_of_dvd d (by decide)
  rw [← m2] at e2
  rw [← m3] at e3
  rw [← m5] at e5
  have hr : d % 30 < 30 := Nat.mod_lt _ (by decide)
  generalize d % 30 = r at e2 e3 e5 hr
  clear m2 m3 m5
  interval_cases r <;> first | decide | omega


/-- With an exact table and an exact filter the trial divisors are the primes from 3 up to
the ceiling. -/
theorem sieveDivs_iff (E : Ext) (ulD1 mpzP1 ulGap : Nat)
    (hT : TableExactTo E.ulPrime16 (ulMaxDiv ulD1 mpzP1 ulGap))
    (hI : FilterExact E.iIsPrime32) (d : Nat) :
    d ∈ sieveDivs E ulD1 mpzP1 ulGap ↔
      Nat.Prime d ∧ 3 ≤ d ∧ d ≤ ulMaxDiv ulD1 mpzP1 ulGap := by
  obtain ⟨hodd, hmono, hcov, htop⟩ := hT
  have hm := ulMaxDiv_le ulD1 mpzP1 ulGap
  constructor
  · intro h
    obtain ⟨h1, h2⟩ := mem_sieveDivs E ulD1 mpzP1 ulGap d h
    rcases h2 with ⟨k, k1, k2, k3⟩ | ⟨w1, w2, w3⟩
    · obtain ⟨p1, p2⟩ := hodd k k1 k2
      rw [← k3] at p1 p2
      have := p1.two_le
      exact ⟨p1, by omega, h1⟩
    · exact ⟨(hI d (by omega)).mp w3, by omega, h1⟩
  · rintro ⟨hp, h3, hle⟩
    unfold sieveDivs
    by_cases hc : d ≤ 65519
    · obtain ⟨k, k1, k2, k3⟩ := hcov d hp h3 hc hle
      apply List.mem_append_left
      rw [← k3]
      apply mem_divs16_of _ _ 6540 2 k k1 (by omega)
      intro j j1 j2
      rcases Nat.eq_or_lt_of_le j2 with h | h
      · subst h; omega
      · have := hmono j k j1 h k2; omega
    · apply List.mem_append_right
      have hend : end16 E.ulPrime16 (ulMaxDiv ulD1 mpzP1 ulGap) 6540 2 0 ≤
          ulMaxDiv ulD1 mpzP1 ulGap :=
        end16_le _ _ 6540 2 0 (by decide) (fun j j1 j2 => by
          have := htop (by omega) j j1 (by omega); omega)
      rw [if_neg (by omega)]
      have hr := prime_mod30 hp (by omega)
      have hr1 := (d30_le hr).1
      have hd : 65520 + 30 * ((d - 65520) / 30) + d % 30 = d := by omega
      have := mem_divsOuter30_of E.iIsPrime32 (ulMaxDiv ulD1 mpzP1 ulGap)
        (ulMaxDiv ulD1 mpzP1 ulGap + 1) 65520 ((d - 65520) / 30) (d % 30) hr
        (by rw [hd]; exact hle) (by rw [hd]; exact (hI d (by omega)).mpr hp) (by omega)
      rw [hd] at this
      exact this

theorem ulOffset_least (n d : Nat) (hodd : d % 2 = 1) (k : Nat) (h : d ∣ n + 2 * k) :
    ulOffset (n % d) d ≤ k := by
  obtain ⟨hlt, hdvd⟩ := ulOffset_spec n d hodd
  by_contra hc
  have h4 : n + 2 * ulOffset (n % d) d = (n + 2 * k) + 2 * (ulOffset (n % d) d - k) := by omega
  rw [h4] at hdvd
  have h5 : d ∣ ulOffset (n % d) d - k := odd_dvd_two_mul hodd ((Nat.dvd_add_right h).mp hdvd)
  have h6 : d ≤ ulOffset (n % d) d - k := Nat.le_of_dvd (by omega) h5
  omega

theorem tableExactTo_primeTable (m : Nat) (hm : m ≤ 6541) : TableExactTo primeTable m := by
  refine ⟨oddPrimeTable_primeTable, fun j k h1 h2 _ => primeTable_lt j k (by omega) h2,
    ?_, fun h => by omega⟩
  intro p hp h3 _ hle
  have hge := primeTable_ge p (by omega)
  obtain ⟨j, j1, j2, j3⟩ := primeTable_covers p (by omega) p hp (by omega)
  refine ⟨j, ?_, by omega, j3⟩
  rcases Nat.eq_or_lt_of_le j1 with h | h
  · subst h
    have : primeTable 1 = 2 := rfl
    omega
  · omega

theorem filterExact_exactExt : FilterExact exactExt.iIsPrime32 := fun n _ => isPrimeB_iff n


/-! ## Lemmas: the search loops -/

theorem gapLoop_eq_firstGood (E : Ext) (uch : Nat → Nat) (mr2 : Bool)
    (reps mpzP1 ulGap : Nat) :
    ∀ fuel ulG, gapLoop E uch mr2 reps mpzP1 ulGap fuel ulG =
      firstGood (goodAt E uch mr2 reps mpzP1 ulGap) fuel ulG := by
  intro fuel
  induction fuel with
  | zero => intro ulG; rfl
  | succ n ih =>
    intro ulG
    unfold gapLoop firstGood goodAt
    rw [ih]
    rfl

theorem pfgwLoop_fst (E : Ext) (uch : Nat → Nat) (mr2 bk : Bool)
    (reps ulD1 mpzP1 ulGap rem : Nat) :
    ∀ fuel ulG c1 c2 bak,
      (pfgwLoop E uch mr2 bk reps ulD1 mpzP1 ulGap rem fuel ulG c1 c2 bak).map Prod.fst =
        firstGood (goodAtP E uch mr2 reps mpzP1 ulGap) fuel ulG := by
  intro fuel
  induction fuel with
  | zero => intro ulG c1 c2 bak; rfl
  | succ n ih =>
    intro ulG c1 c2 bak
    unfold pfgwLoop firstGood goodAtP
    by_cases ht : iTest uch ulGap ulG = true
    · simp only [ht, if_true, Bool.true_and]
      by_cases hg : (E.pfgw (mpzP1 + ulG) != 1 && oracleAt E mr2 reps mpzP1 ulGap ulG) = true
      · rw [if_pos hg, if_pos hg]; rfl
      · rw [if_neg hg, if_neg hg, ih]; rfl
    · simp only [ht, Bool.false_and, Bool.false_eq_true, if_false]
      rw [ih]; rfl

/-- What a result of `firstGood` means. -/
theorem firstGood_some (good : Nat → Bool) :
    ∀ fuel g0 g, firstGood good fuel g0 = some g →
      ∃ k, k < fuel ∧ g = g0 + 2 * k ∧ good g = true ∧ ∀ i, i < k → good (g0 + 2 * i) = false := by
  intro fuel
  induction fuel with
  | zero => intro g0 g h; simp [firstGood] at h
  | succ n ih =>
    intro g0 g h
    unfold firstGood at h
    by_cases hg : good g0 = true
    · rw [if_pos hg] at h
      cases h
      exact ⟨0, by omega, by omega, hg, fun i hi => by omega⟩
    · rw [if_neg hg] at h
      obtain ⟨k, k1, k2, k3, k4⟩ := ih (g0 + 2) g h
      refine ⟨k + 1, by omega, by omega, k3, fun i hi => ?_⟩
      rcases Nat.eq_zero_or_pos i with h0 | h0
      · subst h0; simpa using hg
      · have := k4 (i - 1) (by omega)
        have e : g0 + 2 + 2 * (i - 1) = g0 + 2 * i := by omega
        rw [e] at this
        exact this

/-- With enough fuel `firstGood` returns the first good offset. -/
theorem firstGood_of (good : Nat → Bool) :
    ∀ fuel g0 k, k < fuel → good (g0 + 2 * k) = true →
      (∀ i, i < k → good (g0 + 2 * i) = false) → firstGood good fuel g0 = some (g0 + 2 * k) := by
  intro fuel
  induction fuel with
  | zero => intro g0 k h; omega
  | succ n ih =>
    intro g0 k hk hg hb
    unfold firstGood
    rcases Nat.eq_zero_or_pos k with h0 | h0
    · subst h0
      simp only [Nat.mul_zero, Nat.add_zero] at hg ⊢
      rw [if_pos hg]
    · have h1 := hb 0 h0
      simp only [Nat.mul_zero, Nat.add_zero] at h1
      rw [if_neg (by simp [h1])]
      have := ih (g0 + 2) (k - 1) (by omega)
        (by have e : g0 + 2 + 2 * (k - 1) = g0 + 2 * k := by omega
            rw [e]; exact hg)
        (fun i hi => by
          have := hb (i + 1) (by omega)
          have e : g0 + 2 + 2 * i = g0 + 2 * (i + 1) := by omega
          rw [e]; exact this)
      have e : g0 + 2 + 2 * (k - 1) = g0 + 2 * k := by omega
      rw [e] at this
      exact this

/-- The base-2 Fermat screen accepts every odd prime. -/
theorem fermat2_of_prime {n : Nat} (hp : Nat.Prime n) (h3 : 3 ≤ n) : fermat2 n = true := by
  haveI : Fact (Nat.Prime n) := ⟨hp⟩
  have h : ((2 ^ n : Nat) : ZMod n) = ((2 : Nat) : ZMod n) := by
    push_cast
    exact ZMod.pow_card (2 : ZMod n)
  have h2 := (ZMod.natCast_eq_natCast_iff' _ _ _).mp h
  unfold fermat2
  rw [h2, Nat.mod_eq_of_lt (by omega)]
  rfl

theorem decLenAux_ge : ∀ fuel n, n ≤ fuel → ∀ k, 1 ≤ k → k + 1 ≤ decLenAux fuel n →
    10 ^ k ≤ n := by
  intro fuel
  induction fuel with
  | zero => intro n _ k hk h; simp [decLenAux] at h; omega
  | succ f ih =>
    intro n hn k hk h
    unfold decLenAux at h
    by_cases h10 : n < 10
    · rw [if_pos h10] at h; omega
    · rw [if_neg h10] at h
      rcases Nat.eq_or_lt_of_le hk with h1 | h1
      · subst h1; simpa using (by omega : 10 ≤ n)
      · have := ih (n / 10) (by omega) (k - 1) (by omega) (by omega)
        have e : 10 ^ k = 10 ^ (k - 1) * 10 := by
          rw [← pow_succ]; congr 1; omega
        rw [e]
        have := Nat.mul_le_mul_right 10 this
        have := Nat.div_mul_le_self n 10
        omega

theorem decLen_ge (n k : Nat) (hk : 1 ≤ k) (h : k + 1 ≤ decLen n) : 10 ^ k ≤ n :=
  decLenAux_ge n n (le_refl _) k hk h


theorem ulMaxDiv_le_ceilSqrt (ulD1 mpzP1 ulGap : Nat) (h : ulD1 < 21) :
    ulMaxDiv ulD1 mpzP1 ulGap ≤ ceilSqrt (mpzP1 + 2 * ulGap) := by
  unfold ulMaxDiv
  rw [if_pos h]
  split_ifs with h1
  · exact le_refl _
  · have h2 := (ceilSqrt_spec (mpzP1 + 2 * ulGap)).1
    by_contra hc
    have h3 : ceilSqrt (mpzP1 + 2 * ulGap) + 1 ≤ ulMaxDiv0 ulD1 := by omega
    have h4 := Nat.mul_le_mul h3 h3
    nlinarith

theorem two_ceilSqrt_lt (p g : Nat) (hp : 100 ≤ p) : 2 * ceilSqrt (p + 2 * g) < p + g := by
  by_contra hc
  have h1 : 1 ≤ ceilSqrt (p + 2 * g) := by omega
  have h2 := (ceilSqrt_spec (p + 2 * g)).2 (ceilSqrt (p + 2 * g) - 1) (by omega)
  generalize ceilSqrt (p + 2 * g) = c at *
  obtain ⟨e, rfl⟩ : ∃ e, c = e + 1 := ⟨c - 1, by omega⟩
  simp only [Nat.add_sub_cancel] at h2
  nlinarith

/-- Twice the sieve ceiling is below `P1 + ulGap` when `P1` has at least three digits and the
digit count is the actual one. -/
theorem two_ulMaxDiv_lt (p g : Nat) (h3 : 3 ≤ decLen p) :
    2 * ulMaxDiv (decLen p) p g < p + g := by
  have h100 : 10 ^ 2 ≤ p := decLen_ge p 2 (by omega) (by omega)
  by_cases h : decLen p < 21
  · have := ulMaxDiv_le_ceilSqrt (decLen p) p g h
    have := two_ceilSqrt_lt p g (by omega)
    omega
  · have h20 : 10 ^ 20 ≤ p := decLen_ge p 20 (by omega) (by omega)
    have := ulMaxDiv_le (decLen p) p g
    have e : (10 : Nat) ^ 20 = 100000000000000000000 := by norm_num
    omega


/-! ## Lemmas: the loop body in full-check mode -/

/-- The search as the first good offset from `ulGBack` on, and the state it leaves. -/
theorem search_eq (E : Ext) (C : Cfg) (fuel ulD1 : Nat) (mr2 : Bool) (mpzP1 ulGap : Nat)
    (g : Globals) (h2 : mpzP1 ≠ 2) :
    search E C fuel ulD1 mr2 mpzP1 ulGap g =
      (firstGood (searchGood E C ulD1 mr2 mpzP1 ulGap g) fuel g.ulGBack).map
        (fun ulG => (ulG, afterSearch C (helperUsed C ulD1) mpzP1 ulGap
          (sieveOf E C ulD1 mpzP1 ulGap (mpzP1 % 2 ^ 64) g) g)) := by
  unfold search searchGood
  by_cases hh : helperUsed C ulD1 = true
  · simp only [hh, if_true]
    unfold mpz_gap_pfgw
    rw [if_neg h2]
    have := pfgwLoop_fst E (sieveOf E C ulD1 mpzP1 ulGap (mpzP1 % 2 ^ 64) g).buf.uchSieve mr2
      g.iBackup C.ulMRReps ulD1 mpzP1 ulGap (mpzP1 % 2 ^ 64) fuel g.ulGBack 0 0 (g.bak ulGap)
    rw [← this]
    cases pfgwLoop E (sieveOf E C ulD1 mpzP1 ulGap (mpzP1 % 2 ^ 64) g).buf.uchSieve mr2
      g.iBackup C.ulMRReps ulD1 mpzP1 ulGap (mpzP1 % 2 ^ 64) fuel g.ulGBack 0 0 (g.bak ulGap)
      <;> rfl
  · have hf : helperUsed C ulD1 = false := by simpa using hh
    simp only [hf, Bool.false_eq_true, if_false]
    unfold mpz_gap
    rw [if_neg h2, gapLoop_eq_firstGood]
    cases firstGood (goodAt E (sieveOf E C ulD1 mpzP1 ulGap (mpzP1 % 2 ^ 64) g).buf.uchSieve
      mr2 C.ulMRReps mpzP1 ulGap) fuel g.ulGBack <;> rfl

theorem interior_eq (E : Ext) (C : Cfg) (fuel ulD1 : Nat) (mr2 : Bool) (mpzP1 ulGap : Nat)
    (g : Globals) (h2 : mpzP1 ≠ 2) :
    interior E C fuel ulD1 mr2 mpzP1 ulGap g =
      (firstGood (searchGood E C ulD1 mr2 mpzP1 ulGap g) fuel g.ulGBack).map
        (fun ulG => (Ctl.next, verdict E C mpzP1 ulGap ulG
          (afterSearch C (helperUsed C ulD1) mpzP1 ulGap
            (sieveOf E C ulD1 mpzP1 ulGap (mpzP1 % 2 ^ 64) g) g))) := by
  unfold interior
  rw [search_eq E C fuel ulD1 mr2 mpzP1 ulGap g h2]
  cases firstGood (searchGood E C ulD1 mr2 mpzP1 ulGap g) fuel g.ulGBack <;> rfl

theorem verdict_eq (E : Ext) (C : Cfg) (mpzP1 ulGap : Nat) (g : Globals) :
    (verdict E C mpzP1 ulGap ulGap g).ulOK = g.ulOK + 1 ∧
      (verdict E C mpzP1 ulGap ulGap g).ulErrors = g.ulErrors ∧
      (verdict E C mpzP1 ulGap ulGap g).report = Msg.ok ulGap :: g.report := by
  unfold verdict
  rw [if_neg (by simp)]
  simp [countOK]

theorem verdict_ne (E : Ext) (C : Cfg) (mpzP1 ulGap ulG : Nat) (g : Globals)
    (h : ulG ≠ ulGap) :
    (verdict E C mpzP1 ulGap ulG g).ulOK = g.ulOK ∧
      (verdict E C mpzP1 ulGap ulG g).ulErrors = g.ulErrors + 1 ∧
      (verdict E C mpzP1 ulGap ulG g).report =
        (if ulG < ulGap then Msg.intermediate ulGap ulG
         else Msg.p2Composite ulGap (diagnose E (mpzP1 + ulGap)) ulG) :: g.report := by
  unfold verdict
  rw [if_pos h]
  by_cases h1 : ulG < ulGap
  · rw [if_pos h1, if_pos h1]; simp [countError]
  · rw [if_neg h1, if_neg h1]; simp [countError, logDiv]

theorem logTest_fields (C : Cfg) (mr2 : Bool) (n : Nat) (g : Globals) :
    (logTest C mr2 n g).ulOK = g.ulOK ∧ (logTest C mr2 n g).ulErrors = g.ulErrors ∧
      (logTest C mr2 n g).report = g.report ∧ (logTest C mr2 n g).bak = g.bak ∧
      (logTest C mr2 n g).siv = g.siv ∧ (logTest C mr2 n g).ulGBack = g.ulGBack ∧
      (logTest C mr2 n g).uchSieve = g.uchSieve ∧ (logTest C mr2 n g).ulLPD = g.ulLPD ∧
      (logTest C mr2 n g).iBackup = g.iBackup :=
  ⟨rfl, rfl, rfl, rfl, rfl, rfl, rfl, rfl, rfl⟩

theorem logDiv_fields (n : Nat) (g : Globals) :
    (logDiv n g).ulOK = g.ulOK ∧ (logDiv n g).ulErrors = g.ulErrors ∧
      (logDiv n g).report = g.report :=
  ⟨rfl, rfl, rfl⟩

theorem afterSearch_fields (C : Cfg) (hlp : Bool) (mpzP1 ulGap : Nat) (so : SieveOut)
    (g : Globals) :
    (afterSearch C hlp mpzP1 ulGap so g).ulOK = g.ulOK ∧
      (afterSearch C hlp mpzP1 ulGap so g).ulErrors = g.ulErrors ∧
      (afterSearch C hlp mpzP1 ulGap so g).report = g.report := ⟨rfl, rfl, rfl⟩

/-- The loop body for a candidate with even gap and odd `P1` in full-check mode without a
checkpoint: digit comparison, test of `P1`, then the interior. -/
theorem candidate_full (E : Ext) (C : Cfg) (fuel : Nat) (r : Rec) (ulD1 : Nat) (mr2 : Bool)
    (mpzP1 : Nat) (g : Globals) (hg : r.ulGap % 2 = 0) (hodd : mpzP1 % 2 = 1)
    (hnc : C.iNoCheck = false) (hepo : C.iEPO = false) (hint : C.iInterior = false)
    (hbak : g.bak r.ulGap = none) :
    candidate E C fuel r ulD1 mr2 mpzP1 g =
      if decLen mpzP1 ≠ ulD1 then
        some (Ctl.next, countError g (Msg.digitConflict ulD1 (decLen mpzP1)) false)
      else if !endTest E C mr2 mpzP1 then
        some (Ctl.next,
          countError (logDiv mpzP1 (logTest C mr2 mpzP1 g))
            (Msg.p1Composite r.ulGap (diagnose E mpzP1)) true)
      else interior E C fuel ulD1 mr2 mpzP1 r.ulGap (logTest C mr2 mpzP1 g) := by
  unfold candidate
  rw [if_neg (by omega), if_neg (by omega), if_neg (by omega), if_neg (by omega)]
  by_cases hd : decLen mpzP1 ≠ ulD1
  · rw [if_pos hd, if_pos hd]
  · rw [if_neg hd, if_neg hd]
    simp only [hnc, hepo, hint, Bool.false_eq_true, if_false, Bool.false_and, hbak]
    unfold checkP1
    simp only [hint, hepo, Bool.false_eq_true, if_false]


theorem idx2_even (i : Nat) (h : 2 + 2 * i < 2 ^ 64) : idx2 (2 + 2 * i) = i := by
  unfold idx2
  have e : 2 + 2 * i + 2 ^ 64 - 2 = 2 * i + 2 ^ 64 := by omega
  rw [e, Nat.add_mod_right, Nat.mod_eq_of_lt (by omega)]
  omega

theorem sieveOf_buf (ulGap rem : Nat) (g : Globals) (hsiv : g.siv ulGap = none) :
    loadSiv ulGap rem (g.siv ulGap)
      ({ uchSieve := g.uchSieve, ulLPD := g.ulLPD } : Buf).uchSieve = none := by
  rw [hsiv]; rfl

/-- Without a snapshot the sieve leaves a prime above the ceiling switched on. -/
theorem sieveOf_survivor (E : Ext) (hT : OddPrimeTable E.ulPrime16) (C : Cfg)
    (ulD1 mpzP1 ulGap rem : Nat) (g : Globals) (hsiv : g.siv ulGap = none) (j : Nat)
    (hj : j < ulGap) (hp : Nat.Prime (mpzP1 + 2 * j + 2))
    (hq : ulMaxDiv ulD1 mpzP1 ulGap < mpzP1 + 2 * j + 2) :
    (sieveOf E C ulD1 mpzP1 ulGap rem g).buf.uchSieve j = 1 := by
  unfold sieveOf
  by_cases hD : ulD1 < 3
  · rw [vSieve2_buf_small E _ _ ulD1 mpzP1 ulGap rem _ _ (sieveOf_buf ulGap rem g hsiv) hD]
    simp [fillTo, hj]
  · rw [vSieve2_uch E hT _ _ ulD1 mpzP1 ulGap rem _ _
      (sieveOf_buf ulGap rem g hsiv) (by omega) j hj]
    rw [if_neg]
    rintro ⟨d, hd, hdvd⟩
    have h1 := sieveDivs_gt_one E hT ulD1 mpzP1 ulGap d hd
    have h2 := (mem_sieveDivs E ulD1 mpzP1 ulGap d hd).1
    rcases (Nat.dvd_prime hp).mp hdvd with h | h
    · omega
    · omega

/-- Without a snapshot, a prime that the sieve switched off is at most the ceiling, and the
candidate has at least three digits. -/
theorem sieveOf_struck (E : Ext) (hT : OddPrimeTable E.ulPrime16) (C : Cfg)
    (ulD1 mpzP1 ulGap rem : Nat) (g : Globals) (hsiv : g.siv ulGap = none) (j : Nat)
    (hj : j < ulGap) (hp : Nat.Prime (mpzP1 + 2 * j + 2))
    (h0 : (sieveOf E C ulD1 mpzP1 ulGap rem g).buf.uchSieve j = 0) :
    3 ≤ ulD1 ∧ mpzP1 + 2 * j + 2 ≤ ulMaxDiv ulD1 mpzP1 ulGap := by
  by_cases hq : ulMaxDiv ulD1 mpzP1 ulGap < mpzP1 + 2 * j + 2
  · have := sieveOf_survivor E hT C ulD1 mpzP1 ulGap rem g hsiv j hj hp hq
    omega
  · refine ⟨?_, by omega⟩
    by_contra hD
    unfold sieveOf at h0
    rw [vSieve2_buf_small E _ _ ulD1 mpzP1 ulGap rem _ _
      (sieveOf_buf ulGap rem g hsiv) (by omega)] at h0
    simp [fillTo, hj] at h0

theorem oracleAt_prime (E : Ext) (hprp : PrpExact E) (hmr : MrExact E) (mr2 : Bool)
    (reps mpzP1 ulGap ulG : Nat) :
    oracleAt E mr2 reps mpzP1 ulGap ulG = true ↔ Nat.Prime (mpzP1 + ulG) := by
  unfold oracleAt
  by_cases h : ulG = ulGap
  · subst h
    rw [if_pos rfl]
    cases mr2
    · simp only [Bool.false_eq_true, if_false]; exact hprp _ _ _
    · simp only [if_true]; exact hmr _
  · rw [if_neg h]; exact hprp _ _ _

/-- The exit condition of the dispatched search at an offset `2 + 2i` inside the sieved
interval, for exact oracles and a sound helper: the sieve byte is on and the number is
prime. -/
theorem searchGood_iff (E : Ext) (hprp : PrpExact E) (hmr : MrExact E)
    (C : Cfg) (ulD1 : Nat) (hh : helperUsed C ulD1 = true → HelperSound E) (mr2 : Bool)
    (mpzP1 ulGap : Nat) (g : Globals) (i : Nat) (hi : 2 + 2 * i < 2 * ulGap) (hb : 2 * ulGap < 2 ^ 64)
    (h3 : 3 ≤ mpzP1) :
    searchGood E C ulD1 mr2 mpzP1 ulGap g (2 + 2 * i) = true ↔
      (sieveOf E C ulD1 mpzP1 ulGap (mpzP1 % 2 ^ 64) g).buf.uchSieve i ≠ 0 ∧
        Nat.Prime (mpzP1 + (2 + 2 * i)) := by
  have ht : iTest (sieveOf E C ulD1 mpzP1 ulGap (mpzP1 % 2 ^ 64) g).buf.uchSieve ulGap
      (2 + 2 * i) = true ↔
      (sieveOf E C ulD1 mpzP1 ulGap (mpzP1 % 2 ^ 64) g).buf.uchSieve i ≠ 0 := by
    unfold iTest
    rw [idx2_even i (by omega)]
    simp only [Bool.or_eq_true, decide_eq_true_eq, bne_iff_ne, ne_eq]
    constructor
    · rintro (h | h)
      · omega
      · exact h
    · intro h; exact Or.inr h
  have ho := oracleAt_prime E hprp hmr mr2 C.ulMRReps mpzP1 ulGap (2 + 2 * i)
  unfold searchGood
  by_cases hu : helperUsed C ulD1 = true
  · simp only [hu, if_true]
    unfold goodAtP
    simp only [Bool.and_eq_true, ht, ho, bne_iff_ne, ne_eq]
    constructor
    · rintro ⟨a, _, c⟩; exact ⟨a, c⟩
    · rintro ⟨a, c⟩; exact ⟨a, hh hu _ c, c⟩
  · have hf : helperUsed C ulD1 = false := by simpa using hu
    simp only [hf, Bool.false_eq_true, if_false]
    unfold goodAt
    simp only [Bool.and_eq_true, ht, ho]
    constructor
    · rintro ⟨⟨a, _⟩, c⟩; exact ⟨a, c⟩
    · rintro ⟨a, c⟩; exact ⟨⟨a, fermat2_of_prime c (by omega)⟩, c⟩


theorem odd_of_prime_gt {q p : Nat} (hq : Nat.Prime q) (hp : 3 ≤ p) (h : p < q) : q % 2 = 1 := by
  rcases hq.eq_two_or_odd with h2 | h2
  · omega
  · exact h2

/-- Soundness of the search: when the dispatched search, started at offset 2 on a sieve built
without a snapshot, stops at the claimed gap, then `P1 + ulGap` is prime and no number
strictly between `P1` and `P1 + ulGap` is. -/
theorem search_sound (E : Ext) (hprp : PrpExact E) (hmr : MrExact E)
    (hT : OddPrimeTable E.ulPrime16) (C : Cfg) (mr2 : Bool) (p ulGap : Nat) (g : Globals)
    (hh : helperUsed C (decLen p) = true → HelperSound E)
    (hsiv : g.siv ulGap = none) (h3 : 3 ≤ p) (hodd : p % 2 = 1)
    (hb : ulGap ≤ 999999999) (fuel : Nat)
    (hfound : firstGood (searchGood E C (decLen p) mr2 p ulGap g) fuel 2 = some ulGap) :
    Nat.Prime (p + ulGap) ∧ ∀ n, p < n → n < p + ulGap → ¬ Nat.Prime n := by
  obtain ⟨k, -, hk, hgood, hbad⟩ := firstGood_some _ fuel 2 ulGap hfound
  have hiff := fun i (hi : 2 + 2 * i < 2 * ulGap) =>
    searchGood_iff E hprp hmr C (decLen p) hh mr2 p ulGap g i hi (by omega) h3
  have hP2 : Nat.Prime (p + ulGap) := by
    have := (hiff k (by omega)).mp (by rw [← hk]; exact hgood)
    rw [← hk] at this
    exact this.2
  refine ⟨hP2, fun q hq1 hq2 hq => ?_⟩
  have hqodd := odd_of_prime_gt hq h3 hq1
  obtain ⟨i, hi⟩ : ∃ i, q = p + (2 + 2 * i) := ⟨(q - p - 2) / 2, by omega⟩
  have hik : i < k := by omega
  have hbi := hbad i hik
  have hni : ¬ ((sieveOf E C (decLen p) p ulGap (p % 2 ^ 64) g).buf.uchSieve i ≠ 0 ∧
      Nat.Prime (p + (2 + 2 * i))) := by
    rw [← hiff i (by omega)]; simp [hbi]
  have h0 : (sieveOf E C (decLen p) p ulGap (p % 2 ^ 64) g).buf.uchSieve i = 0 := by
    by_contra hc; exact hni ⟨hc, by rw [← hi]; exact hq⟩
  have hq' : Nat.Prime (p + 2 * i + 2) := by
    have e : p + 2 * i + 2 = q := by omega
    rw [e]; exact hq
  obtain ⟨hD, hle⟩ := sieveOf_struck E hT C (decLen p) p ulGap (p % 2 ^ 64) g hsiv i
    (by omega) hq' h0
  have hM := two_ulMaxDiv_lt p ulGap hD
  obtain ⟨r, hr, hr1, hr2⟩ := Nat.exists_prime_lt_and_le_two_mul
    (ulMaxDiv (decLen p) p ulGap) (by omega)
  have hrodd := odd_of_prime_gt hr h3 (by omega)
  obtain ⟨i', hi'⟩ : ∃ i', r = p + (2 + 2 * i') := ⟨(r - p - 2) / 2, by omega⟩
  have hik' : i' < k := by omega
  have hr' : Nat.Prime (p + 2 * i' + 2) := by
    have e : p + 2 * i' + 2 = r := by omega
    rw [e]; exact hr
  have hs := sieveOf_survivor E hT C (decLen p) p ulGap (p % 2 ^ 64) g hsiv i' (by omega) hr'
    (by omega)
  have hg' : searchGood E C (decLen p) mr2 p ulGap g (2 + 2 * i') = true :=
    (hiff i' (by omega)).mpr ⟨by omega, by rw [← hi']; exact hr⟩
  rw [hbad i' hik'] at hg'
  cases hg'

/-- Completeness of the search: when `P1 + ulGap` is the next prime after the odd prime
`P1`, the dispatched search, started at offset 2 on a sieve built without a snapshot, stops
at `ulGap` as soon as the fuel exceeds `(ulGap - 2)/2`. -/
theorem search_finds (E : Ext) (hprp : PrpExact E) (hmr : MrExact E)
    (hT : OddPrimeTable E.ulPrime16) (C : Cfg) (mr2 : Bool) (p ulGap : Nat) (g : Globals)
    (hh : helperUsed C (decLen p) = true → HelperSound E)
    (hsiv : g.siv ulGap = none) (h3 : 3 ≤ p)
    (hb : ulGap ≤ 999999999) (hge : ulGap % 2 = 0) (hg0 : 0 < ulGap)
    (hP2 : Nat.Prime (p + ulGap)) (hnone : ∀ n, p < n → n < p + ulGap → ¬ Nat.Prime n)
    (fuel : Nat) (hfuel : (ulGap - 2) / 2 < fuel) :
    firstGood (searchGood E C (decLen p) mr2 p ulGap g) fuel 2 = some ulGap := by
  have hiff := fun i (hi : 2 + 2 * i < 2 * ulGap) =>
    searchGood_iff E hprp hmr C (decLen p) hh mr2 p ulGap g i hi (by omega) h3
  have hk : 2 + 2 * ((ulGap - 2) / 2) = ulGap := by omega
  have := firstGood_of (searchGood E C (decLen p) mr2 p ulGap g) fuel 2 ((ulGap - 2) / 2)
    hfuel ?_ ?_
  · rw [hk] at this; exact this
  · rw [hiff _ (by omega), hk]
    refine ⟨?_, hP2⟩
    have hP2' : Nat.Prime (p + 2 * ((ulGap - 2) / 2) + 2) := by
      have e : p + 2 * ((ulGap - 2) / 2) + 2 = p + ulGap := by omega
      rw [e]; exact hP2
    have hq : ulMaxDiv (decLen p) p ulGap < p + 2 * ((ulGap - 2) / 2) + 2 := by
      by_cases hD : 3 ≤ decLen p
      · have := two_ulMaxDiv_lt p ulGap hD; omega
      · have : ulMaxDiv (decLen p) p ulGap ≤ ceilSqrt (p + 2 * ulGap) :=
          ulMaxDiv_le_ceilSqrt _ _ _ (by omega)
        have h1 := ceilSqrt_le_of_le_sq (p + 2 * ulGap) (p + ulGap - 1) (by
          obtain ⟨e, he⟩ : ∃ e, p + ulGap = e + 4 := ⟨p + ulGap - 4, by omega⟩
          have : p + ulGap - 1 = e + 3 := by omega
          rw [this]
          nlinarith)
        omega
    rw [sieveOf_survivor E hT C (decLen p) p ulGap (p % 2 ^ 64) g hsiv _ (by omega) hP2' hq]
    decide
  · intro i hi
    have hn : ¬ Nat.Prime (p + (2 + 2 * i)) := hnone _ (by omega) (by omega)
    by_contra hc
    have hc' : searchGood E C (decLen p) mr2 p ulGap g (2 + 2 * i) = true := by
      simpa using hc
    exact hn ((hiff i (by omega)).mp hc').2


theorem endTest_prime (E : Ext) (hprp : PrpExact E) (hmr : MrExact E) (C : Cfg) (mr2 : Bool)
    (n : Nat) : endTest E C mr2 n = true ↔ Nat.Prime n := by
  unfold endTest
  cases mr2
  · simp only [Bool.false_eq_true, if_false]; exact hprp _ _ _
  · simp only [if_true]; exact hmr _

/-- The state in which the interior search of a full-check candidate starts. -/
theorem entry_fields (C : Cfg) (r : Rec) (d : Nat) (mr2 : Bool) (n : Nat) (g : Globals) :
    (logTest C mr2 n (backupState C r d g)).ulOK = g.ulOK ∧
      (logTest C mr2 n (backupState C r d g)).ulErrors = g.ulErrors ∧
      (logTest C mr2 n (backupState C r d g)).report = g.report ∧
      (logTest C mr2 n (backupState C r d g)).siv = g.siv ∧
      (logTest C mr2 n (backupState C r d g)).ulGBack = g.ulGBack := by
  obtain ⟨b1, b2, -, b4, -, -, -, b8, b9, -⟩ := backupState_fields C r d g
  exact ⟨b1, b2, b4, b8, b9⟩


/-- In full-check mode without checkpoint or snapshot, a record that passes the filters, has
the right digit count, an even gap, a prime `P1` and `P1 + gap` the next prime, is counted as
confirmed once the fuel exceeds `(gap - 2)/2`, and the search returns the gap. -/
theorem step_confirms (E : Ext) (C : Cfg) (r : Rec) (g : Globals) (ulD1 : Nat) (z : Int)
    (hprp : PrpExact E) (hmr : MrExact E) (hT : OddPrimeTable E.ulPrime16)
    (hh : C.iPFGW = true → HelperSound E)
    (hR : Reaches E C r ulD1 z) (hD : decLen z.toNat = ulD1) (hgap : r.ulGap % 2 = 0)
    (hepo : C.iEPO = false) (hint : C.iInterior = false) (hnc : C.iNoCheck = false)
    (hbak : g.bak r.ulGap = none) (hsiv : g.siv r.ulGap = none) (hgb : g.ulGBack = 2)
    (hP1 : Nat.Prime z.toNat) (hP2 : Nat.Prime (z.toNat + r.ulGap))
    (hnone : ∀ n, z.toNat < n → n < z.toNat + r.ulGap → ¬ Nat.Prime n)
    (fuel : Nat) (hfuel : (r.ulGap - 2) / 2 < fuel) :
    ∃ g1, step E C fuel r g = some (Ctl.next, g1) ∧ g1.ulOK = g.ulOK + 1 ∧
      g1.ulErrors = g.ulErrors ∧ g1.report = Msg.ok r.ulGap :: g.report ∧
      (search E C fuel ulD1 (mr2Of C ulD1) z.toNat r.ulGap
        (logTest C (mr2Of C ulD1) z.toNat (backupState C r ulD1 g))).map Prod.fst
          = some r.ulGap := by
  have hgb9 : r.ulGap ≤ 999999999 := hR.2.2.2.2.1
  have hg0 : 0 < r.ulGap := by
    have h1 := hR.2.1
    have h2 := hR.2.2.2.1
    omega
  have hz2 : 2 ≤ z := hR.2.2.2.2.2.2.2.2.2.2.2.2
  have hp3 : 3 ≤ z.toNat := by
    by_contra hc
    have h2 : z.toNat = 2 := by omega
    rw [h2] at hP2
    rcases hP2.eq_two_or_odd with h | h <;> omega
  have hpodd : z.toNat % 2 = 1 := by
    rcases hP1.eq_two_or_odd with h | h <;> omega
  subst hD
  obtain ⟨b1, -, -, -, -, -, b7, -⟩ := backupState_fields C r (decLen z.toNat) g
  have hstep := step_of_reaches E C fuel r g (decLen z.toNat) z hR
  rw [candidate_full E C fuel r (decLen z.toNat) (mr2Of C (decLen z.toNat)) z.toNat _ hgap
    hpodd hnc hepo hint (by rw [b7]; exact hbak), if_neg (by simp),
    if_neg (by
      have := (endTest_prime E hprp hmr C (mr2Of C (decLen z.toNat)) z.toNat).mpr hP1
      simp [this]),
    interior_eq E C fuel _ _ _ _ _ (by omega)] at hstep
  have hsearch := search_eq E C fuel (decLen z.toNat) (mr2Of C (decLen z.toNat)) z.toNat
    r.ulGap (logTest C (mr2Of C (decLen z.toNat)) z.toNat
      (backupState C r (decLen z.toNat) g)) (by omega)
  obtain ⟨e1, e2, e3, e4, e5⟩ := entry_fields C r (decLen z.toNat)
    (mr2Of C (decLen z.toNat)) z.toNat g
  generalize logTest C (mr2Of C (decLen z.toNat)) z.toNat
    (backupState C r (decLen z.toNat) g) = g2 at hstep hsearch e1 e2 e3 e4 e5
  have hf := search_finds E hprp hmr hT C (mr2Of C (decLen z.toNat)) z.toNat r.ulGap g2
    (fun h => hh (by
      unfold helperUsed at h
      simp only [Bool.and_eq_true] at h
      exact h.1))
    (by rw [e4]; exact hsiv) hp3 hgb9 hgap hg0 hP2 hnone fuel hfuel
  rw [e5, hgb, hf] at hstep hsearch
  rw [hstep, hsearch]
  obtain ⟨v1, v2, v3⟩ := verdict_eq E C z.toNat r.ulGap
    (afterSearch C (helperUsed C (decLen z.toNat)) z.toNat r.ulGap
      (sieveOf E C (decLen z.toNat) z.toNat r.ulGap (z.toNat % 2 ^ 64) g2) g2)
  refine ⟨_, rfl, ?_, ?_, ?_, rfl⟩
  · rw [v1, (afterSearch_fields _ _ _ _ _ _).1, e1]
  · rw [v2, (afterSearch_fields _ _ _ _ _ _).2.1, e2]
  · rw [v3, (afterSearch_fields _ _ _ _ _ _).2.2, e3]

theorem helperSound_exactExt : HelperSound exactExt := by
  intro n hn
  show (if isPrimeB n then 0 else 1) ≠ 1
  rw [if_pos ((isPrimeB_iff n).mpr hn)]
  decide


theorem sieveOf_uch (E : Ext) (hT : OddPrimeTable E.ulPrime16) (C : Cfg)
    (ulD1 mpzP1 ulGap rem : Nat) (g : Globals) (hsiv : g.siv ulGap = none) (hD : 3 ≤ ulD1)
    (j : Nat) (hj : j < ulGap) :
    (sieveOf E C ulD1 mpzP1 ulGap rem g).buf.uchSieve j =
      if ∃ d ∈ sieveDivs E ulD1 mpzP1 ulGap, d ∣ mpzP1 + 2 * j + 2 then 0 else 1 := by
  unfold sieveOf
  exact vSieve2_uch E hT _ _ ulD1 mpzP1 ulGap rem _ _ (sieveOf_buf ulGap rem g hsiv) hD j hj



theorem no_prime_between_3_5 : ∀ n, (3 : Int).toNat < n → n < (3 : Int).toNat + 2 → ¬ Nat.Prime n := by
  intro n h1 h2
  have h1' : 3 < n := h1
  have h2' : n < 5 := h2
  interval_cases n
  decide

theorem no_prime_between_103_107 :
    ∀ n, (103 : Int).toNat < n → n < (103 : Int).toNat + 4 → ¬ Nat.Prime n := by
  intro n h1 h2
  have h1' : 103 < n := h1
  have h2' : n < 107 := h2
  interval_cases n <;> norm_num


/-! ## Lemmas: the resume offset along a run -/

/-- Full exactness of the table gives exactness for every ceiling. -/
theorem tableExactTo_of_exact (tbl : Nat → Nat) (h : TableExact tbl) (m : Nat) :
    TableExactTo tbl m :=
  ⟨h.1, h.2.1, fun p hp h3 h65 _ => h.2.2.1 p hp h3 h65, fun _ => h.2.2.2⟩

theorem countError_ulGBack (g : Globals) (m : Msg) (b : Bool) :
    (countError g m b).ulGBack = g.ulGBack := rfl

theorem countOK_ulGBack (C : Cfg) (g : Globals) (m : Msg) :
    (countOK C g m).ulGBack = g.ulGBack := rfl

theorem verdict_ulGBack (E : Ext) (C : Cfg) (mpzP1 ulGap ulG : Nat) (g : Globals) :
    (verdict E C mpzP1 ulGap ulG g).ulGBack = g.ulGBack := by
  unfold verdict
  split
  · split <;> rfl
  · rfl

/-- After the interior of a candidate with `P1 ≠ 2` the resume offset is 2 again. -/
theorem interior_ulGBack (E : Ext) (C : Cfg) (fuel ulD1 : Nat) (mr2 : Bool) (mpzP1 ulGap : Nat)
    (g : Globals) (ctl : Ctl) (g1 : Globals) (h2 : mpzP1 ≠ 2)
    (h : interior E C fuel ulD1 mr2 mpzP1 ulGap g = some (ctl, g1)) : g1.ulGBack = 2 := by
  rw [interior_eq E C fuel ulD1 mr2 mpzP1 ulGap g h2] at h
  cases hf : firstGood (searchGood E C ulD1 mr2 mpzP1 ulGap g) fuel g.ulGBack with
  | none => rw [hf] at h; cases h
  | some ulG =>
    rw [hf] at h
    simp only [Option.map_some', Option.some.injEq, Prod.mk.injEq] at h
    rw [← h.2, verdict_ulGBack]
    rfl

theorem checkP1_ulGBack (E : Ext) (C : Cfg) (fuel ulD1 : Nat) (mr2 : Bool) (mpzP1 ulGap : Nat)
    (g : Globals) (ctl : Ctl) (g1 : Globals) (h2 : mpzP1 ≠ 2) (hg : g.ulGBack = 2)
    (h : checkP1 E C fuel ulD1 mr2 mpzP1 ulGap g = some (ctl, g1)) : g1.ulGBack = 2 := by
  unfold checkP1 at h
  split at h
  · exact interior_ulGBack E C fuel ulD1 mr2 mpzP1 ulGap g ctl g1 h2 h
  · split at h
    · cases h; exact hg
    · split at h
      · split at h
        · cases h; exact hg
        · cases h; exact hg
      · exact interior_ulGBack E C fuel ulD1 mr2 mpzP1 ulGap _ ctl g1 h2 h

theorem candidate_ulGBack (E : Ext) (C : Cfg) (fuel : Nat) (r : Rec) (ulD1 : Nat) (mr2 : Bool)
    (mpzP1 : Nat) (g : Globals) (ctl : Ctl) (g1 : Globals) (hg : g.ulGBack = 2)
    (h : candidate E C fuel r ulD1 mr2 mpzP1 g = some (ctl, g1)) : g1.ulGBack = 2 := by
  unfold candidate at h
  by_cases c1 : r.ulGap = 1 ∧ mpzP1 ≠ 2
  · rw [if_pos c1] at h; cases h; exact hg
  rw [if_neg c1] at h
  by_cases c2 : r.ulGap = 1
  · rw [if_pos c2] at h; cases h; exact hg
  rw [if_neg c2] at h
  by_cases c3 : r.ulGap % 2 = 1
  · rw [if_pos c3] at h; cases h; exact hg
  rw [if_neg c3] at h
  by_cases c4 : mpzP1 % 2 = 0
  · rw [if_pos c4] at h; cases h; exact hg
  rw [if_neg c4] at h
  have h2 : mpzP1 ≠ 2 := by omega
  by_cases c5 : decLen mpzP1 ≠ ulD1
  · rw [if_pos c5] at h; cases h; exact hg
  rw [if_neg c5] at h
  by_cases c6 : C.iNoCheck = true
  · rw [if_pos c6] at h; cases h; exact hg
  rw [if_neg c6] at h
  by_cases c7 : C.iEPO = true
  · rw [if_pos c7] at h
    exact checkP1_ulGBack E C fuel ulD1 mr2 mpzP1 r.ulGap { g with iBackup := false } ctl g1
      h2 hg h
  rw [if_neg c7] at h
  by_cases c8 : (C.iInterior && !g.iBackup) = true
  · rw [if_pos c8] at h
    exact interior_ulGBack E C fuel ulD1 mr2 mpzP1 r.ulGap g ctl g1 h2 h
  rw [if_neg c8] at h
  cases hb : g.bak r.ulGap with
  | none =>
    rw [hb] at h
    exact checkP1_ulGBack E C fuel ulD1 mr2 mpzP1 r.ulGap g ctl g1 h2 hg h
  | some b =>
    rw [hb] at h
    simp only at h
    by_cases c9 : b.gap ≠ r.ulGap
    · rw [if_pos c9] at h
      exact checkP1_ulGBack E C fuel ulD1 mr2 mpzP1 r.ulGap g ctl g1 h2 hg h
    rw [if_neg c9] at h
    by_cases c10 : b.p1rem ≠ mpzP1 % 2 ^ 64
    · rw [if_pos c10] at h
      exact checkP1_ulGBack E C fuel ulD1 mr2 mpzP1 r.ulGap g ctl g1 h2 hg h
    rw [if_neg c10] at h
    exact interior_ulGBack E C fuel ulD1 mr2 mpzP1 r.ulGap _ ctl g1 h2 h

/-- The resume offset `ulGBack` is 2 at the head of every round of the record loop: a round
that starts with `ulGBack = 2` ends with it. -/
theorem step_ulGBack (E : Ext) (C : Cfg) (fuel : Nat) (r : Rec) (g : Globals) (ctl : Ctl)
    (g1 : Globals) (hg : g.ulGBack = 2) (h : step E C fuel r g = some (ctl, g1)) :
    g1.ulGBack = 2 := by
  rcases step_cases E C fuel r g ctl g1 h with hu | ⟨d, z, -, hc⟩
  · rw [hu.2.2.2.2.2.2.2.1]; exact hg
  · exact candidate_ulGBack E C fuel r d (mr2Of C d) z.toNat _ ctl g1
      (by rw [(backupState_fields C r d g).2.2.2.2.2.2.2.2.1]; exact hg) hc

/-- Along a run from a state with `ulGBack = 2` the resume offset is 2 at the end. -/
theorem run_ulGBack (E : Ext) (C : Cfg) (fuel : Nat) :
    ∀ (rs : List Rec) (g g1 : Globals), g.ulGBack = 2 → run E C fuel rs g = some g1 →
      g1.ulGBack = 2 := by
  intro rs
  induction rs with
  | nil => intro g g1 hg h; simp only [run, Option.some.injEq] at h; rw [← h]; exact hg
  | cons r rs ih =>
    intro g g1 hg h
    unfold run at h
    cases hs : step E C fuel r g with
    | none => rw [hs] at h; cases h
    | some p =>
      obtain ⟨ctl, g2⟩ := p
      rw [hs] at h
      have h2 := step_ulGBack E C fuel r g ctl g2 hg hs
      cases ctl with
      | next => exact ih g2 g1 h2 h
      | stop => simp only [Option.some.injEq] at h; rw [← h]; exact h2


/-! ## Lemmas: the counters along one round -/

/-- The search leaves the counters, the report and the side file as they were. -/
theorem search_fields (E : Ext) (C : Cfg) (fuel ulD1 : Nat) (mr2 : Bool) (mpzP1 ulGap : Nat)
    (g : Globals) (x : Nat) (gs : Globals)
    (h : search E C fuel ulD1 mr2 mpzP1 ulGap g = some (x, gs)) :
    gs.ulOK = g.ulOK ∧ gs.ulErrors = g.ulErrors ∧ gs.report = g.report ∧
      gs.iNCGaps = g.iNCGaps ∧ gs.nocheck = g.nocheck := by
  by_cases h2 : mpzP1 = 2
  · unfold search mpz_gap mpz_gap_pfgw at h
    rw [if_pos h2, if_pos h2] at h
    simp only [ite_self, Option.some.injEq, Prod.mk.injEq] at h
    rw [← h.2]
    exact ⟨rfl, rfl, rfl, rfl, rfl⟩
  · rw [search_eq E C fuel ulD1 mr2 mpzP1 ulGap g h2] at h
    cases hf : firstGood (searchGood E C ulD1 mr2 mpzP1 ulGap g) fuel g.ulGBack with
    | none => rw [hf] at h; cases h
    | some ulG =>
      rw [hf] at h
      simp only [Option.map_some', Option.some.injEq, Prod.mk.injEq] at h
      rw [← h.2]
      exact ⟨rfl, rfl, rfl, rfl, rfl⟩

/-- The verdict counts exactly one of the two outcomes and leaves the side file alone. -/
theorem verdict_counts (E : Ext) (C : Cfg) (mpzP1 ulGap ulG : Nat) (g : Globals) :
    ((verdict E C mpzP1 ulGap ulG g).ulOK = g.ulOK + 1 ∧
        (verdict E C mpzP1 ulGap ulG g).ulErrors = g.ulErrors ∨
      (verdict E C mpzP1 ulGap ulG g).ulOK = g.ulOK ∧
        (verdict E C mpzP1 ulGap ulG g).ulErrors = g.ulErrors + 1) ∧
      (verdict E C mpzP1 ulGap ulG g).iNCGaps = g.iNCGaps ∧
      (verdict E C mpzP1 ulGap ulG g).nocheck = g.nocheck := by
  by_cases h : ulG = ulGap
  · subst h
    refine ⟨Or.inl ⟨(verdict_eq E C mpzP1 ulG g).1, (verdict_eq E C mpzP1 ulG g).2.1⟩, ?_, ?_⟩
    all_goals (unfold verdict; rw [if_neg (by simp)]; rfl)
  · refine ⟨Or.inr ⟨(verdict_ne E C mpzP1 ulGap ulG g h).1,
      (verdict_ne E C mpzP1 ulGap ulG g h).2.1⟩, ?_, ?_⟩
    all_goals (unfold verdict; rw [if_pos h]; split <;> rfl)

/-- A round that ends in `interior` counts exactly one outcome. -/
theorem interior_counts (E : Ext) (C : Cfg) (fuel ulD1 : Nat) (mr2 : Bool) (mpzP1 ulGap : Nat)
    (g : Globals) (ctl : Ctl) (g1 : Globals)
    (h : interior E C fuel ulD1 mr2 mpzP1 ulGap g = some (ctl, g1)) :
    (g1.ulOK = g.ulOK + 1 ∧ g1.ulErrors = g.ulErrors ∨
      g1.ulOK = g.ulOK ∧ g1.ulErrors = g.ulErrors + 1) ∧
      g1.iNCGaps = g.iNCGaps ∧ g1.nocheck = g.nocheck := by
  unfold interior at h
  cases hs : search E C fuel ulD1 mr2 mpzP1 ulGap g with
  | none => rw [hs] at h; cases h
  | some p =>
    obtain ⟨x, gs⟩ := p
    rw [hs] at h
    simp only [Option.some.injEq, Prod.mk.injEq] at h
    have hf := search_fields E C fuel ulD1 mr2 mpzP1 ulGap g x gs hs
    have hv := verdict_counts E C mpzP1 ulGap x gs
    rw [← h.2, ← hf.1, ← hf.2.1, ← hf.2.2.2.1, ← hf.2.2.2.2]
    exact hv

/-- A round that ends in `checkP1` counts exactly one outcome. -/
theorem checkP1_counts (E : Ext) (C : Cfg) (fuel ulD1 : Nat) (mr2 : Bool) (mpzP1 ulGap : Nat)
    (g : Globals) (ctl : Ctl) (g1 : Globals)
    (h : checkP1 E C fuel ulD1 mr2 mpzP1 ulGap g = some (ctl, g1)) :
    (g1.ulOK = g.ulOK + 1 ∧ g1.ulErrors = g.ulErrors ∨
      g1.ulOK = g.ulOK ∧ g1.ulErrors = g.ulErrors + 1) ∧
      g1.iNCGaps = g.iNCGaps ∧ g1.nocheck = g.nocheck := by
  unfold checkP1 at h
  split at h
  · exact interior_counts E C fuel ulD1 mr2 mpzP1 ulGap _ ctl g1 h
  · split at h
    · cases h; exact ⟨Or.inr ⟨rfl, rfl⟩, rfl, rfl⟩
    · split at h
      · split at h
        · cases h; exact ⟨Or.inr ⟨rfl, rfl⟩, rfl, rfl⟩
        · cases h; exact ⟨Or.inl ⟨rfl, rfl⟩, rfl, rfl⟩
      · exact interior_counts E C fuel ulD1 mr2 mpzP1 ulGap (logTest C mr2 mpzP1 g) ctl g1 h

/-- The loop body on a candidate: one confirmation, or one error, or one collected record. -/
theorem candidate_counts (E : Ext) (C : Cfg) (fuel : Nat) (r : Rec) (ulD1 : Nat) (mr2 : Bool)
    (mpzP1 : Nat) (g : Globals) (ctl : Ctl) (g1 : Globals)
    (h : candidate E C fuel r ulD1 mr2 mpzP1 g = some (ctl, g1)) :
    (g1.ulOK = g.ulOK + 1 ∧ g1.ulErrors = g.ulErrors ∧ g1.iNCGaps = g.iNCGaps ∧
        g1.nocheck = g.nocheck) ∨
      (g1.ulOK = g.ulOK ∧ g1.ulErrors = g.ulErrors + 1 ∧ g1.iNCGaps = g.iNCGaps ∧
        g1.nocheck = g.nocheck) ∨
      (g1.ulOK = g.ulOK ∧ g1.ulErrors = g.ulErrors ∧ g1.iNCGaps = g.iNCGaps + 1 ∧
        g1.nocheck = sideLine r :: g.nocheck) := by
  have key : ∀ g0 : Globals, g0.ulOK = g.ulOK → g0.ulErrors = g.ulErrors →
      g0.iNCGaps = g.iNCGaps → g0.nocheck = g.nocheck →
      ((g1.ulOK = g0.ulOK + 1 ∧ g1.ulErrors = g0.ulErrors ∨
        g1.ulOK = g0.ulOK ∧ g1.ulErrors = g0.ulErrors + 1) ∧
        g1.iNCGaps = g0.iNCGaps ∧ g1.nocheck = g0.nocheck) →
      (g1.ulOK = g.ulOK + 1 ∧ g1.ulErrors = g.ulErrors ∧ g1.iNCGaps = g.iNCGaps ∧
        g1.nocheck = g.nocheck) ∨
      (g1.ulOK = g.ulOK ∧ g1.ulErrors = g.ulErrors + 1 ∧ g1.iNCGaps = g.iNCGaps ∧
        g1.nocheck = g.nocheck) ∨
      (g1.ulOK = g.ulOK ∧ g1.ulErrors = g.ulErrors ∧ g1.iNCGaps = g.iNCGaps + 1 ∧
        g1.nocheck = sideLine r :: g.nocheck) := by
    intro g0 e1 e2 e3 e4 hh
    rw [e1, e2, e3, e4] at hh
    rcases hh with ⟨⟨a, b⟩ | ⟨a, b⟩, c, d⟩
    · exact Or.inl ⟨a, b, c, d⟩
    · exact Or.inr (Or.inl ⟨a, b, c, d⟩)
  unfold candidate at h
  by_cases c1 : r.ulGap = 1 ∧ mpzP1 ≠ 2
  · rw [if_pos c1] at h; cases h; exact Or.inr (Or.inl ⟨rfl, rfl, rfl, rfl⟩)
  rw [if_neg c1] at h
  by_cases c2 : r.ulGap = 1
  · rw [if_pos c2] at h; cases h; exact Or.inl ⟨rfl, rfl, rfl, rfl⟩
  rw [if_neg c2] at h
  by_cases c3 : r.ulGap % 2 = 1
  · rw [if_pos c3] at h; cases h; exact Or.inr (Or.inl ⟨rfl, rfl, rfl, rfl⟩)
  rw [if_neg c3] at h
  by_cases c4 : mpzP1 % 2 = 0
  · rw [if_pos c4] at h; cases h; exact Or.inr (Or.inl ⟨rfl, rfl, rfl, rfl⟩)
  rw [if_neg c4] at h
  by_cases c5 : decLen mpzP1 ≠ ulD1
  · rw [if_pos c5] at h; cases h; exact Or.inr (Or.inl ⟨rfl, rfl, rfl, rfl⟩)
  rw [if_neg c5] at h
  by_cases c6 : C.iNoCheck = true
  · rw [if_pos c6] at h; cases h; exact Or.inr (Or.inr ⟨rfl, rfl, rfl, rfl⟩)
  rw [if_neg c6] at h
  by_cases c7 : C.iEPO = true
  · rw [if_pos c7] at h
    exact key _ rfl rfl rfl rfl
      (checkP1_counts E C fuel ulD1 mr2 mpzP1 r.ulGap { g with iBackup := false } ctl g1 h)
  rw [if_neg c7] at h
  by_cases c8 : (C.iInterior && !g.iBackup) = true
  · rw [if_pos c8] at h
    exact key g rfl rfl rfl rfl (interior_counts E C fuel ulD1 mr2 mpzP1 r.ulGap g ctl g1 h)
  rw [if_neg c8] at h
  cases hb : g.bak r.ulGap with
  | none =>
    rw [hb] at h
    exact key g rfl rfl rfl rfl (checkP1_counts E C fuel ulD1 mr2 mpzP1 r.ulGap g ctl g1 h)
  | some b =>
    rw [hb] at h
    simp only at h
    by_cases c9 : b.gap ≠ r.ulGap
    · rw [if_pos c9] at h
      exact key g rfl rfl rfl rfl (checkP1_counts E C fuel ulD1 mr2 mpzP1 r.ulGap g ctl g1 h)
    rw [if_neg c9] at h
    by_cases c10 : b.p1rem ≠ mpzP1 % 2 ^ 64
    · rw [if_pos c10] at h
      exact key g rfl rfl rfl rfl (checkP1_counts E C fuel ulD1 mr2 mpzP1 r.ulGap g ctl g1 h)
    rw [if_neg c10] at h
    exact key { g with ulGBack := b.ulG } rfl rfl rfl rfl
      (interior_counts E C fuel ulD1 mr2 mpzP1 r.ulGap _ ctl g1 h)

/-! ## Lemmas: resuming the search -/

/-- The search started anywhere between the start and the result gives the same result. -/
theorem firstGood_resume (good : Nat → Bool) (fuel g0 g r : Nat)
    (h : firstGood good fuel g0 = some g) (h0 : g0 ≤ r) (hr : r ≤ g)
    (hpar : (r - g0) % 2 = 0) : firstGood good fuel r = some g := by
  obtain ⟨k, k1, k2, k3, k4⟩ := firstGood_some good fuel g0 g h
  obtain ⟨j, hj⟩ : ∃ j, r = g0 + 2 * j := ⟨(r - g0) / 2, by omega⟩
  have hjk : j ≤ k := by omega
  have e : g = r + 2 * (k - j) := by omega
  rw [e]
  refine firstGood_of good fuel r (k - j) (by omega) (by rw [← e]; exact k3) (fun i hi => ?_)
  have := k4 (j + i) (by omega)
  have e2 : g0 + 2 * (j + i) = r + 2 * i := by omega
  rw [e2] at this
  exact this

/-- One round further: a search that did not stop at `g0` goes on from `g0 + 2`. -/
theorem firstGood_next (good : Nat → Bool) (fuel g0 g : Nat)
    (h : firstGood good fuel g0 = some g) (hb : good g0 = false) :
    ∃ fuel1, firstGood good fuel1 (g0 + 2) = some g := by
  cases fuel with
  | zero => simp [firstGood] at h
  | succ n =>
    unfold firstGood at h
    rw [if_neg (by simp [hb])] at h
    exact ⟨n, h⟩

/-- Every checkpoint present during the helper-assisted search is either the file the loop
started with or carries the candidate's gap and fingerprint and an offset of the search
between its start and its result. -/
theorem pfgwBakAt_range (E : Ext) (uch : Nat → Nat) (mr2 bk : Bool)
    (reps ulD1 mpzP1 ulGap rem gObs : Nat) :
    ∀ n ulG c1 c2 bak b,
      (∃ fuel, firstGood (goodAtP E uch mr2 reps mpzP1 ulGap) fuel ulG = some gObs) →
      pfgwBakAt E uch mr2 bk reps ulD1 mpzP1 ulGap rem n ulG c1 c2 bak = some b →
      bak = some b ∨
        (b.gap = ulGap ∧ b.p1rem = rem ∧ (∃ i, b.ulG = ulG + 2 * i) ∧ b.ulG ≤ gObs) := by
  intro n
  induction n with
  | zero => intro ulG c1 c2 bak b _ h; exact Or.inl h
  | succ n ih =>
    intro ulG c1 c2 bak b hf h
    obtain ⟨fuel, hf⟩ := hf
    have hle : ulG ≤ gObs := by
      obtain ⟨k, -, k2, -⟩ := firstGood_some _ fuel ulG gObs hf
      omega
    have hsave : ∀ (s : Bool),
        (if s = true then some { gap := ulGap, p1rem := rem, ulG := ulG } else bak) = some b →
        bak = some b ∨
          (b.gap = ulGap ∧ b.p1rem = rem ∧ (∃ i, b.ulG = ulG + 2 * i) ∧ b.ulG ≤ gObs) := by
      intro s hs
      cases s with
      | false => exact Or.inl (by simpa using hs)
      | true =>
        simp only [if_true, Option.some.injEq] at hs
        subst hs
        exact Or.inr ⟨rfl, rfl, ⟨0, rfl⟩, hle⟩
    unfold pfgwBakAt at h
    by_cases ht : iTest uch ulGap ulG = true
    · simp only [ht, if_true] at h
      by_cases hg : (E.pfgw (mpzP1 + ulG) != 1 && oracleAt E mr2 reps mpzP1 ulGap ulG) = true
      · rw [if_pos hg] at h
        exact hsave _ h
      · rw [if_neg hg] at h
        have hb : goodAtP E uch mr2 reps mpzP1 ulGap ulG = false := by
          unfold goodAtP; rw [ht]; simpa using hg
        rcases ih (ulG + 2) _ _ _ b (firstGood_next _ fuel ulG gObs hf hb) h with h1 | h1
        · exact hsave _ h1
        · obtain ⟨a1, a2, ⟨i, a3⟩, a4⟩ := h1
          exact Or.inr ⟨a1, a2, ⟨i + 1, by omega⟩, a4⟩
    · simp only [ht, Bool.false_eq_true, if_false] at h
      have hb : goodAtP E uch mr2 reps mpzP1 ulGap ulG = false := by
        unfold goodAtP; simp [ht]
      rcases ih (ulG + 2) _ _ _ b (firstGood_next _ fuel ulG gObs hf hb) h with h1 | h1
      · exact Or.inl h1
      · obtain ⟨a1, a2, ⟨i, a3⟩, a4⟩ := h1
        exact Or.inr ⟨a1, a2, ⟨i + 1, by omega⟩, a4⟩

/-- The search dispatched at `INTERIOR` gives the same result from any resume offset between
2 and that result, on the same buffers and files. -/
theorem search_resume (E : Ext) (C : Cfg) (fuel ulD1 : Nat) (mr2 : Bool) (mpzP1 ulGap : Nat)
    (g : Globals) (gObs r : Nat) (hgb : g.ulGBack = 2)
    (h : (search E C fuel ulD1 mr2 mpzP1 ulGap g).map Prod.fst = some gObs)
    (hev : r % 2 = 0) (h2 : 2 ≤ r) (hr : mpzP1 = 2 ∨ r ≤ gObs) :
    (search E C fuel ulD1 mr2 mpzP1 ulGap { g with ulGBack := r }).map Prod.fst
      = some gObs := by
  by_cases hp : mpzP1 = 2
  · unfold search mpz_gap mpz_gap_pfgw at h ⊢
    rw [if_pos hp, if_pos hp] at h ⊢
    simp only [ite_self, Option.map_some'] at h ⊢
    exact h
  · have hr1 : r ≤ gObs := by rcases hr with hr | hr; exact absurd hr hp; exact hr
    rw [search_eq E C fuel ulD1 mr2 mpzP1 ulGap _ hp, Option.map_map] at h ⊢
    have e : searchGood E C ulD1 mr2 mpzP1 ulGap { g with ulGBack := r } =
        searchGood E C ulD1 mr2 mpzP1 ulGap g := rfl
    rw [e]
    show Option.map _ (firstGood (searchGood E C ulD1 mr2 mpzP1 ulGap g) fuel r) = some gObs
    rw [hgb] at h
    cases hf : firstGood (searchGood E C ulD1 mr2 mpzP1 ulGap g) fuel 2 with
    | none => rw [hf] at h; cases h
    | some x =>
      rw [hf] at h
      simp only [Option.map_some', Function.comp_apply, Option.some.injEq] at h
      subst h
      rw [firstGood_resume _ fuel 2 x r hf h2 hr1 (by omega)]
      rfl

/-! ## Lemmas: the sieve does not depend on the old buffer; snapshot checksum -/

theorem strike_agree (ulGap ulDiv : Nat) :
    ∀ fuel ul2 (b c : Buf), (∀ j, j < ulGap → b.uchSieve j = c.uchSieve j) →
      ∀ j, j < ulGap →
        (strike ulGap ulDiv fuel ul2 b).uchSieve j = (strike ulGap ulDiv fuel ul2 c).uchSieve j := by
  intro fuel
  induction fuel with
  | zero => intro ul2 b c h j hj; exact h j hj
  | succ n ih =>
    intro ul2 b c h j hj
    unfold strike
    by_cases hlt : ul2 < ulGap
    · rw [if_pos hlt, if_pos hlt]
      refine ih _ _ _ (fun i hi => ?_) j hj
      unfold strikeAt
      rw [h ul2 hlt]
      by_cases h1 : c.uchSieve ul2 = 1
      · rw [if_pos h1, if_pos h1]
        show setAt b.uchSieve ul2 0 i = setAt c.uchSieve ul2 0 i
        unfold setAt
        rw [h i hi]
      · rw [if_neg h1, if_neg h1]
        exact h i hi
    · rw [if_neg hlt, if_neg hlt]
      exact h j hj

theorem passes_agree (mpzP1 ulGap : Nat) :
    ∀ (ds : List Nat) (b c : Buf), (∀ j, j < ulGap → b.uchSieve j = c.uchSieve j) →
      ∀ j, j < ulGap →
        (passes mpzP1 ulGap ds b).uchSieve j = (passes mpzP1 ulGap ds c).uchSieve j := by
  intro ds
  induction ds with
  | nil => intro b c h j hj; exact h j hj
  | cons d ds ih =>
    intro b c h j hj
    unfold passes
    simp only [List.foldl_cons]
    exact ih _ _ (fun i hi => strike_agree ulGap d ulGap _ b c h i hi) j hj

/-- When no snapshot is accepted, the sieve buffer below `ulGap` after `vSieve2` is the same
whatever the buffers held before and whatever file was rejected. -/
theorem vSieve2_fresh (E : Ext) (cs bk cs1 bk1 : Bool) (ulD1 mpzP1 ulGap rem rem1 : Nat)
    (f f1 : Option SivFile) (b c : Buf)
    (hl : loadSiv ulGap rem f b.uchSieve = none)
    (hl1 : loadSiv ulGap rem1 f1 c.uchSieve = none) (j : Nat) (hj : j < ulGap) :
    (vSieve2 E cs bk ulD1 mpzP1 ulGap rem f b).buf.uchSieve j =
      (vSieve2 E cs1 bk1 ulD1 mpzP1 ulGap rem1 f1 c).buf.uchSieve j := by
  by_cases hD : ulD1 < 3
  · rw [vSieve2_buf_small E cs bk ulD1 mpzP1 ulGap rem f b hl hD,
      vSieve2_buf_small E cs1 bk1 ulD1 mpzP1 ulGap rem1 f1 c hl1 hD]
    show fillTo _ ulGap 1 j = fillTo _ ulGap 1 j
    unfold fillTo
    rw [if_pos hj, if_pos hj]
  · rw [vSieve2_buf E cs bk ulD1 mpzP1 ulGap rem f b hl (by omega),
      vSieve2_buf E cs1 bk1 ulD1 mpzP1 ulGap rem1 f1 c hl1 (by omega)]
    refine passes_agree mpzP1 ulGap _ _ _ (fun i hi => ?_) j hj
    show fillTo _ ulGap 1 i = fillTo _ ulGap 1 i
    unfold fillTo
    rw [if_pos hi, if_pos hi]

/-- Buffers that agree below `ulGap` have the same list of survivors. -/
theorem survivors_congr (u v : Nat → Nat) (ulGap : Nat)
    (h : ∀ j, j < ulGap → u j = v j) : survivors u ulGap = survivors v ulGap := by
  unfold survivors
  congr 1
  apply List.filter_congr
  intro x hx
  rw [h x (List.mem_range.mp hx)]

/-- The read loop of the loader adds up all the offsets of the file. -/
theorem loadOffs_snd (ulGap : Nat) :
    ∀ (os : List Nat) (u : Nat → Nat) (s : Nat), (loadOffs ulGap os u s).2 = s + os.sum := by
  intro os
  induction os with
  | nil => intro u s; simp [loadOffs]
  | cons o os ih =>
    intro u s
    unfold loadOffs
    rw [ih, List.sum_cons]
    omega

/-- Replacing one entry of a list by a different number changes the sum. -/
theorem sum_set_ne : ∀ (l : List Nat) (i v : Nat) (hi : i < l.length),
    v ≠ l.get ⟨i, hi⟩ → (l.set i v).sum ≠ l.sum := by
  intro l
  induction l with
  | nil => intro i v hi; simp at hi
  | cons a l ih =>
    intro i v hi hv
    cases i with
    | zero =>
      simp only [List.set_cons_zero, List.sum_cons]
      simp only [List.get_eq_getElem, List.getElem_cons_zero] at hv
      omega
    | succ i =>
      simp only [List.set_cons_succ, List.sum_cons]
      simp only [List.get_eq_getElem, List.getElem_cons_succ] at hv
      have := ih i v (by simpa using hi) (by simpa using hv)
      omega

/-- A tampered snapshot is not accepted by the loader. -/
theorem loadSiv_tampered (uch0 : Nat → Nat) (ulGap rem : Nat) (s1 : SivFile)
    (u : Nat → Nat) (ht : Tampered (mkSiv uch0 ulGap rem) s1) :
    loadSiv ulGap rem (some s1) u = none := by
  unfold loadSiv
  cases ht with
  | gap s1 h => simp only; rw [if_neg (fun hh => h hh.1)]
  | p1rem s1 h => simp only; rw [if_neg (fun hh => h hh.2)]
  | checksum v h =>
    simp only
    split
    · rw [loadOffs_snd, if_neg]
      intro hh
      apply h
      rw [← hh]
      simp [mkSiv]
    · rfl
  | offset i v hi h =>
    simp only
    split
    · rw [loadOffs_snd, if_neg]
      intro hh
      have := sum_set_ne (mkSiv uch0 ulGap rem).offs i v hi h
      apply this
      simp only [Nat.zero_add] at hh
      rw [hh]
      rfl
    · rfl

/-- The interior reads its start offset from `ulGBack`. -/
theorem interior_searchFrom (E : Ext) (C : Cfg) (fuel ulD1 : Nat) (mr2 : Bool)
    (mpzP1 ulGap : Nat) (g : Globals) (h2 : mpzP1 ≠ 2) :
    interior E C fuel ulD1 mr2 mpzP1 ulGap g =
      searchFrom E C fuel ulD1 mr2 mpzP1 ulGap g.ulGBack g :=
  interior_eq E C fuel ulD1 mr2 mpzP1 ulGap g h2

/-- In the embedding, where a store at any index has a meaning and the second `fclose` of a
rejected file with the candidate's header is passed over: a snapshot written for a
candidate and then changed in the header gap, in the header fingerprint, in the stored
checksum or in the value of one offset line is not accepted by the loader, and the sieve
buffer below the gap (hence the list of survivors) that `vSieve2` then produces is the one a
sieve without any snapshot produces from any buffer. -/
theorem vSieve2_tampered (E : Ext) (cs bk : Bool) (ulD1 mpzP1 ulGap rem : Nat)
    (uch0 : Nat → Nat) (s1 : SivFile) (b c : Buf)
    (ht : Tampered (mkSiv uch0 ulGap rem) s1) :
    loadSiv ulGap rem (some s1) b.uchSieve = none ∧
      (∀ j, j < ulGap →
        (vSieve2 E cs bk ulD1 mpzP1 ulGap rem (some s1) b).buf.uchSieve j =
          (vSieve2 E cs bk ulD1 mpzP1 ulGap rem none c).buf.uchSieve j) ∧
      survivors (vSieve2 E cs bk ulD1 mpzP1 ulGap rem (some s1) b).buf.uchSieve ulGap =
        survivors (vSieve2 E cs bk ulD1 mpzP1 ulGap rem none c).buf.uchSieve ulGap := by
  have hl := loadSiv_tampered uch0 ulGap rem s1 b.uchSieve ht
  have hp : ∀ j, j < ulGap →
      (vSieve2 E cs bk ulD1 mpzP1 ulGap rem (some s1) b).buf.uchSieve j =
        (vSieve2 E cs bk ulD1 mpzP1 ulGap rem none c).buf.uchSieve j :=
    fun j hj => vSieve2_fresh E cs bk cs bk ulD1 mpzP1 ulGap rem rem (some s1) none b c hl rfl
      j hj
  exact ⟨hl, hp, survivors_congr _ _ ulGap hp⟩

/-! ## Lemmas: where the error lines go -/

/-- An error counted by `countError` with `toReport` has its line on both streams. -/
theorem countError_lines (g : Globals) (m : Msg) :
    (countError g m true).report = m :: g.report ∧
      (countError g m true).screen = m :: g.screen ∧
      (countError g m true).ulErrors = g.ulErrors + 1 := ⟨rfl, rfl, rfl⟩

/-- An error counted from `INTERIOR` on has its line in the report and on the screen. -/
theorem interior_report (E : Ext) (C : Cfg) (fuel ulD1 : Nat) (mr2 : Bool) (mpzP1 ulGap : Nat)
    (g : Globals) (ctl : Ctl) (g1 : Globals)
    (h : interior E C fuel ulD1 mr2 mpzP1 ulGap g = some (ctl, g1))
    (he : g1.ulErrors = g.ulErrors + 1) :
    ∃ m, g1.report = m :: g.report ∧ ∃ t, g1.screen = m :: t := by
  unfold interior at h
  cases hs : search E C fuel ulD1 mr2 mpzP1 ulGap g with
  | none => rw [hs] at h; cases h
  | some p =>
    obtain ⟨x, gs⟩ := p
    rw [hs] at h
    simp only [Option.some.injEq, Prod.mk.injEq] at h
    obtain ⟨-, f2, f3, -, -⟩ := search_fields E C fuel ulD1 mr2 mpzP1 ulGap g x gs hs
    by_cases hx : x = ulGap
    · exfalso
      subst hx
      have := (verdict_eq E C mpzP1 x gs).2.1
      rw [h.2] at this
      omega
    · rw [← h.2, ← f3]
      unfold verdict
      rw [if_pos hx]
      split
      · exact ⟨_, rfl, _, rfl⟩
      · exact ⟨_, rfl, _, rfl⟩

/-- An error counted from `CHECK_P1` on has its line in the report and on the screen. -/
theorem checkP1_report (E : Ext) (C : Cfg) (fuel ulD1 : Nat) (mr2 : Bool) (mpzP1 ulGap : Nat)
    (g : Globals) (ctl : Ctl) (g1 : Globals)
    (h : checkP1 E C fuel ulD1 mr2 mpzP1 ulGap g = some (ctl, g1))
    (he : g1.ulErrors = g.ulErrors + 1) :
    ∃ m, g1.report = m :: g.report ∧ ∃ t, g1.screen = m :: t := by
  unfold checkP1 at h
  split at h
  · exact interior_report E C fuel ulD1 mr2 mpzP1 ulGap g ctl g1 h he
  · split at h
    · cases h; exact ⟨_, rfl, _, rfl⟩
    · split at h
      · split at h
        · cases h; exact ⟨_, rfl, _, rfl⟩
        · cases h
          exfalso
          have : (countOK C (logTest C mr2 (mpzP1 + ulGap) (logTest C mr2 mpzP1 g))
            (Msg.okEpo ulGap)).ulErrors = g.ulErrors := rfl
          omega
      · exact interior_report E C fuel ulD1 mr2 mpzP1 ulGap (logTest C mr2 mpzP1 g) ctl g1 h he

/-- An error counted by the loop body has its line in the report and on the screen, unless
it is the conflict of digit counts, whose line goes to the screen only. -/
theorem candidate_report (E : Ext) (C : Cfg) (fuel : Nat) (r : Rec) (ulD1 : Nat) (mr2 : Bool)
    (mpzP1 : Nat) (g : Globals) (ctl : Ctl) (g1 : Globals)
    (h : candidate E C fuel r ulD1 mr2 mpzP1 g = some (ctl, g1))
    (he : g1.ulErrors = g.ulErrors + 1) :
    (∃ m, g1.report = m :: g.report ∧ ∃ t, g1.screen = m :: t) ∨
      (r.ulGap % 2 = 0 ∧ mpzP1 % 2 = 1 ∧ decLen mpzP1 ≠ ulD1 ∧ g1.report = g.report ∧
        g1.screen = Msg.digitConflict ulD1 (decLen mpzP1) :: g.screen) := by
  unfold candidate at h
  by_cases c1 : r.ulGap = 1 ∧ mpzP1 ≠ 2
  · rw [if_pos c1] at h; cases h; exact Or.inl ⟨_, rfl, _, rfl⟩
  rw [if_neg c1] at h
  by_cases c2 : r.ulGap = 1
  · rw [if_pos c2] at h; cases h
    exfalso
    have : (countOK C g Msg.okCertfd).ulErrors = g.ulErrors := rfl
    omega
  rw [if_neg c2] at h
  by_cases c3 : r.ulGap % 2 = 1
  · rw [if_pos c3] at h; cases h; exact Or.inl ⟨_, rfl, _, rfl⟩
  rw [if_neg c3] at h
  by_cases c4 : mpzP1 % 2 = 0
  · rw [if_pos c4] at h; cases h; exact Or.inl ⟨_, rfl, _, rfl⟩
  rw [if_neg c4] at h
  by_cases c5 : decLen mpzP1 ≠ ulD1
  · rw [if_pos c5] at h; cases h
    exact Or.inr ⟨by omega, by omega, c5, rfl, rfl⟩
  rw [if_neg c5] at h
  by_cases c6 : C.iNoCheck = true
  · rw [if_pos c6] at h; cases h
    exfalso
    have : ({ g with nocheck := sideLine r :: g.nocheck, iNCGaps := g.iNCGaps + 1 } : Globals).ulErrors
      = g.ulErrors := rfl
    omega
  rw [if_neg c6] at h
  by_cases c7 : C.iEPO = true
  · rw [if_pos c7] at h
    exact Or.inl
      (checkP1_report E C fuel ulD1 mr2 mpzP1 r.ulGap { g with iBackup := false } ctl g1 h he)
  rw [if_neg c7] at h
  by_cases c8 : (C.iInterior && !g.iBackup) = true
  · rw [if_pos c8] at h
    exact Or.inl (interior_report E C fuel ulD1 mr2 mpzP1 r.ulGap g ctl g1 h he)
  rw [if_neg c8] at h
  cases hb : g.bak r.ulGap with
  | none =>
    rw [hb] at h
    exact Or.inl (checkP1_report E C fuel ulD1 mr2 mpzP1 r.ulGap g ctl g1 h he)
  | some b =>
    rw [hb] at h
    simp only at h
    by_cases c9 : b.gap ≠ r.ulGap
    · rw [if_pos c9] at h
      exact Or.inl (checkP1_report E C fuel ulD1 mr2 mpzP1 r.ulGap g ctl g1 h he)
    rw [if_neg c9] at h
    by_cases c10 : b.p1rem ≠ mpzP1 % 2 ^ 64
    · rw [if_pos c10] at h
      exact Or.inl (checkP1_report E C fuel ulD1 mr2 mpzP1 r.ulGap g ctl g1 h he)
    rw [if_neg c10] at h
    exact Or.inl
      (interior_report E C fuel ulD1 mr2 mpzP1 r.ulGap { g with ulGBack := b.ulG } ctl g1 h he)

/-! ## Lemmas: endpoints-only mode -/

/-- The filters read the collaborators through the parser only. -/
theorem reaches_congr (E E1 : Ext) (C : Cfg) (r : Rec) (ulD1 : Nat) (z : Int)
    (hP : E1.parseP1 = E.parseP1) (h : Reaches E C r ulD1 z) : Reaches E1 C r ulD1 z := by
  unfold Reaches field at h ⊢
  rw [hP]
  exact h

/-- The loop body in endpoints-only mode for a candidate with even gap, odd `P1` and the
right digit count: the test of `P1`, then the test of `P2`. -/
theorem candidate_epo (E : Ext) (C : Cfg) (fuel : Nat) (r : Rec) (ulD1 : Nat) (mr2 : Bool)
    (mpzP1 : Nat) (g : Globals) (hg : r.ulGap % 2 = 0) (hodd : mpzP1 % 2 = 1)
    (hD : decLen mpzP1 = ulD1) (hnc : C.iNoCheck = false) (hepo : C.iEPO = true)
    (hint : C.iInterior = false) :
    candidate E C fuel r ulD1 mr2 mpzP1 g =
      some (Ctl.next,
        if !endTest E C mr2 mpzP1 then
          countError (logDiv mpzP1 (logTest C mr2 mpzP1 { g with iBackup := false }))
            (Msg.p1Composite r.ulGap (diagnose E mpzP1)) true
        else if !endTest E C mr2 (mpzP1 + r.ulGap) then
          countError
            (logDiv (mpzP1 + r.ulGap) (logTest C mr2 (mpzP1 + r.ulGap)
              (logTest C mr2 mpzP1 { g with iBackup := false })))
            (Msg.p2CompositeEpo r.ulGap (diagnose E (mpzP1 + r.ulGap))) true
        else
          countOK C (logTest C mr2 (mpzP1 + r.ulGap)
            (logTest C mr2 mpzP1 { g with iBackup := false })) (Msg.okEpo r.ulGap)) := by
  unfold candidate
  rw [if_neg (by omega), if_neg (by omega), if_neg (by omega), if_neg (by omega),
    if_neg (by simp [hD]), if_neg (by simp [hnc]), if_pos hepo]
  unfold checkP1
  rw [if_neg (by simp [hint])]
  by_cases h1 : (!endTest E C mr2 mpzP1) = true
  · rw [if_pos h1, if_pos h1]
  · rw [if_neg h1, if_neg h1, if_pos hepo]
    by_cases h2 : (!endTest E C mr2 (mpzP1 + r.ulGap)) = true
    · rw [if_pos h2, if_pos h2]
    · rw [if_neg h2, if_neg h2]

/-- The endpoint test and the diagnosis of `n` read the collaborators at `n` only. -/
theorem endTest_congr (E E1 : Ext) (C : Cfg) (mr2 : Bool) (n : Nat)
    (h1 : ∀ a b, E1.iPrP n a b = E.iPrP n a b) (h2 : ∀ a, E1.iMillerRabin n a = E.iMillerRabin n a)
    (h3 : ∀ b, E1.ulPrmDiv n b = E.ulPrmDiv n b) :
    endTest E1 C mr2 n = endTest E C mr2 n ∧ diagnose E1 n = diagnose E n := by
  unfold endTest diagnose
  rw [h1, h2, h3]
  exact ⟨rfl, rfl⟩

/-! ## Lemmas: the two search loops compared; termination -/

/-- A result of `firstGood` is kept by every larger fuel. -/
theorem firstGood_mono (good : Nat → Bool) (fuel fuel1 g0 g : Nat)
    (h : firstGood good fuel g0 = some g) (hle : fuel ≤ fuel1) :
    firstGood good fuel1 g0 = some g := by
  obtain ⟨k, k1, k2, k3, k4⟩ := firstGood_some good fuel g0 g h
  rw [k2]
  exact firstGood_of good fuel1 g0 k (by omega) (by rw [← k2]; exact k3) k4

/-- When some offset `g0 + 2k` is good, the search from `g0` stops within `k + 1` rounds. -/
theorem firstGood_exists (good : Nat → Bool) :
    ∀ k g0, good (g0 + 2 * k) = true → ∃ g, firstGood good (k + 1) g0 = some g := by
  intro k
  induction k with
  | zero =>
    intro g0 h
    simp only [Nat.mul_zero, Nat.add_zero] at h
    exact ⟨g0, by unfold firstGood; rw [if_pos h]⟩
  | succ k ih =>
    intro g0 h
    by_cases hg : good g0 = true
    · exact ⟨g0, by unfold firstGood; rw [if_pos hg]⟩
    · have e : g0 + 2 * (k + 1) = g0 + 2 + 2 * k := by omega
      rw [e] at h
      obtain ⟨g, hg1⟩ := ih (g0 + 2) h
      exact ⟨g, by unfold firstGood; rw [if_neg hg]; exact hg1⟩

/-- With a helper that reports composite exactly where the base-2 Fermat screen fails, the
two search loops have the same exit condition. -/
theorem goodAtP_eq_goodAt (E : Ext) (hH : ∀ n, E.pfgw n = 1 ↔ fermat2 n = false)
    (uch : Nat → Nat) (mr2 : Bool) (reps mpzP1 ulGap ulG : Nat) :
    goodAtP E uch mr2 reps mpzP1 ulGap ulG = goodAt E uch mr2 reps mpzP1 ulGap ulG := by
  unfold goodAtP goodAt
  have : (E.pfgw (mpzP1 + ulG) != 1) = fermat2 (mpzP1 + ulG) := by
    have := hH (mpzP1 + ulG)
    cases hf : fermat2 (mpzP1 + ulG) with
    | true =>
      rw [hf] at this
      simp only [Bool.true_eq_false, iff_false] at this
      simpa using this
    | false =>
      rw [hf] at this
      simp only [iff_true] at this
      simp [this]
  rw [this, Bool.and_assoc]

/-! ## Lemmas: the snapshot read back -/

theorem mem_survivors (u : Nat → Nat) (ulGap o : Nat) :
    o ∈ survivors u ulGap ↔ ∃ i, i < ulGap ∧ u i ≠ 0 ∧ o = 2 * i + 2 := by
  unfold survivors
  simp only [List.mem_map, List.mem_filter, List.mem_range, bne_iff_ne, ne_eq]
  constructor
  · rintro ⟨i, ⟨h1, h2⟩, h3⟩
    exact ⟨i, h1, h2, h3.symm⟩
  · rintro ⟨i, h1, h2, h3⟩
    exact ⟨i, ⟨h1, h2⟩, h3.symm⟩

/-- The read loop of the loader on offsets `2i + 2` with `i < ulGap`: index `j` is switched
on exactly when the offset `2j + 2` is in the file. -/
theorem loadOffs_fst (ulGap : Nat) (hb : ulGap ≤ 999999999) :
    ∀ (os : List Nat) (v : Nat → Nat) (s : Nat),
      (∀ o ∈ os, ∃ i, i < ulGap ∧ o = 2 * i + 2) →
      ∀ j, (loadOffs ulGap os v s).1 j = if 2 * j + 2 ∈ os then 1 else v j := by
  intro os
  induction os with
  | nil => intro v s _ j; simp [loadOffs]
  | cons o os ih =>
    intro v s h j
    obtain ⟨i, hi, ho⟩ := h o (List.mem_cons_self _ _)
    have hpow : (2 : Nat) ^ 64 = 18446744073709551616 := by norm_num
    have hidx : idx2 o = i := by
      rw [ho]
      have := idx2_even i (by omega)
      rw [show 2 * i + 2 = 2 + 2 * i by omega]
      exact this
    unfold loadOffs
    rw [if_pos (by omega : o ≤ 2 * ulGap),
      ih _ _ (fun o1 h1 => h o1 (List.mem_cons_of_mem _ h1)) j]
    by_cases hm : 2 * j + 2 ∈ os
    · rw [if_pos hm, if_pos (List.mem_cons_of_mem _ hm)]
    · rw [if_neg hm]
      unfold setAt
      rw [hidx]
      by_cases hji : j = i
      · rw [if_pos hji, if_pos (by rw [hji, ← ho]; exact List.mem_cons_self _ _)]
      · rw [if_neg hji, if_neg]
        intro hc
        rcases List.mem_cons.mp hc with hc | hc
        · omega
        · exact hm hc

/-- The snapshot of a buffer is accepted for its gap and fingerprint, and the buffer loaded
has the survivors of the buffer written. -/
theorem loadSiv_mkSiv (u v : Nat → Nat) (ulGap rem : Nat) (hb : ulGap ≤ 999999999) :
    ∃ w, loadSiv ulGap rem (some (mkSiv u ulGap rem)) v = some w ∧
      (∀ j, j < ulGap → w j = if u j ≠ 0 then 1 else 0) ∧ (∀ j, ulGap ≤ j → w j = v j) := by
  have hform : ∀ o ∈ (mkSiv u ulGap rem).offs, ∃ i, i < ulGap ∧ o = 2 * i + 2 := by
    intro o ho
    obtain ⟨i, h1, -, h3⟩ := (mem_survivors u ulGap o).mp ho
    exact ⟨i, h1, h3⟩
  refine ⟨(loadOffs ulGap (mkSiv u ulGap rem).offs (fillTo v ulGap 0) 0).1, ?_, ?_, ?_⟩
  · unfold loadSiv
    simp only
    rw [if_pos ⟨rfl, rfl⟩, loadOffs_snd, if_pos]
    simp [mkSiv]
  · intro j hj
    rw [loadOffs_fst ulGap hb _ _ _ hform j]
    by_cases hu : u j ≠ 0
    · rw [if_pos, if_pos hu]
      exact (mem_survivors u ulGap _).mpr ⟨j, hj, hu, rfl⟩
    · rw [if_neg, if_neg hu]
      · unfold fillTo; rw [if_pos hj]
      · intro hc
        obtain ⟨i, -, h2, h3⟩ := (mem_survivors u ulGap _).mp hc
        have : i = j := by omega
        subst this
        exact hu h2
  · intro j hj
    rw [loadOffs_fst ulGap hb _ _ _ hform j, if_neg]
    · unfold fillTo; rw [if_neg (by omega)]
    · intro hc
      obtain ⟨i, h1, -, h3⟩ := (mem_survivors u ulGap _).mp hc
      omega

/-! ## Lemmas: the trial divisors come in increasing order -/

theorem divs16_pairwise (tbl : Nat → Nat) (m : Nat) :
    ∀ n ul, (∀ j k, ul ≤ j → j < k → k < ul + n → tbl j < tbl k) →
      (divs16 tbl m n ul).Pairwise (· < ·) := by
  intro n
  induction n with
  | zero => intro ul _; unfold divs16; exact List.Pairwise.nil
  | succ n ih =>
    intro ul hmono
    unfold divs16
    split
    · exact List.Pairwise.nil
    · refine List.pairwise_cons.mpr ⟨fun d hd => ?_, ih (ul + 1) (fun j k a b c =>
        hmono j k (by omega) b (by omega))⟩
      obtain ⟨k, k1, k2, k3, -⟩ := mem_divs16 tbl m n (ul + 1) d hd
      rw [k3]
      exact hmono ul k (le_refl _) (by omega) (by omega)

theorem divsInner30_pairwise (isP : Nat → Bool) (m ulBase : Nat) :
    ∀ rs : List Nat, rs.Pairwise (· < ·) →
      (divsInner30 isP m ulBase rs).Pairwise (· < ·) := by
  intro rs
  induction rs with
  | nil => intro _; unfold divsInner30; exact List.Pairwise.nil
  | cons r rs ih =>
    intro hp
    obtain ⟨h1, h2⟩ := List.pairwise_cons.mp hp
    unfold divsInner30
    split
    · exact List.Pairwise.nil
    · split
      · exact ih h2
      · refine List.pairwise_cons.mpr ⟨fun d hd => ?_, ih h2⟩
        obtain ⟨r1, hr1, hd1, -⟩ := mem_divsInner30 isP m ulBase rs d hd
        have := h1 r1 hr1
        omega

theorem divsOuter30_pairwise (isP : Nat → Bool) (m : Nat) :
    ∀ fuel ulBase, (divsOuter30 isP m fuel ulBase).Pairwise (· < ·) := by
  intro fuel
  induction fuel with
  | zero => intro ulBase; unfold divsOuter30; exact List.Pairwise.nil
  | succ n ih =>
    intro ulBase
    unfold divsOuter30
    refine List.pairwise_append.mpr ⟨divsInner30_pairwise isP m ulBase d30 d30_pairwise, ?_, ?_⟩
    · split
      · exact List.Pairwise.nil
      · exact ih (ulBase + 30)
    · intro a ha b hb
      obtain ⟨r1, hr1, ha1, -⟩ := mem_divsInner30 isP m ulBase d30 a ha
      have := d30_le hr1
      split at hb
      · simp at hb
      · obtain ⟨t, r2, hr2, hb1, -⟩ := mem_divsOuter30 isP m n (ulBase + 30) b hb
        have := d30_le hr2
        omega

/-- The trial divisors of a candidate are applied in strictly increasing order. -/
theorem sieveDivs_pairwise (E : Ext) (ulD1 mpzP1 ulGap : Nat)
    (hT : TableExactTo E.ulPrime16 (ulMaxDiv ulD1 mpzP1 ulGap)) :
    (sieveDivs E ulD1 mpzP1 ulGap).Pairwise (· < ·) := by
  obtain ⟨-, t2, -, t4⟩ := hT
  unfold sieveDivs
  refine List.pairwise_append.mpr ⟨divs16_pairwise _ _ 6540 2 (fun j k a b c =>
    t2 j k a b (by omega)), ?_, ?_⟩
  · split
    · exact List.Pairwise.nil
    · exact divsOuter30_pairwise _ _ _ _
  · intro a ha b hb
    split at hb
    · simp at hb
    · obtain ⟨t, r2, hr2, hb1, hb2, -⟩ := mem_divsOuter30 _ _ _ _ b hb
      obtain ⟨k, k1, k2, k3, -⟩ := mem_divs16 _ _ _ _ a ha
      have := d30_le hr2
      have := t4 (by omega) k k1 (by omega)
      omega

/-- In an increasing list the first element with a property is the least one. -/
theorem find_le_of_pairwise (P : Nat → Bool) :
    ∀ (l : List Nat), l.Pairwise (· < ·) → ∀ d q, l.find? P = some d → q ∈ l → P q = true →
      d ≤ q := by
  intro l
  induction l with
  | nil => intro _ d q _ hq; simp at hq
  | cons a l ih =>
    intro hp d q hf hq hPq
    obtain ⟨h1, h2⟩ := List.pairwise_cons.mp hp
    by_cases ha : P a = true
    · rw [List.find?_cons_of_pos _ ha] at hf
      cases hf
      rcases List.mem_cons.mp hq with h | h
      · omega
      · exact Nat.le_of_lt (h1 q h)
    · rw [List.find?_cons_of_neg _ ha] at hf
      rcases List.mem_cons.mp hq with h | h
      · subst h; exact absurd hPq ha
      · exact ih h2 d q hf h hPq

/-! ## Lemmas: when the checkpoint is written -/

theorem iPrintCount_large (ulD1 : Nat) (h : 4000 ≤ ulD1) : iPrintCount ulD1 = 1 := by
  unfold iPrintCount
  have h1 : ulD1 > 3999 := by omega
  simp [h1]

/-- The checkpoint file along a stretch of the helper-assisted search in which every offset
is tested and none ends the search, for a candidate of at least 4000 digits (one progress
line per test) with backup on: the file is rewritten at every tenth test, counted from the
last write, and at no other moment. -/
theorem pfgwBakAt_tenth (E : Ext) (uch : Nat → Nat) (mr2 : Bool)
    (reps ulD1 mpzP1 ulGap rem : Nat) (hD : 4000 ≤ ulD1) :
    ∀ n ulG c2 bak, c2 < 10 →
      (∀ i, i < n → iTest uch ulGap (ulG + 2 * i) = true) →
      (∀ i, i < n → (E.pfgw (mpzP1 + (ulG + 2 * i)) != 1 &&
          oracleAt E mr2 reps mpzP1 ulGap (ulG + 2 * i)) = false) →
      pfgwBakAt E uch mr2 true reps ulD1 mpzP1 ulGap rem n ulG 0 c2 bak =
        if c2 + n < 10 then bak
        else some { gap := ulGap, p1rem := rem,
                    ulG := ulG + 2 * (10 * ((c2 + n) / 10) - c2 - 1) } := by
  intro n
  induction n with
  | zero =>
    intro ulG c2 bak hc _ _
    unfold pfgwBakAt
    rw [if_pos (by omega)]
  | succ n ih =>
    intro ulG c2 bak hc hT hrej
    have ht := hT 0 (by omega)
    have hr := hrej 0 (by omega)
    simp only [Nat.mul_zero, Nat.add_zero] at ht hr
    have hT1 : ∀ i, i < n → iTest uch ulGap (ulG + 2 + 2 * i) = true := by
      intro i hi
      have := hT (i + 1) (by omega)
      rw [show ulG + 2 * (i + 1) = ulG + 2 + 2 * i by omega] at this
      exact this
    have hrej1 : ∀ i, i < n → (E.pfgw (mpzP1 + (ulG + 2 + 2 * i)) != 1 &&
        oracleAt E mr2 reps mpzP1 ulGap (ulG + 2 + 2 * i)) = false := by
      intro i hi
      have := hrej (i + 1) (by omega)
      rw [show ulG + 2 * (i + 1) = ulG + 2 + 2 * i by omega] at this
      exact this
    unfold pfgwBakAt
    simp only [ht, if_true, hr, Bool.false_eq_true, if_false, iPrintCount_large ulD1 hD,
      Bool.true_and, Nat.mul_one]
    have hshow : decide (0 + 1 ≥ 1) = true := by decide
    simp only [hshow, if_true, Bool.true_and]
    by_cases hs : c2 + 1 ≥ 10
    · have hd : decide (c2 + 1 ≥ 10) = true := by simpa using hs
      simp only [hd, if_true]
      rw [ih (ulG + 2) 0 _ (by omega) hT1 hrej1]
      by_cases hn : n < 10
      · rw [if_pos (by omega), if_neg (by omega)]
        have : (c2 + (n + 1)) / 10 = 1 := by omega
        rw [this]
        have e : ulG + 2 * (10 * 1 - c2 - 1) = ulG := by omega
        rw [e]
      · rw [if_neg (by omega), if_neg (by omega)]
        have e : ulG + 2 + 2 * (10 * ((0 + n) / 10) - 0 - 1) =
            ulG + 2 * (10 * ((c2 + (n + 1)) / 10) - c2 - 1) := by omega
        rw [e]
    · have hd : decide (c2 + 1 ≥ 10) = false := by simpa using hs
      simp only [hd, Bool.false_eq_true, if_false]
      rw [ih (ulG + 2) (c2 + 1) bak (by omega) hT1 hrej1]
      by_cases hn : c2 + 1 + n < 10
      · rw [if_pos hn, if_pos (by omega)]
      · rw [if_neg hn, if_neg (by omega)]
        have e : ulG + 2 + 2 * (10 * ((c2 + 1 + n) / 10) - (c2 + 1) - 1) =
            ulG + 2 * (10 * ((c2 + (n + 1)) / 10) - c2 - 1) := by omega
        rw [e]

/-- With backup off the loop of `mpz_gap_pfgw` never touches the checkpoint file. -/
theorem pfgwBakAt_off (E : Ext) (uch : Nat → Nat) (mr2 : Bool)
    (reps ulD1 mpzP1 ulGap rem : Nat) :
    ∀ n ulG c1 c2 bak,
      pfgwBakAt E uch mr2 false reps ulD1 mpzP1 ulGap rem n ulG c1 c2 bak = bak := by
  intro n
  induction n with
  | zero => intro ulG c1 c2 bak; rfl
  | succ n ih =>
    intro ulG c1 c2 bak
    unfold pfgwBakAt
    simp only [Bool.and_false, Bool.false_and, Bool.false_eq_true, if_false, ih, ite_self]

/-- The verdict leaves the checkpoint and snapshot files alone. -/
theorem verdict_files (E : Ext) (C : Cfg) (mpzP1 ulGap ulG : Nat) (g : Globals) :
    (verdict E C mpzP1 ulGap ulG g).bak = g.bak ∧ (verdict E C mpzP1 ulGap ulG g).siv = g.siv := by
  unfold verdict
  split
  · split <;> exact ⟨rfl, rfl⟩
  · exact ⟨rfl, rfl⟩

/-! ## Lemmas: which line a round writes to the report -/

theorem headState_report (C : Cfg) (g : Globals) : (headState C g).report = g.report := by
  unfold headState; split <;> rfl

/-- A round that does not reach `candidate` writes nothing to the report, or the
parse-error line. -/
theorem step_report (E : Ext) (C : Cfg) (fuel : Nat) (r : Rec) (g : Globals) (ctl : Ctl)
    (g1 : Globals) (h : step E C fuel r g = some (ctl, g1)) :
    g1.report = g.report ∨ g1.report = Msg.parseError r.ulGap :: g.report ∨
      ∃ ulD1 z, Reaches E C r ulD1 z ∧
        candidate E C fuel r ulD1 (mr2Of C ulD1) z.toNat (backupState C r ulD1 g)
          = some (ctl, g1) := by
  have hh := headState_report C g
  unfold step at h
  by_cases h1 : r.iStat = 0
  · rw [if_pos h1] at h; cases h; exact Or.inl hh
  rw [if_neg h1] at h
  by_cases h2 : r.iG ≤ 0
  · rw [if_pos h2] at h; cases h; exact Or.inl hh
  rw [if_neg h2] at h
  by_cases h3 : r.iG % 2 = 1 ∧ r.iG ≠ 1
  · rw [if_pos h3] at h; cases h; exact Or.inl hh
  rw [if_neg h3] at h
  by_cases h4 : (r.ulGap : Int) ≠ r.iG ∨ r.ulGap > 999999999
  · rw [if_pos h4] at h; cases h; exact Or.inl hh
  rw [if_neg h4] at h
  cases h6 : field E r with
  | skip => rw [h6] at h; cases h; exact Or.inl hh
  | parseError =>
    rw [h6] at h; cases h
    exact Or.inr (Or.inl (by show Msg.parseError r.ulGap :: (headState C g).report = _; rw [hh]))
  | digits ulD1 =>
    obtain ⟨-, -, -, b4, -⟩ := backupState_fields C r ulD1 g
    rw [h6] at h
    simp only at h
    by_cases h7 : r.ulGap < C.ulMinGap
    · rw [if_pos h7] at h; cases h; exact Or.inl hh
    rw [if_neg h7] at h
    by_cases h8 : r.ulGap > C.ulMaxGap
    · rw [if_pos h8] at h; cases h; exact Or.inl hh
    rw [if_neg h8] at h
    by_cases h9 : hasEllipsis r.szP1.toList = true
    · rw [if_pos h9] at h; cases h; exact Or.inl b4
    rw [if_neg h9] at h
    by_cases h10 : ulD1 < C.ulMinDigits ∨ ulD1 > C.ulMaxDigits
    · rw [if_pos h10] at h; cases h; exact Or.inl b4
    rw [if_neg h10] at h
    cases h12 : E.parseP1 r.szP1 with
    | none =>
      rw [h12] at h; cases h
      exact Or.inr (Or.inl (by
        show Msg.parseError r.ulGap :: (backupState C r ulD1 g).report = _; rw [b4]))
    | some z =>
      rw [h12] at h
      simp only at h
      by_cases h13 : z < 2
      · rw [if_pos h13] at h; cases h; exact Or.inl b4
      rw [if_neg h13] at h
      refine Or.inr (Or.inr ⟨ulD1, z, ⟨h1, by omega, ?_, ?_, ?_, h6, by omega, by omega, ?_, ?_,
        ?_, h12, by omega⟩, h⟩)
      · intro hh; by_contra hc; exact h3 ⟨hh, hc⟩
      · by_contra hc; exact h4 (Or.inl hc)
      · by_contra hc; exact h4 (Or.inr (by omega))
      · simpa using h9
      · by_contra hc; exact h10 (Or.inl (by omega))
      · by_contra hc; exact h10 (Or.inr (by omega))

/-- The line a round writes from `INTERIOR` on. -/
theorem interior_msg (E : Ext) (C : Cfg) (fuel ulD1 : Nat) (mr2 : Bool) (mpzP1 ulGap : Nat)
    (g : Globals) (ctl : Ctl) (g1 : Globals)
    (h : interior E C fuel ulD1 mr2 mpzP1 ulGap g = some (ctl, g1)) :
    ∃ x, g1.report =
      (if x = ulGap then Msg.ok ulGap
       else if x < ulGap then Msg.intermediate ulGap x
       else Msg.p2Composite ulGap (diagnose E (mpzP1 + ulGap)) x) :: g.report := by
  unfold interior at h
  cases hs : search E C fuel ulD1 mr2 mpzP1 ulGap g with
  | none => rw [hs] at h; cases h
  | some p =>
    obtain ⟨x, gs⟩ := p
    rw [hs] at h
    simp only [Option.some.injEq, Prod.mk.injEq] at h
    obtain ⟨-, -, f3, -, -⟩ := search_fields E C fuel ulD1 mr2 mpzP1 ulGap g x gs hs
    refine ⟨x, ?_⟩
    rw [← h.2, ← f3]
    by_cases hx : x = ulGap
    · subst hx
      rw [if_pos rfl]
      exact (verdict_eq E C mpzP1 x gs).2.2
    · rw [if_neg hx]
      exact (verdict_ne E C mpzP1 ulGap x gs hx).2.2

/-- A line of `interior` is never the `P1 composite` line. -/
theorem interior_not_p1 (E : Ext) (C : Cfg) (fuel ulD1 : Nat) (mr2 : Bool)
    (mpzP1 ulGap : Nat) (g : Globals) (ctl : Ctl) (g1 : Globals) (gp : Nat) (w : Wit)
    (l : List Msg) (hl : g.report = l)
    (h : interior E C fuel ulD1 mr2 mpzP1 ulGap g = some (ctl, g1))
    (hm : g1.report = Msg.p1Composite gp w :: l) : False := by
  obtain ⟨x, hx⟩ := interior_msg E C fuel ulD1 mr2 mpzP1 ulGap g ctl g1 h
  rw [hm, hl] at hx
  have := (List.cons.inj hx).1
  split at this
  · cases this
  · split at this
    · cases this
    · cases this

/-- The `P1 composite` line written from `CHECK_P1` on carries the diagnosis of `P1`. -/
theorem checkP1_p1msg (E : Ext) (C : Cfg) (fuel ulD1 : Nat) (mr2 : Bool) (mpzP1 ulGap : Nat)
    (g : Globals) (ctl : Ctl) (g1 : Globals) (gp : Nat) (w : Wit) (l : List Msg)
    (hl : g.report = l)
    (h : checkP1 E C fuel ulD1 mr2 mpzP1 ulGap g = some (ctl, g1))
    (hm : g1.report = Msg.p1Composite gp w :: l) : w = diagnose E mpzP1 := by
  unfold checkP1 at h
  split at h
  · exact (interior_not_p1 E C fuel ulD1 mr2 mpzP1 ulGap g ctl g1 gp w l hl h hm).elim
  · split at h
    · cases h
      have : Msg.p1Composite ulGap (diagnose E mpzP1) :: g.report =
          Msg.p1Composite gp w :: l := hm
      have := (List.cons.inj this).1
      cases this
      rfl
    · split at h
      · split at h
        · cases h
          have : Msg.p2CompositeEpo ulGap (diagnose E (mpzP1 + ulGap)) :: g.report =
              Msg.p1Composite gp w :: l := hm
          have := (List.cons.inj this).1
          cases this
        · cases h
          have : Msg.okEpo ulGap :: g.report = Msg.p1Composite gp w :: l := hm
          have := (List.cons.inj this).1
          cases this
      · exact (interior_not_p1 E C fuel ulD1 mr2 mpzP1 ulGap (logTest C mr2 mpzP1 g) ctl g1
          gp w l hl h hm).elim

/-- Where a `P1 composite` line that names a factor comes from: the branch for gap 1, the
branch for an even `P1`, or the trial division after a failed test of `P1`. -/
theorem candidate_p1msg (E : Ext) (C : Cfg) (fuel : Nat) (r : Rec) (ulD1 : Nat) (mr2 : Bool)
    (mpzP1 : Nat) (g : Globals) (ctl : Ctl) (g1 : Globals) (gp f : Nat)
    (h : candidate E C fuel r ulD1 mr2 mpzP1 g = some (ctl, g1))
    (hm : g1.report = Msg.p1Composite gp (Wit.factor f) :: g.report) :
    (r.ulGap = 1 ∧ mpzP1 ≠ 2 ∧ f = 2) ∨ (r.ulGap ≠ 1 ∧ mpzP1 % 2 = 0 ∧ f = 2) ∨
      (mpzP1 % 2 = 1 ∧ f = E.ulPrmDiv mpzP1 1000000 ∧ 1 < f) := by
  have hdiag : Wit.factor f = diagnose E mpzP1 → f = E.ulPrmDiv mpzP1 1000000 ∧ 1 < f := by
    intro hw
    unfold diagnose at hw
    split at hw
    · rename_i hgt
      cases hw
      exact ⟨rfl, hgt⟩
    · split at hw <;> cases hw
  unfold candidate at h
  by_cases c1 : r.ulGap = 1 ∧ mpzP1 ≠ 2
  · rw [if_pos c1] at h; cases h
    have : Msg.p1Composite r.ulGap (Wit.factor 2) :: g.report =
        Msg.p1Composite gp (Wit.factor f) :: g.report := hm
    have := (List.cons.inj this).1
    cases this
    exact Or.inl ⟨c1.1, c1.2, rfl⟩
  rw [if_neg c1] at h
  by_cases c2 : r.ulGap = 1
  · rw [if_pos c2] at h; cases h
    have : Msg.okCertfd :: g.report = Msg.p1Composite gp (Wit.factor f) :: g.report := hm
    have := (List.cons.inj this).1
    cases this
  rw [if_neg c2] at h
  by_cases c3 : r.ulGap % 2 = 1
  · rw [if_pos c3] at h; cases h
    have : Msg.oddGap r.ulGap :: g.report = Msg.p1Composite gp (Wit.factor f) :: g.report := hm
    have := (List.cons.inj this).1
    cases this
  rw [if_neg c3] at h
  by_cases c4 : mpzP1 % 2 = 0
  · rw [if_pos c4] at h; cases h
    have : Msg.p1Composite r.ulGap (Wit.factor 2) :: g.report =
        Msg.p1Composite gp (Wit.factor f) :: g.report := hm
    have := (List.cons.inj this).1
    cases this
    exact Or.inr (Or.inl ⟨c2, c4, rfl⟩)
  rw [if_neg c4] at h
  have hodd : mpzP1 % 2 = 1 := by omega
  by_cases c5 : decLen mpzP1 ≠ ulD1
  · rw [if_pos c5] at h; cases h
    have : g.report = Msg.p1Composite gp (Wit.factor f) :: g.report := hm
    exact absurd this.symm (List.cons_ne_self _ _)
  rw [if_neg c5] at h
  by_cases c6 : C.iNoCheck = true
  · rw [if_pos c6] at h; cases h
    have : g.report = Msg.p1Composite gp (Wit.factor f) :: g.report := hm
    exact absurd this.symm (List.cons_ne_self _ _)
  rw [if_neg c6] at h
  by_cases c7 : C.iEPO = true
  · rw [if_pos c7] at h
    have := checkP1_p1msg E C fuel ulD1 mr2 mpzP1 r.ulGap { g with iBackup := false } ctl g1
      gp (Wit.factor f) g.report rfl h hm
    exact Or.inr (Or.inr ⟨hodd, hdiag this⟩)
  rw [if_neg c7] at h
  by_cases c8 : (C.iInterior && !g.iBackup) = true
  · rw [if_pos c8] at h
    exact (interior_not_p1 E C fuel ulD1 mr2 mpzP1 r.ulGap g ctl g1 gp _ g.report rfl h hm).elim
  rw [if_neg c8] at h
  cases hb : g.bak r.ulGap with
  | none =>
    rw [hb] at h
    have := checkP1_p1msg E C fuel ulD1 mr2 mpzP1 r.ulGap g ctl g1 gp (Wit.factor f)
      g.report rfl h hm
    exact Or.inr (Or.inr ⟨hodd, hdiag this⟩)
  | some b =>
    rw [hb] at h
    simp only at h
    by_cases c9 : b.gap ≠ r.ulGap
    · rw [if_pos c9] at h
      have := checkP1_p1msg E C fuel ulD1 mr2 mpzP1 r.ulGap g ctl g1 gp (Wit.factor f)
        g.report rfl h hm
      exact Or.inr (Or.inr ⟨hodd, hdiag this⟩)
    rw [if_neg c9] at h
    by_cases c10 : b.p1rem ≠ mpzP1 % 2 ^ 64
    · rw [if_pos c10] at h
      have := checkP1_p1msg E C fuel ulD1 mr2 mpzP1 r.ulGap g ctl g1 gp (Wit.factor f)
        g.report rfl h hm
      exact Or.inr (Or.inr ⟨hodd, hdiag this⟩)
    rw [if_neg c10] at h
    exact (interior_not_p1 E C fuel ulD1 mr2 mpzP1 r.ulGap { g with ulGBack := b.ulG } ctl g1
      gp _ g.report rfl h hm).elim

/-- The reference trial division finds the least divisor from `d` on. -/
theorem leastDivAux_spec (n : Nat) :
    ∀ fuel d, 2 ≤ d → (∀ q, 2 ≤ q → q < d → ¬ q ∣ n) →
      leastDivAux n fuel d = n ∨
        (leastDivAux n fuel d ∣ n ∧ 2 ≤ leastDivAux n fuel d ∧
          ∀ q, 2 ≤ q → q < leastDivAux n fuel d → ¬ q ∣ n) := by
  intro fuel
  induction fuel with
  | zero => intro d _ _; exact Or.inl rfl
  | succ k ih =>
    intro d hd hq
    unfold leastDivAux
    by_cases h0 : n % d = 0
    · rw [if_pos h0]
      exact Or.inr ⟨Nat.dvd_of_mod_eq_zero h0, hd, hq⟩
    · rw [if_neg h0]
      refine ih (d + 1) (by omega) (fun q q2 ql hdvd => ?_)
      by_cases hqd : q = d
      · subst hqd
        exact h0 (Nat.mod_eq_zero_of_dvd hdvd)
      · exact hq q q2 (by omega) hdvd

/-- The reference trial division returns 1 or a prime proper divisor. -/
theorem prmDiv_exactExt (n b : Nat) :
    exactExt.ulPrmDiv n b ≤ 1 ∨
      (Nat.Prime (exactExt.ulPrmDiv n b) ∧ exactExt.ulPrmDiv n b ∣ n ∧
        exactExt.ulPrmDiv n b < n) := by
  show (if leastDivAux n n 2 < n ∧ leastDivAux n n 2 ≤ b then leastDivAux n n 2 else 1) ≤ 1 ∨
    (Nat.Prime (if leastDivAux n n 2 < n ∧ leastDivAux n n 2 ≤ b then leastDivAux n n 2 else 1)
      ∧ (if leastDivAux n n 2 < n ∧ leastDivAux n n 2 ≤ b then leastDivAux n n 2 else 1) ∣ n ∧
      (if leastDivAux n n 2 < n ∧ leastDivAux n n 2 ≤ b then leastDivAux n n 2 else 1) < n)
  by_cases hc : leastDivAux n n 2 < n ∧ leastDivAux n n 2 ≤ b
  · rw [if_pos hc]
    rcases leastDivAux_spec n n 2 (le_refl _) (fun q q2 ql => by omega) with h | ⟨h1, h2, h3⟩
    · omega
    · refine Or.inr ⟨?_, h1, hc.1⟩
      rw [Nat.prime_def_lt']
      exact ⟨h2, fun m m2 ml hm => h3 m m2 ml (Nat.dvd_trans hm h1)⟩
  · rw [if_neg hc]
    exact Or.inl (le_refl _)

/-! ## Lemmas: what the interior depends on -/

theorem sieveDivs_congr (E E1 : Ext) (h1 : E1.ulPrime16 = E.ulPrime16)
    (h2 : E1.iIsPrime32 = E.iIsPrime32) (ulD1 mpzP1 ulGap : Nat) :
    sieveDivs E1 ulD1 mpzP1 ulGap = sieveDivs E ulD1 mpzP1 ulGap := by
  unfold sieveDivs
  rw [h1, h2]

/-- The sieve reads the collaborators through the table and the 32-bit filter only. -/
theorem vSieve2_congr (E E1 : Ext) (h1 : E1.ulPrime16 = E.ulPrime16)
    (h2 : E1.iIsPrime32 = E.iIsPrime32) (cs bk : Bool) (ulD1 mpzP1 ulGap rem : Nat)
    (f : Option SivFile) (b : Buf) :
    vSieve2 E1 cs bk ulD1 mpzP1 ulGap rem f b = vSieve2 E cs bk ulD1 mpzP1 ulGap rem f b := by
  unfold vSieve2
  simp only [sieveCore_eq, sieveDivs_congr E E1 h1 h2]

theorem firstGood_congr (good good1 : Nat → Bool) :
    ∀ fuel g0, (∀ x, g0 ≤ x → good1 x = good x) →
      firstGood good1 fuel g0 = firstGood good fuel g0 := by
  intro fuel
  induction fuel with
  | zero => intro g0 _; rfl
  | succ n ih =>
    intro g0 h
    unfold firstGood
    rw [h g0 (le_refl _), ih (g0 + 2) (fun x hx => h x (by omega))]

/-- From `INTERIOR` on, a round with a resume offset of at least 1 does not consult the
oracle or the trial division on `P1` itself. -/
theorem interior_congr (E E1 : Ext) (C : Cfg) (fuel ulD1 : Nat) (mr2 : Bool)
    (mpzP1 ulGap : Nat) (g : Globals) (hag : AgreeOff E E1 mpzP1) (hp : mpzP1 ≠ 2)
    (hgap : 1 ≤ ulGap) (hgb : 1 ≤ g.ulGBack) :
    interior E1 C fuel ulD1 mr2 mpzP1 ulGap g = interior E C fuel ulD1 mr2 mpzP1 ulGap g := by
  obtain ⟨a1, a2, a3, -, a5⟩ := hag
  have hs : sieveOf E1 C ulD1 mpzP1 ulGap (mpzP1 % 2 ^ 64) g =
      sieveOf E C ulD1 mpzP1 ulGap (mpzP1 % 2 ^ 64) g := by
    unfold sieveOf
    exact vSieve2_congr E E1 a1 a2 _ _ _ _ _ _ _ _
  have ho : ∀ x, 1 ≤ x → oracleAt E1 mr2 C.ulMRReps mpzP1 ulGap x =
      oracleAt E mr2 C.ulMRReps mpzP1 ulGap x := by
    intro x hx
    unfold oracleAt
    obtain ⟨p1, p2, -⟩ := a5 (mpzP1 + ulGap) (by omega)
    obtain ⟨q1, -, -⟩ := a5 (mpzP1 + x) (by omega)
    rw [p1, p2, q1]
  have hg : ∀ x, g.ulGBack ≤ x → searchGood E1 C ulD1 mr2 mpzP1 ulGap g x =
      searchGood E C ulD1 mr2 mpzP1 ulGap g x := by
    intro x hx
    unfold searchGood goodAt goodAtP
    rw [hs, ho x (by omega), a3]
  have hd : diagnose E1 (mpzP1 + ulGap) = diagnose E (mpzP1 + ulGap) := by
    obtain ⟨-, p2, p3⟩ := a5 (mpzP1 + ulGap) (by omega)
    unfold diagnose
    rw [p2, p3]
  have hv : ∀ x gs, verdict E1 C mpzP1 ulGap x gs = verdict E C mpzP1 ulGap x gs := by
    intro x gs
    unfold verdict
    rw [hd]
  rw [interior_eq E1 C fuel ulD1 mr2 mpzP1 ulGap g hp,
    interior_eq E C fuel ulD1 mr2 mpzP1 ulGap g hp,
    firstGood_congr _ _ fuel g.ulGBack hg, hs]
  simp only [hv]

/-- In interior-only mode the loop body does not consult the oracle or the trial division
on `P1`. -/
theorem candidate_interior_congr (E E1 : Ext) (C : Cfg) (fuel : Nat) (r : Rec) (ulD1 : Nat)
    (mr2 : Bool) (mpzP1 : Nat) (g : Globals) (hag : AgreeOff E E1 mpzP1)
    (hpos : 1 ≤ r.ulGap) (hint : C.iInterior = true) (hepo : C.iEPO = false)
    (hgb : g.ulGBack = 2) (hck : ∀ b, g.bak r.ulGap = some b → 1 ≤ b.ulG) :
    candidate E1 C fuel r ulD1 mr2 mpzP1 g = candidate E C fuel r ulD1 mr2 mpzP1 g := by
  have hck1 : ∀ g0 : Globals, 1 ≤ g0.ulGBack → mpzP1 ≠ 2 →
      checkP1 E1 C fuel ulD1 mr2 mpzP1 r.ulGap g0 = checkP1 E C fuel ulD1 mr2 mpzP1 r.ulGap g0 := by
    intro g0 h0 hp
    unfold checkP1
    rw [if_pos hint, if_pos hint]
    exact interior_congr E E1 C fuel ulD1 mr2 mpzP1 r.ulGap g0 hag hp hpos h0
  unfold candidate
  by_cases c1 : r.ulGap = 1 ∧ mpzP1 ≠ 2
  · rw [if_pos c1, if_pos c1]
  rw [if_neg c1, if_neg c1]
  by_cases c2 : r.ulGap = 1
  · rw [if_pos c2, if_pos c2]
  rw [if_neg c2, if_neg c2]
  by_cases c3 : r.ulGap % 2 = 1
  · rw [if_pos c3, if_pos c3]
  rw [if_neg c3, if_neg c3]
  by_cases c4 : mpzP1 % 2 = 0
  · rw [if_pos c4, if_pos c4]
  rw [if_neg c4, if_neg c4]
  have hp : mpzP1 ≠ 2 := by omega
  by_cases c5 : decLen mpzP1 ≠ ulD1
  · rw [if_pos c5, if_pos c5]
  rw [if_neg c5, if_neg c5]
  by_cases c6 : C.iNoCheck = true
  · rw [if_pos c6, if_pos c6]
  have c7 : ¬ C.iEPO = true := by simp [hepo]
  rw [if_neg c6, if_neg c6, if_neg c7, if_neg c7]
  by_cases c8 : (C.iInterior && !g.iBackup) = true
  · rw [if_pos c8, if_pos c8]
    exact interior_congr E E1 C fuel ulD1 mr2 mpzP1 r.ulGap g hag hp hpos (by omega)
  rw [if_neg c8, if_neg c8]
  cases hb : g.bak r.ulGap with
  | none => exact hck1 g (by omega) hp
  | some b =>
    simp only
    rw [hck1 g (by omega) hp,
      interior_congr E E1 C fuel ulD1 mr2 mpzP1 r.ulGap { g with ulGBack := b.ulG } hag hp hpos
        (hck b hb)]

/-! ## Lemmas: the sieve inside the allocated blocks -/

/-- Without a file, or with the header of another candidate, no snapshot is loaded. -/
theorem loadSiv_of_miss (ulGap rem : Nat) (f : Option SivFile) (uch : Nat → Nat)
    (hf : HeaderMiss ulGap rem f) : loadSiv ulGap rem f uch = none := by
  unfold loadSiv
  cases f with
  | none => rfl
  | some s => simp only; rw [if_neg (hf s rfl)]

/-- Without a file, or with the header of another candidate, the loader stores nothing. -/
theorem dirtySiv_of_miss (ulGap rem : Nat) (f : Option SivFile) (uch : Nat → Nat)
    (hf : HeaderMiss ulGap rem f) : dirtySiv ulGap rem f uch = uch := by
  unfold dirtySiv
  cases f with
  | none => rfl
  | some s => simp only; rw [if_neg (hf s rfl)]

theorem headerMiss_none (ulGap rem : Nat) : HeaderMiss ulGap rem none := by
  intro s hs; cases hs

theorem lpdCells_le (ulMG : Nat) : lpdCells ulMG ≤ ulMG := by
  unfold lpdCells; omega

/-- A gap that has its cell in `ulLPD` keeps every store of `vSieve2` inside the two blocks:
the bytes of `uchSieve` from `ulMG` on and the cells of `ulLPD` from `lpdCells ulMG` on are
what they were before the call. -/
theorem vSieve2_frame (E : Ext) (hT : OddPrimeTable E.ulPrime16) (cs bk : Bool)
    (ulMG ulD1 mpzP1 ulGap rem : Nat) (f : Option SivFile) (b : Buf)
    (hfit : ulGap < lpdCells ulMG) (hf : HeaderMiss ulGap rem f) :
    (∀ j, ulMG ≤ j → (vSieve2 E cs bk ulD1 mpzP1 ulGap rem f b).buf.uchSieve j = b.uchSieve j) ∧
      (∀ j, lpdCells ulMG ≤ j →
        (vSieve2 E cs bk ulD1 mpzP1 ulGap rem f b).buf.ulLPD j = b.ulLPD j) := by
  have hl := loadSiv_of_miss ulGap rem f b.uchSieve hf
  have hd := dirtySiv_of_miss ulGap rem f b.uchSieve hf
  have hle := lpdCells_le ulMG
  by_cases hD : ulD1 < 3
  · rw [vSieve2_buf_small E cs bk ulD1 mpzP1 ulGap rem f b hl hD, hd]
    refine ⟨fun j hj => ?_, fun j _ => rfl⟩
    show fillTo b.uchSieve ulGap 1 j = b.uchSieve j
    unfold fillTo
    rw [if_neg (by omega)]
  · rw [vSieve2_buf E cs bk ulD1 mpzP1 ulGap rem f b hl (by omega), hd]
    refine ⟨fun j hj => ?_, fun j hj => ?_⟩
    · rw [passes_uch mpzP1 ulGap _ _ (sieveDivs_odd E hT ulD1 mpzP1 ulGap) j,
        if_neg (fun h => by omega)]
      show fillTo b.uchSieve ulGap 1 j = b.uchSieve j
      unfold fillTo
      rw [if_neg (by omega)]
    · rw [passes_lpd mpzP1 ulGap _ _ (sieveDivs_odd E hT ulD1 mpzP1 ulGap) j,
        if_neg (fun h => by omega)]
      show initLPD b.ulLPD ulGap j = b.ulLPD j
      unfold initLPD
      split
      · rw [if_neg (by omega)]
      · rw [if_neg (by omega)]

/-- The line the free-form record `4  7` leaves in the side file: the trim in place has moved
the prime field up against the gap. -/
theorem sideLine_free_example : sideLine (freeRec 4 "7") = "47" := by decide

/-- The line a fixed-column record leaves in the side file is the record as read. -/
theorem sideLine_col_example :
    sideLine (colRec 4 1 "7") = "     4                                1 7" := by decide

theorem verdict_bufs (E : Ext) (C : Cfg) (mpzP1 ulGap ulG : Nat) (g : Globals) :
    (verdict E C mpzP1 ulGap ulG g).uchSieve = g.uchSieve ∧
      (verdict E C mpzP1 ulGap ulG g).ulLPD = g.ulLPD := by
  unfold verdict
  split
  · split <;> exact ⟨rfl, rfl⟩
  · exact ⟨rfl, rfl⟩

/-- The call of `vSieve2` made by a search, without a snapshot file for the gap and with the
gap's cell in `ulLPD`, stores nothing outside the two blocks. -/
theorem sieveOf_frame (E : Ext) (hT : OddPrimeTable E.ulPrime16) (C : Cfg)
    (ulD1 mpzP1 ulGap rem : Nat) (g : Globals) (hsiv : g.siv ulGap = none)
    (hfit : ulGap < lpdCells C.ulMG) :
    (∀ j, C.ulMG ≤ j → (sieveOf E C ulD1 mpzP1 ulGap rem g).buf.uchSieve j = g.uchSieve j) ∧
      (∀ j, lpdCells C.ulMG ≤ j →
        (sieveOf E C ulD1 mpzP1 ulGap rem g).buf.ulLPD j = g.ulLPD j) := by
  unfold sieveOf
  rw [hsiv]
  exact vSieve2_frame E hT C.iCheckSieve g.iBackup C.ulMG ulD1 mpzP1 ulGap rem none
    { uchSieve := g.uchSieve, ulLPD := g.ulLPD } hfit (headerMiss_none ulGap rem)

/-- The state after a search and its verdict, from a state without a snapshot file for the
gap: the bytes of `uchSieve` from `ulMG` on and the cells of `ulLPD` from `lpdCells ulMG` on
are those of the state before the record. -/
theorem searched_frame (E : Ext) (hT : OddPrimeTable E.ulPrime16) (C : Cfg) (r : Rec)
    (d : Nat) (mr2 hlp : Bool) (p ulG : Nat) (g : Globals) (hsiv : g.siv r.ulGap = none)
    (hfit : r.ulGap < lpdCells C.ulMG) :
    (∀ j, C.ulMG ≤ j →
      (verdict E C p r.ulGap ulG (afterSearch C hlp p r.ulGap
        (sieveOf E C d p r.ulGap (p % 2 ^ 64) (logTest C mr2 p (backupState C r d g)))
        (logTest C mr2 p (backupState C r d g)))).uchSieve j = g.uchSieve j) ∧
    (∀ j, lpdCells C.ulMG ≤ j →
      (verdict E C p r.ulGap ulG (afterSearch C hlp p r.ulGap
        (sieveOf E C d p r.ulGap (p % 2 ^ 64) (logTest C mr2 p (backupState C r d g)))
        (logTest C mr2 p (backupState C r d g)))).ulLPD j = g.ulLPD j) := by
  obtain ⟨-, -, -, -, b5, b6, -, b8, -⟩ := backupState_fields C r d g
  have hs : (logTest C mr2 p (backupState C r d g)).siv r.ulGap = none := by
    show (backupState C r d g).siv r.ulGap = none
    rw [b8]; exact hsiv
  have hfr := sieveOf_frame E hT C d p r.ulGap (p % 2 ^ 64)
    (logTest C mr2 p (backupState C r d g)) hs hfit
  have hu : (logTest C mr2 p (backupState C r d g)).uchSieve = g.uchSieve := b5
  have hl : (logTest C mr2 p (backupState C r d g)).ulLPD = g.ulLPD := b6
  rw [hu] at hfr
  rw [hl] at hfr
  obtain ⟨v1, v2⟩ := verdict_bufs E C p r.ulGap ulG (afterSearch C hlp p r.ulGap
        (sieveOf E C d p r.ulGap (p % 2 ^ 64) (logTest C mr2 p (backupState C r d g)))
        (logTest C mr2 p (backupState C r d g)))
  rw [v1, v2]
  exact hfr

/-- The state a confirmed record leaves (the situation of `step_confirms`): the verdict on the
state after the search. -/
theorem step_confirms_state (E : Ext) (C : Cfg) (r : Rec) (g : Globals) (ulD1 : Nat) (z : Int)
    (hprp : PrpExact E) (hmr : MrExact E) (hT : OddPrimeTable E.ulPrime16)
    (hh : C.iPFGW = true → HelperSound E)
    (hR : Reaches E C r ulD1 z) (hD : decLen z.toNat = ulD1) (hgap : r.ulGap % 2 = 0)
    (hepo : C.iEPO = false) (hint : C.iInterior = false) (hnc : C.iNoCheck = false)
    (hbak : g.bak r.ulGap = none) (hsiv : g.siv r.ulGap = none) (hgb : g.ulGBack = 2)
    (hP1 : Nat.Prime z.toNat) (hP2 : Nat.Prime (z.toNat + r.ulGap))
    (hnone : ∀ n, z.toNat < n → n < z.toNat + r.ulGap → ¬ Nat.Prime n)
    (fuel : Nat) (hfuel : (r.ulGap - 2) / 2 < fuel) :
    step E C fuel r g = some (Ctl.next, verdict E C z.toNat r.ulGap r.ulGap
      (afterSearch C (helperUsed C ulD1) z.toNat r.ulGap
        (sieveOf E C ulD1 z.toNat r.ulGap (z.toNat % 2 ^ 64)
          (logTest C (mr2Of C ulD1) z.toNat (backupState C r ulD1 g)))
        (logTest C (mr2Of C ulD1) z.toNat (backupState C r ulD1 g)))) := by
  have hgb9 : r.ulGap ≤ 999999999 := hR.2.2.2.2.1
  have hg0 : 0 < r.ulGap := by
    have h1 := hR.2.1
    have h2 := hR.2.2.2.1
    omega
  have hz2 : 2 ≤ z := hR.2.2.2.2.2.2.2.2.2.2.2.2
  have hp3 : 3 ≤ z.toNat := by
    by_contra hc
    have h2 : z.toNat = 2 := by omega
    rw [h2] at hP2
    rcases hP2.eq_two_or_odd with h | h <;> omega
  have hpodd : z.toNat % 2 = 1 := by
    rcases hP1.eq_two_or_odd with h | h <;> omega
  subst hD
  obtain ⟨b1, -, -, -, -, -, b7, -⟩ := backupState_fields C r (decLen z.toNat) g
  have hstep := step_of_reaches E C fuel r g (decLen z.toNat) z hR
  rw [candidate_full E C fuel r (decLen z.toNat) (mr2Of C (decLen z.toNat)) z.toNat _ hgap
    hpodd hnc hepo hint (by rw [b7]; exact hbak), if_neg (by simp),
    if_neg (by
      have := (endTest_prime E hprp hmr C (mr2Of C (decLen z.toNat)) z.toNat).mpr hP1
      simp [this]),
    interior_eq E C fuel _ _ _ _ _ (by omega)] at hstep
  obtain ⟨e1, e2, e3, e4, e5⟩ := entry_fields C r (decLen z.toNat)
    (mr2Of C (decLen z.toNat)) z.toNat g
  have hf := search_finds E hprp hmr hT C (mr2Of C (decLen z.toNat)) z.toNat r.ulGap
    (logTest C (mr2Of C (decLen z.toNat)) z.toNat (backupState C r (decLen z.toNat) g))
    (fun h => hh (by
      unfold helperUsed at h
      simp only [Bool.and_eq_true] at h
      exact h.1))
    (by rw [e4]; exact hsiv) hp3 hgb9 hgap hg0 hP2 hnone fuel hfuel
  rw [e5, hgb, hf] at hstep
  exact hstep


/-! ## The claims -/

/-- C3 (what the code does at the failing input): for the record `5254  101` the first prime
after 101 is `103 = 101 + 2`, but the sieve (ceiling 103) switches off the index of 103, the
search passes it without a test and stops at offset 6 (the prime 107); the error line
written is `Intermediate prime at P1 + 6`. -/
theorem C3_observed_gap_wrong :
    Nat.Prime 101 ∧ Nat.Prime (101 + 2) ∧ (∀ n, 101 < n → n < 101 + 2 → ¬ Nat.Prime n) ∧
      ∃ g1, step exactExt cfg0 3 (freeRec 5254 "101") init = some (Ctl.next, g1) ∧
        g1.ulOK = 0 ∧ g1.ulErrors = 1 ∧ g1.report = [Msg.intermediate 5254 6] ∧
        (search exactExt cfg0 3 3 (mr2Of cfg0 3) 101 5254
          (logTest cfg0 (mr2Of cfg0 3) 101
            (backupState cfg0 (freeRec 5254 "101") 3 init))).map Prod.fst = some 6 := by
  refine ⟨by norm_num, by norm_num, fun n h1 h2 => ?_, ?_⟩
  · interval_cases n; decide
  have hstep := step_of_reaches exactExt cfg0 3 (freeRec 5254 "101") init 3 101 (by decide)
  rw [candidate_full exactExt cfg0 3 (freeRec 5254 "101") 3 (mr2Of cfg0 3) (101 : Int).toNat _
    (by decide) (by decide) rfl rfl rfl rfl, if_neg (by decide), if_neg (by decide),
    interior_eq exactExt cfg0 3 _ _ _ _ _ (by decide)] at hstep
  have hsearch := search_eq exactExt cfg0 3 3 (mr2Of cfg0 3) 101 5254
    (logTest cfg0 (mr2Of cfg0 3) 101 (backupState cfg0 (freeRec 5254 "101") 3 init))
    (by decide)
  have hiff := fun i (hi : 2 + 2 * i < 2 * 5254) =>
    searchGood_iff exactExt prpExact_exactExt mrExact_exactExt cfg0 3
      (fun _ => helperSound_exactExt) (mr2Of cfg0 3) 101 5254
      (logTest cfg0 (mr2Of cfg0 3) 101 (backupState cfg0 (freeRec 5254 "101") 3 init)) i hi
      (by decide) (by decide)
  have hsiv : (logTest cfg0 (mr2Of cfg0 3) 101
      (backupState cfg0 (freeRec 5254 "101") 3 init)).siv 5254 = none := rfl
  have hM : ulMaxDiv 3 101 5254 = 103 := by decide
  have hf : firstGood (searchGood exactExt cfg0 3 (mr2Of cfg0 3) 101 5254
      (logTest cfg0 (mr2Of cfg0 3) 101 (backupState cfg0 (freeRec 5254 "101") 3 init))) 3 2
      = some (2 + 2 * 2) := by
    apply firstGood_of _ 3 2 2 (by decide)
    · rw [hiff 2 (by decide)]
      refine ⟨?_, by norm_num⟩
      rw [sieveOf_survivor exactExt oddPrimeTable_primeTable cfg0 3 101 5254 _ _ hsiv 2
        (by decide) (by norm_num) (by rw [hM]; decide)]
      decide
    · intro i hi
      by_contra hc
      have hc' := (hiff i (by omega)).mp (by simpa using hc)
      interval_cases i
      · apply hc'.1
        rw [sieveOf_uch exactExt oddPrimeTable_primeTable cfg0 3 101 5254 _ _ hsiv (le_refl _)
          0 (by decide)]
        have hm : (103 : Nat) ∈ sieveDivs exactExt 3 101 5254 := by decide
        rw [if_pos ⟨103, hm, by decide⟩]
      · exact absurd hc'.2 (by norm_num)
  have e5 : (logTest cfg0 (mr2Of cfg0 3) 101
      (backupState cfg0 (freeRec 5254 "101") 3 init)).ulGBack = 2 := rfl
  have e0 : ((101 : Int).toNat) = 101 := rfl
  have eg : (freeRec 5254 "101").ulGap = 5254 := rfl
  rw [e0, eg, e5, hf] at hstep
  rw [e5, hf] at hsearch
  rw [hstep, hsearch]
  obtain ⟨v1, v2, v3⟩ := verdict_ne exactExt cfg0 101 5254 (2 + 2 * 2)
    (afterSearch cfg0 (helperUsed cfg0 3) 101 5254
      (sieveOf exactExt cfg0 3 101 5254 (101 % 2 ^ 64)
        (logTest cfg0 (mr2Of cfg0 3) 101 (backupState cfg0 (freeRec 5254 "101") 3 init)))
      (logTest cfg0 (mr2Of cfg0 3) 101 (backupState cfg0 (freeRec 5254 "101") 3 init)))
    (by decide)
  refine ⟨_, rfl, ?_, ?_, ?_, rfl⟩
  · rw [v1]; rfl
  · rw [v2]; rfl
  · rw [v3, if_pos (by decide)]; rfl

/-- C4: a record with gap 1 that passes the filters is counted as confirmed exactly when
`P1 = 2`; otherwise it is counted as an error with the composite-`P1` line written to the
report; in both cases the call log and both sieve buffers are left as they were (no sieve,
no search, no primality test). -/
theorem C4_gap_one (E : Ext) (C : Cfg) (fuel : Nat) (r : Rec) (g : Globals) (ulD1 : Nat)
    (z : Int) (hR : Reaches E C r ulD1 z) (h1 : r.ulGap = 1) :
    ∃ g1, step E C fuel r g = some (Ctl.next, g1) ∧
      g1.log = g.log ∧ g1.uchSieve = g.uchSieve ∧ g1.ulLPD = g.ulLPD ∧
      (g1.ulOK = g.ulOK + 1 ↔ z = 2) ∧
      (z = 2 → g1.ulErrors = g.ulErrors ∧ g1.report = Msg.okCertfd :: g.report) ∧
      (z ≠ 2 → g1.ulOK = g.ulOK ∧ g1.ulErrors = g.ulErrors + 1 ∧
        g1.report = Msg.p1Composite 1 (Wit.factor 2) :: g.report) := by
  have hz : 2 ≤ z := hR.2.2.2.2.2.2.2.2.2.2.2.2
  obtain ⟨b1, b2, b3, b4, b5, b6, -⟩ := backupState_fields C r ulD1 g
  rw [step_of_reaches E C fuel r g ulD1 z hR]
  unfold candidate
  by_cases h2 : z = 2
  · subst h2
    rw [if_neg (by simp), if_pos h1]
    refine ⟨_, rfl, ?_, ?_, ?_, ?_, ?_, ?_⟩ <;> simp [countOK, b1, b2, b3, b4, b5, b6]
  · have h3 : z.toNat ≠ 2 := by omega
    rw [if_pos ⟨h1, h3⟩]
    refine ⟨_, rfl, ?_, ?_, ?_, ?_, ?_, ?_⟩ <;>
      simp [countError, b1, b2, b3, b4, b5, b6, h2, h1]

/-- Witness of C4: the record `1  2` is counted as confirmed. -/
theorem C4_gap_one_witness :
    ∃ g1, step exactExt cfg0 0 (freeRec 1 "2") init = some (Ctl.next, g1) ∧
      g1.log = init.log ∧ g1.uchSieve = init.uchSieve ∧ g1.ulLPD = init.ulLPD ∧
      (g1.ulOK = init.ulOK + 1 ↔ (2 : Int) = 2) ∧
      ((2 : Int) = 2 → g1.ulErrors = init.ulErrors ∧ g1.report = Msg.okCertfd :: init.report) ∧
      ((2 : Int) ≠ 2 → g1.ulOK = init.ulOK ∧ g1.ulErrors = init.ulErrors + 1 ∧
        g1.report = Msg.p1Composite 1 (Wit.factor 2) :: init.report) :=
  C4_gap_one exactExt cfg0 0 (freeRec 1 "2") init 1 2 (by decide) (by decide)

/-- C5 (what the code does at the failing input): for `P1 = 101` (three digits) and gap 5254
the ceiling is `ceil(sqrt(10609)) = 103`, the table divisor 103 is applied, and index 0, which
stands for the prime `101 + 2*0 + 2 = 103`, is marked eliminated. -/
theorem C5_sieve_strikes_prime :
    ulMaxDiv 3 101 5254 = 103 ∧
      (vSieve2 exactExt false false 3 101 5254 101 none
        { uchSieve := init.uchSieve, ulLPD := init.ulLPD }).buf.uchSieve 0 = 0 ∧
      Nat.Prime (101 + 2 * 0 + 2) := by
  refine ⟨by decide, ?_, by norm_num⟩
  rw [vSieve2_uch exactExt oddPrimeTable_primeTable false false 3 101 5254 101 none _ rfl
    (le_refl _) 0 (by decide)]
  have hm : (103 : Nat) ∈ sieveDivs exactExt 3 101 5254 := by decide
  rw [if_pos ⟨103, hm, by decide⟩]

/-- C8 as stated fails: the fixed-column record with gap 1, prime field `2` and stated digit
count 3 (actual length 1) is counted as confirmed. -/
theorem C8_counterexample :
    decLen 2 ≠ 3 ∧
      (step exactExt cfg0 0 (colRec 1 3 "2") init).map (fun p => (p.2.ulOK, p.2.log))
        = some (1, []) := by
  decide

/-- C8 (amended): a record whose stated digit count differs from the decimal length of the
parsed prime has no test applied to it (the call log is unchanged), and it is not counted as
confirmed unless it is the record with gap 1 and `P1 = 2`, which is confirmed before the
digit counts are compared. -/
theorem C8_digit_mismatch (E : Ext) (C : Cfg) (fuel : Nat) (r : Rec) (g : Globals) (ulD1 : Nat)
    (z : Int) (hf : field E r = Field.digits ulD1) (hp : E.parseP1 r.szP1 = some z)
    (hne : decLen z.toNat ≠ ulD1) :
    ∃ ctl g1, step E C fuel r g = some (ctl, g1) ∧ g1.log = g.log ∧
      (g1.ulOK = g.ulOK ∨ (r.ulGap = 1 ∧ z = 2 ∧ g1.ulOK = g.ulOK + 1)) := by
  rcases step_dichotomy E C fuel r g with ⟨ctl, g1, hs, hu, -⟩ | ⟨d, z1, hR, hs⟩
  · exact ⟨ctl, g1, hs, hu.2.2.2.1, Or.inl hu.1⟩
  · have hd : d = ulD1 := by
      have := hR.2.2.2.2.2.1; rw [hf] at this; cases this; rfl
    have hz1 : z1 = z := by
      have := hR.2.2.2.2.2.2.2.2.2.2.2.1; rw [hp] at this; cases this; rfl
    subst hd; subst hz1
    have hz : 2 ≤ z1 := hR.2.2.2.2.2.2.2.2.2.2.2.2
    obtain ⟨b1, b2, b3, -⟩ := backupState_fields C r d g
    rw [hs]
    unfold candidate
    by_cases c1 : r.ulGap = 1 ∧ z1.toNat ≠ 2
    · rw [if_pos c1]; exact ⟨_, _, rfl, by simp [countError, b3], Or.inl (by simp [countError, b1])⟩
    rw [if_neg c1]
    by_cases c2 : r.ulGap = 1
    · rw [if_pos c2]
      have : z1 = 2 := by
        by_contra hc; exact c1 ⟨c2, by omega⟩
      exact ⟨_, _, rfl, by simp [countOK, b3], Or.inr ⟨c2, this, by simp [countOK, b1]⟩⟩
    rw [if_neg c2]
    by_cases c3 : r.ulGap % 2 = 1
    · rw [if_pos c3]; exact ⟨_, _, rfl, by simp [countError, b3], Or.inl (by simp [countError, b1])⟩
    rw [if_neg c3]
    by_cases c4 : z1.toNat % 2 = 0
    · rw [if_pos c4]; exact ⟨_, _, rfl, by simp [countError, b3], Or.inl (by simp [countError, b1])⟩
    rw [if_neg c4, if_pos hne]
    exact ⟨_, _, rfl, by simp [countError, b3], Or.inl (by simp [countError, b1])⟩

/-- Witness of C8: the record with gap 4, prime field `103` and stated digit count 5. -/
theorem C8_digit_mismatch_witness :
    ∃ ctl g1, step exactExt cfg0 0 (colRec 4 5 "103") init = some (ctl, g1) ∧
      g1.log = init.log ∧
      (g1.ulOK = init.ulOK ∨ ((colRec 4 5 "103").ulGap = 1 ∧ (103 : Int) = 2 ∧
        g1.ulOK = init.ulOK + 1)) :=
  C8_digit_mismatch exactExt cfg0 0 (colRec 4 5 "103") init 5 103 (by decide) (by decide)
    (by decide)

/-- C9 (what the code does): a record whose gap is odd and different from 1 is skipped by
the gap check at the head of the loop body; nothing is tested or confirmed, and the error
counter and the report are left unchanged, so the record is not counted as an error. -/
theorem C9_odd_gap_not_counted (E : Ext) (C : Cfg) (fuel : Nat) (r : Rec) (g : Globals)
    (hodd : r.ulGap % 2 = 1) (hne : r.ulGap ≠ 1) :
    ∃ ctl g1, step E C fuel r g = some (ctl, g1) ∧ g1.ulErrors = g.ulErrors ∧
      g1.ulOK = g.ulOK ∧ g1.log = g.log := by
  rcases step_dichotomy E C fuel r g with ⟨ctl, g1, hs, hu, -⟩ | ⟨d, z1, hR, -⟩
  · exact ⟨ctl, g1, hs, hu.2.1, hu.1, hu.2.2.2.1⟩
  · exfalso
    obtain ⟨-, h2, h3, h4, -⟩ := hR
    have : r.iG % 2 = 1 := by omega
    have := h3 this
    omega

/-- Witness of C9: the record `3  7`. -/
theorem C9_odd_gap_not_counted_witness :
    ∃ ctl g1, step exactExt cfg0 0 (freeRec 3 "7") init = some (ctl, g1) ∧
      g1.ulErrors = init.ulErrors ∧ g1.ulOK = init.ulOK ∧ g1.log = init.log :=
  C9_odd_gap_not_counted exactExt cfg0 0 (freeRec 3 "7") init (by decide) (by decide)

/-- C10: a record whose prime field contains `..` and whose gap does not exceed the maximum
gap is skipped: the loop continues, neither counter changes and no test is applied (the call
log is unchanged). -/
theorem C10_ellipsis_skipped (E : Ext) (C : Cfg) (fuel : Nat) (r : Rec) (g : Globals)
    (hE : hasEllipsis r.szP1.toList = true) (hmax : r.ulGap ≤ C.ulMaxGap) :
    ∃ g1, step E C fuel r g = some (Ctl.next, g1) ∧ g1.ulOK = g.ulOK ∧
      g1.ulErrors = g.ulErrors ∧ g1.log = g.log := by
  rcases step_dichotomy E C fuel r g with ⟨ctl, g1, hs, hu, hc⟩ | ⟨d, z1, hR, -⟩
  · have := hc hmax
    subst this
    exact ⟨g1, hs, hu.1, hu.2.1, hu.2.2.2.1⟩
  · exfalso
    have := hR.2.2.2.2.2.2.2.2.1
    rw [hE] at this
    cases this

/-- Witness of C10: the fixed-column record with gap 618 and prime field `41656..149`. -/
theorem C10_ellipsis_skipped_witness :
    ∃ g1, step exactExt cfg0 0 (colRec 618 13 "41656..149") init = some (Ctl.next, g1) ∧
      g1.ulOK = init.ulOK ∧ g1.ulErrors = init.ulErrors ∧ g1.log = init.log :=
  C10_ellipsis_skipped exactExt cfg0 0 (colRec 618 13 "41656..149") init (by decide)
    (by decide)

/-- C11: checkpoint round trip.  Every checkpoint that the helper-assisted search of a
candidate has on disk at any moment of a run started at offset 2 without a checkpoint carries
the gap and the fingerprint of the candidate and an even resume offset between 2 and the
observed gap of the uninterrupted search; and for every even `r` between 2 and that observed
gap the search resumed at `r` on the same sieve returns the same observed gap: for the loop
of `mpz_gap_pfgw`, for the loop of `mpz_gap`, and for the search as `INTERIOR` dispatches it
on the same buffers and files. -/
theorem C11_resume_same_gap (E : Ext) (uch : Nat → Nat) (mr2 bk : Bool)
    (reps ulD1 mpzP1 ulGap rem fuel gObs : Nat) :
    (∀ n b,
        (pfgwLoop E uch mr2 bk reps ulD1 mpzP1 ulGap rem fuel 2 0 0 none).map Prod.fst
          = some gObs →
        pfgwBakAt E uch mr2 bk reps ulD1 mpzP1 ulGap rem n 2 0 0 none = some b →
        b.gap = ulGap ∧ b.p1rem = rem ∧ b.ulG % 2 = 0 ∧ 2 ≤ b.ulG ∧ b.ulG ≤ gObs) ∧
      (∀ r, r % 2 = 0 → 2 ≤ r → r ≤ gObs →
        ((pfgwLoop E uch mr2 bk reps ulD1 mpzP1 ulGap rem fuel 2 0 0 none).map Prod.fst
            = some gObs →
          ∀ c1 c2 b,
            (pfgwLoop E uch mr2 bk reps ulD1 mpzP1 ulGap rem fuel r c1 c2 b).map Prod.fst
              = some gObs) ∧
        (gapLoop E uch mr2 reps mpzP1 ulGap fuel 2 = some gObs →
          gapLoop E uch mr2 reps mpzP1 ulGap fuel r = some gObs)) ∧
      (∀ (C : Cfg) (g : Globals) r, g.ulGBack = 2 → r % 2 = 0 → 2 ≤ r → r ≤ gObs →
        (search E C fuel ulD1 mr2 mpzP1 ulGap g).map Prod.fst = some gObs →
        (search E C fuel ulD1 mr2 mpzP1 ulGap { g with ulGBack := r }).map Prod.fst
          = some gObs) := by
  refine ⟨?_, ?_, ?_⟩
  · intro n b h hb
    rw [pfgwLoop_fst] at h
    rcases pfgwBakAt_range E uch mr2 bk reps ulD1 mpzP1 ulGap rem gObs n 2 0 0 none b
      ⟨fuel, h⟩ hb with h1 | ⟨a1, a2, ⟨i, a3⟩, a4⟩
    · cases h1
    · exact ⟨a1, a2, by omega, by omega, a4⟩
  · intro r hev h2 hr
    refine ⟨?_, ?_⟩
    · intro h c1 c2 b
      rw [pfgwLoop_fst] at h ⊢
      exact firstGood_resume _ fuel 2 gObs r h h2 hr (by omega)
    · intro h
      rw [gapLoop_eq_firstGood] at h ⊢
      exact firstGood_resume _ fuel 2 gObs r h h2 hr (by omega)
  · intro C g r hgb hev h2 hr h
    exact search_resume E C fuel ulD1 mr2 mpzP1 ulGap g gObs r hgb h hev h2 (Or.inr hr)

set_option maxRecDepth 100000 in
/-- Witness of C11: `P1 = 1129` (next prime 1151, gap 22) with every index switched on and
one progress line per test: the tenth test, at offset 20, writes the checkpoint, and the
search resumed at 20 returns 22. -/
theorem C11_resume_same_gap_witness :
    pfgwBakAt exactExt (fun _ => 1) false true 1 4000 1129 22 1129 10 2 0 0 none
        = some { gap := 22, p1rem := 1129, ulG := 20 } ∧
      (pfgwLoop exactExt (fun _ => 1) false true 1 4000 1129 22 1129 12 20 0 0
        (some { gap := 22, p1rem := 1129, ulG := 20 })).map Prod.fst = some 22 :=
  ⟨by decide,
    ((C11_resume_same_gap exactExt (fun _ => 1) false true 1 4000 1129 22 1129 12 22).2.1 20
      (by decide) (by decide) (by decide)).1 (by decide) 0 0 _⟩

/-- C12 (what the code does at the failing input): with backup on, the sieve of `P1 = 101`,
gap 10 writes the snapshot `10  101  28` with the offset lines 2, 6, 8, 12.  When the line
`6` is changed to `0`, the loader takes the offset 0 as at most `2*ulGap`, computes the index
`(0 - 2)/2 = 2^63 - 1` in unsigned arithmetic and stores 1 there, before any checksum is
compared: a store far outside the sieve buffer, which has no more bytes than the largest gap
the run allows. -/
theorem C12_offset_store_out_of_range :
    (vSieve2 exactExt false true 3 101 10 101 none
        { uchSieve := fun _ => 0, ulLPD := fun _ => 0 }).siv
      = some { gap := 10, p1rem := 101, checksum := 28, offs := [2, 6, 8, 12] } ∧
    Tampered { gap := 10, p1rem := 101, checksum := 28, offs := [2, 6, 8, 12] }
      { gap := 10, p1rem := 101, checksum := 28, offs := [2, 0, 8, 12] } ∧
    idx2 0 = 2 ^ 63 - 1 ∧
    dirtySiv 10 101 (some { gap := 10, p1rem := 101, checksum := 28, offs := [2, 0, 8, 12] })
      (fun _ => 0) (2 ^ 63 - 1) = 1 := by
  refine ⟨by decide, Tampered.offset 1 0 (by decide) (by decide), by decide, by decide⟩

/-- C14 as stated fails: in interior-only mode (`INTERIOR` set) `P1` is not checked when the
candidate starts from scratch.  For the record `4  9` without a checkpoint, and for the
record `100000  9` with a checkpoint whose fingerprint 7 does not match, the only calls are
the sieve and the search from offset 2 (no test of `P1 = 9 = 3*3`), and the line written is
`Intermediate prime at P1 + 2`. -/
theorem C14_counterexample :
    (step exactExt { cfg0 with iInterior := true } 3 (freeRec 4 "9") init).map
        (fun p => (p.2.log, p.2.report))
      = some ([Ev.search 9 4 2 false, Ev.sieve 9 4], [Msg.intermediate 4 2]) ∧
    (step exactExt { cfg0 with iInterior := true } 3 (freeRec 100000 "9")
        { init with bak := fun k =>
            if k = 100000 then some { gap := 100000, p1rem := 7, ulG := 6 } else none }).map
        (fun p => (p.2.log, p.2.report))
      = some ([Ev.search 9 100000 2 false, Ev.sieve 9 100000], [Msg.intermediate 100000 2]) := by
  decide

/-- C14 (amended): for a candidate with even gap, odd `P1` and the right digit count in a
run that is neither endpoints-only nor collection-only, with `ulGBack = 2` at the head of the
round.  In interior-only mode with backup off the checkpoint file is not read and the search
starts at offset 2.  Otherwise a checkpoint whose stored gap and stored fingerprint
(`P1 mod 2^64`) both equal those of the candidate is used: the search starts at the stored
offset and `P1` is not tested; and when there is no checkpoint or one of the two differs,
the search starts at offset 2, in interior-only mode without a test of `P1`, in full-check
mode after the test of `P1` (a failed test ends the round with the `P1 composite` error). -/
theorem C14_checkpoint_use (E : Ext) (C : Cfg) (fuel : Nat) (r : Rec) (ulD1 : Nat)
    (mr2 : Bool) (mpzP1 : Nat) (g : Globals) (hgap : r.ulGap % 2 = 0)
    (hodd : mpzP1 % 2 = 1) (hD : decLen mpzP1 = ulD1) (hnc : C.iNoCheck = false)
    (hepo : C.iEPO = false) (hgb : g.ulGBack = 2) :
    ((C.iInterior && !g.iBackup) = true →
        candidate E C fuel r ulD1 mr2 mpzP1 g =
          searchFrom E C fuel ulD1 mr2 mpzP1 r.ulGap 2 g) ∧
      ((C.iInterior && !g.iBackup) = false →
        ∀ b, g.bak r.ulGap = some b → b.gap = r.ulGap → b.p1rem = mpzP1 % 2 ^ 64 →
          candidate E C fuel r ulD1 mr2 mpzP1 g =
            searchFrom E C fuel ulD1 mr2 mpzP1 r.ulGap b.ulG { g with ulGBack := b.ulG }) ∧
      ((C.iInterior && !g.iBackup) = false →
        (∀ b, g.bak r.ulGap = some b → b.gap ≠ r.ulGap ∨ b.p1rem ≠ mpzP1 % 2 ^ 64) →
          candidate E C fuel r ulD1 mr2 mpzP1 g =
            if C.iInterior then searchFrom E C fuel ulD1 mr2 mpzP1 r.ulGap 2 g
            else if !endTest E C mr2 mpzP1 then
              some (Ctl.next,
                countError (logDiv mpzP1 (logTest C mr2 mpzP1 g))
                  (Msg.p1Composite r.ulGap (diagnose E mpzP1)) true)
            else searchFrom E C fuel ulD1 mr2 mpzP1 r.ulGap 2 (logTest C mr2 mpzP1 g)) := by
  have h2 : mpzP1 ≠ 2 := by omega
  have hck : checkP1 E C fuel ulD1 mr2 mpzP1 r.ulGap g =
      if C.iInterior then searchFrom E C fuel ulD1 mr2 mpzP1 r.ulGap 2 g
      else if !endTest E C mr2 mpzP1 then
        some (Ctl.next,
          countError (logDiv mpzP1 (logTest C mr2 mpzP1 g))
            (Msg.p1Composite r.ulGap (diagnose E mpzP1)) true)
      else searchFrom E C fuel ulD1 mr2 mpzP1 r.ulGap 2 (logTest C mr2 mpzP1 g) := by
    unfold checkP1
    rw [interior_searchFrom E C fuel ulD1 mr2 mpzP1 r.ulGap g h2,
      interior_searchFrom E C fuel ulD1 mr2 mpzP1 r.ulGap _ h2, hgb]
    simp only [hepo, Bool.false_eq_true, if_false]
    have e : (logTest C mr2 mpzP1 g).ulGBack = 2 := hgb
    rw [e]
  refine ⟨fun hi => ?_, fun hi b hb e1 e2 => ?_, fun hi hm => ?_⟩
  · unfold candidate
    rw [if_neg (by omega), if_neg (by omega), if_neg (by omega), if_neg (by omega),
      if_neg (by simp [hD]), if_neg (by simp [hnc]), if_neg (by simp [hepo]), if_pos hi,
      interior_searchFrom E C fuel ulD1 mr2 mpzP1 r.ulGap g h2, hgb]
  · unfold candidate
    rw [if_neg (by omega), if_neg (by omega), if_neg (by omega), if_neg (by omega),
      if_neg (by simp [hD]), if_neg (by simp [hnc]), if_neg (by simp [hepo]),
      if_neg (by simp [hi]), hb]
    simp only
    rw [if_neg (by simp [e1]), if_neg (by simp [e2]),
      interior_searchFrom E C fuel ulD1 mr2 mpzP1 r.ulGap _ h2]
  · unfold candidate
    rw [if_neg (by omega), if_neg (by omega), if_neg (by omega), if_neg (by omega),
      if_neg (by simp [hD]), if_neg (by simp [hnc]), if_neg (by simp [hepo]),
      if_neg (by simp [hi])]
    cases hb : g.bak r.ulGap with
    | none => exact hck
    | some b =>
      simp only
      rcases hm b hb with hm1 | hm1
      · rw [if_pos hm1]; exact hck
      · by_cases c9 : b.gap ≠ r.ulGap
        · rw [if_pos c9]; exact hck
        · rw [if_neg c9, if_pos hm1]; exact hck

/-- Witness of C14: the record `4  7` in full-check mode with the checkpoint `4  7  4`
(the search starts at offset 4) and with the checkpoint `4  5  4` of another prime (test of
`P1`, then the search from offset 2). -/
theorem C14_checkpoint_use_witness :
    candidate exactExt cfg0 3 (freeRec 4 "7") 1 false 7
        { init with bak := fun _ => some { gap := 4, p1rem := 7, ulG := 4 } } =
      searchFrom exactExt cfg0 3 1 false 7 (freeRec 4 "7").ulGap 4
        { init with bak := fun _ => some { gap := 4, p1rem := 7, ulG := 4 }, ulGBack := 4 } ∧
    candidate exactExt cfg0 3 (freeRec 4 "7") 1 false 7
        { init with bak := fun _ => some { gap := 4, p1rem := 5, ulG := 4 } } =
      searchFrom exactExt cfg0 3 1 false 7 (freeRec 4 "7").ulGap 2
        (logTest cfg0 false 7
          { init with bak := fun _ => some { gap := 4, p1rem := 5, ulG := 4 } }) :=
  ⟨(C14_checkpoint_use exactExt cfg0 3 (freeRec 4 "7") 1 false 7
      { init with bak := fun _ => some { gap := 4, p1rem := 7, ulG := 4 } }
      (by decide) (by decide) (by decide) rfl rfl rfl).2.1 rfl
      { gap := 4, p1rem := 7, ulG := 4 } rfl rfl (by decide),
    ((C14_checkpoint_use exactExt cfg0 3 (freeRec 4 "7") 1 false 7
      { init with bak := fun _ => some { gap := 4, p1rem := 5, ulG := 4 } }
      (by decide) (by decide) (by decide) rfl rfl rfl).2.2 rfl
      (fun b hb => by cases hb; exact Or.inr (by decide)))⟩

/-- C15: for a candidate whose interior search returns the observed gap `ulGap2` (either
search routine), the round ends with the comparison of `ulGap2` with the claimed gap: the
confirmed counter goes up by one exactly when the two are equal (the error counter is then
unchanged); when `ulGap2` is smaller the line `Intermediate prime` carrying `ulGap2` is written
to the report, when it is larger the line `P2 is composite` carrying `ulGap2` as the true gap,
and in both cases the error counter goes up by one and the confirmed counter is unchanged. -/
theorem C15_outcome_classification (E : Ext) (C : Cfg) (fuel ulD1 : Nat) (mr2 : Bool)
    (mpzP1 ulGap : Nat) (g : Globals) (ulGap2 : Nat)
    (hs : (search E C fuel ulD1 mr2 mpzP1 ulGap g).map Prod.fst = some ulGap2) :
    ∃ g1, interior E C fuel ulD1 mr2 mpzP1 ulGap g = some (Ctl.next, g1) ∧
      (g1.ulOK = g.ulOK + 1 ↔ ulGap2 = ulGap) ∧
      (ulGap2 = ulGap → g1.ulErrors = g.ulErrors ∧ g1.report = Msg.ok ulGap :: g.report) ∧
      (ulGap2 < ulGap → g1.ulOK = g.ulOK ∧ g1.ulErrors = g.ulErrors + 1 ∧
        g1.report = Msg.intermediate ulGap ulGap2 :: g.report) ∧
      (ulGap < ulGap2 → g1.ulOK = g.ulOK ∧ g1.ulErrors = g.ulErrors + 1 ∧
        g1.report = Msg.p2Composite ulGap (diagnose E (mpzP1 + ulGap)) ulGap2 :: g.report) := by
  cases hse : search E C fuel ulD1 mr2 mpzP1 ulGap g with
  | none => rw [hse] at hs; cases hs
  | some p =>
    obtain ⟨x, gs⟩ := p
    rw [hse] at hs
    simp only [Option.map_some', Option.some.injEq] at hs
    subst hs
    obtain ⟨f1, f2, f3, -, -⟩ := search_fields E C fuel ulD1 mr2 mpzP1 ulGap g x gs hse
    refine ⟨verdict E C mpzP1 ulGap x gs, by unfold interior; rw [hse], ?_, ?_, ?_, ?_⟩
    · constructor
      · intro h
        by_contra hne
        have := (verdict_ne E C mpzP1 ulGap x gs hne).1
        omega
      · intro h
        subst h
        rw [(verdict_eq E C mpzP1 x gs).1, f1]
    · intro h
      subst h
      rw [(verdict_eq E C mpzP1 x gs).2.1, (verdict_eq E C mpzP1 x gs).2.2, f2, f3]
      exact ⟨rfl, rfl⟩
    · intro h
      obtain ⟨v1, v2, v3⟩ := verdict_ne E C mpzP1 ulGap x gs (by omega)
      rw [v1, v2, v3, if_pos h, f1, f2, f3]
      exact ⟨rfl, rfl, rfl⟩
    · intro h
      obtain ⟨v1, v2, v3⟩ := verdict_ne E C mpzP1 ulGap x gs (by omega)
      rw [v1, v2, v3, if_neg (by omega), f1, f2, f3]
      exact ⟨rfl, rfl, rfl⟩

/-- Witness of C15: `P1 = 7` with claimed gap 6; the search returns 4 (the prime 11). -/
theorem C15_outcome_classification_witness :
    ∃ g1, interior exactExt cfg0 3 1 false 7 6 init = some (Ctl.next, g1) ∧
      (g1.ulOK = init.ulOK + 1 ↔ 4 = 6) ∧
      (4 = 6 → g1.ulErrors = init.ulErrors ∧ g1.report = Msg.ok 6 :: init.report) ∧
      (4 < 6 → g1.ulOK = init.ulOK ∧ g1.ulErrors = init.ulErrors + 1 ∧
        g1.report = Msg.intermediate 6 4 :: init.report) ∧
      (6 < 4 → g1.ulOK = init.ulOK ∧ g1.ulErrors = init.ulErrors + 1 ∧
        g1.report = Msg.p2Composite 6 (diagnose exactExt (7 + 6)) 4 :: init.report) :=
  C15_outcome_classification exactExt cfg0 3 1 false 7 6 init 4 (by decide)

/-- C16 as stated fails: with the maximum gap 3000000, the free-form record `3000002  abc`
(valid gap above the maximum, prime field that does not parse), the record with gap
1000000000 (above the ceiling 999999999 of the gap check) and the record with the odd gap
3000001 are skipped, not ends of the run: the record `1  2` that follows is confirmed. -/
theorem C16_counterexample :
    cfg0.ulMaxGap < (freeRec 3000002 "abc").ulGap ∧
      (run exactExt cfg0 0 [freeRec 3000002 "abc", freeRec 1 "2"] init).map
        (fun g => (g.ulOK, g.report)) = some (1, [Msg.okCertfd, Msg.parseError 3000002]) ∧
      cfg0.ulMaxGap < (freeRec 1000000000 "3").ulGap ∧
      (run exactExt cfg0 0 [freeRec 1000000000 "3", freeRec 1 "2"] init).map
        (fun g => (g.ulOK, g.report)) = some (1, [Msg.okCertfd]) ∧
      cfg0.ulMaxGap < (freeRec 3000001 "7").ulGap ∧
      (run exactExt cfg0 0 [freeRec 3000001 "7", freeRec 1 "2"] init).map
        (fun g => (g.ulOK, g.report)) = some (1, [Msg.okCertfd]) := by
  decide

/-- C16 (amended): a record that passes the gap check at the head of the loop body (read,
gap positive, even or 1, at most 999999999) and the layout dispatch (for the free-form layout
the prime must parse), and whose gap is above the maximum gap (the minimum gap being at
most the maximum, as the option parser leaves them), ends the record loop: the round returns
`stop` with counters, log and files as they were, and the records after it have no effect on
the result of the run. -/
theorem C16_gap_above_max_stops (E : Ext) (C : Cfg) (fuel : Nat) (r : Rec) (ulD1 : Nat)
    (hst : r.iStat ≠ 0) (hpos : 0 < r.iG) (hev : r.iG % 2 = 1 → r.iG = 1)
    (heq : (r.ulGap : Int) = r.iG) (hcap : r.ulGap ≤ 999999999)
    (hf : field E r = Field.digits ulD1) (hlim : C.ulMinGap ≤ C.ulMaxGap)
    (hmax : C.ulMaxGap < r.ulGap) :
    (∀ g, step E C fuel r g = some (Ctl.stop, headState C g)) ∧
      ∀ pre rs g, run E C fuel (pre ++ r :: rs) g = run E C fuel (pre ++ [r]) g := by
  have hstep : ∀ g, step E C fuel r g = some (Ctl.stop, headState C g) := by
    intro g
    unfold step
    rw [if_neg hst, if_neg (by omega), if_neg (by intro hh; exact hh.2 (hev hh.1)),
      if_neg (by intro hh; rcases hh with hh | hh; exact hh heq; omega)]
    simp only [hf]
    rw [if_neg (by omega), if_pos hmax]
  refine ⟨hstep, ?_⟩
  intro pre
  induction pre with
  | nil =>
    intro rs g
    simp only [List.nil_append]
    unfold run
    rw [hstep g]
  | cons a pre ih =>
    intro rs g
    simp only [List.cons_append]
    unfold run
    cases hs : step E C fuel a g with
    | none => rfl
    | some p =>
      obtain ⟨ctl, g1⟩ := p
      cases ctl with
      | next => exact ih rs g1
      | stop => rfl

/-- Witness of C16: the record `3000002  7` between `2  3` and `1  2`, maximum gap 3000000. -/
theorem C16_gap_above_max_stops_witness :
    (∀ g, step exactExt cfg0 1 (freeRec 3000002 "7") g = some (Ctl.stop, headState cfg0 g)) ∧
      ∀ pre rs g, run exactExt cfg0 1 (pre ++ freeRec 3000002 "7" :: rs) g =
        run exactExt cfg0 1 (pre ++ [freeRec 3000002 "7"]) g :=
  C16_gap_above_max_stops exactExt cfg0 1 (freeRec 3000002 "7") 1 (by decide) (by decide)
    (by decide) (by decide) (by decide) (by decide) (by decide) (by decide)

/-- C17: one round of the record loop leaves the confirmed counter and the error counter
both unchanged, or adds exactly one to exactly one of them; neither ever goes down and no
record is counted in both. -/
theorem C17_counter_invariant (E : Ext) (C : Cfg) (fuel : Nat) (r : Rec) (g : Globals)
    (ctl : Ctl) (g1 : Globals) (h : step E C fuel r g = some (ctl, g1)) :
    (g1.ulOK = g.ulOK ∧ g1.ulErrors = g.ulErrors) ∨
      (g1.ulOK = g.ulOK + 1 ∧ g1.ulErrors = g.ulErrors) ∨
      (g1.ulOK = g.ulOK ∧ g1.ulErrors = g.ulErrors + 1) := by
  rcases step_cases E C fuel r g ctl g1 h with hu | ⟨d, z, -, hc⟩
  · exact Or.inl ⟨hu.1, hu.2.1⟩
  · obtain ⟨b1, b2, -⟩ := backupState_fields C r d g
    rcases candidate_counts E C fuel r d (mr2Of C d) z.toNat _ ctl g1 hc with
      ⟨a, b, -⟩ | ⟨a, b, -⟩ | ⟨a, b, -⟩
    · exact Or.inr (Or.inl ⟨by rw [a, b1], by rw [b, b2]⟩)
    · exact Or.inr (Or.inr ⟨by rw [a, b1], by rw [b, b2]⟩)
    · exact Or.inl ⟨by rw [a, b1], by rw [b, b2]⟩

/-- Witness of C17: the record `1  2` is counted once, as confirmed. -/
theorem C17_counter_invariant_witness :
    ∃ g1, step exactExt cfg0 0 (freeRec 1 "2") init = some (Ctl.next, g1) ∧
      ((g1.ulOK = init.ulOK ∧ g1.ulErrors = init.ulErrors) ∨
        (g1.ulOK = init.ulOK + 1 ∧ g1.ulErrors = init.ulErrors) ∨
        (g1.ulOK = init.ulOK ∧ g1.ulErrors = init.ulErrors + 1)) :=
  ⟨countOK cfg0 (backupState cfg0 (freeRec 1 "2") 1 init) Msg.okCertfd, rfl,
    C17_counter_invariant exactExt cfg0 0 (freeRec 1 "2") init Ctl.next _ rfl⟩

/-- C18 (what the code does): a round that counts an error writes the error line to the
report file and to the interactive stream, with one exception: for a record that passed the
filters with an even gap and an odd `P1` whose digit count differs from the length of `P1`,
the line `Conflicting counts of digits` goes to the interactive stream and the report file
is left as it was. -/
theorem C18_digit_conflict_not_reported (E : Ext) (C : Cfg) (fuel : Nat) (r : Rec)
    (g : Globals) (ctl : Ctl) (g1 : Globals) (h : step E C fuel r g = some (ctl, g1))
    (he : g1.ulErrors = g.ulErrors + 1) :
    (∃ m, g1.report = m :: g.report ∧ ∃ t, g1.screen = m :: t) ∨
      ∃ ulD1 z, Reaches E C r ulD1 z ∧ r.ulGap % 2 = 0 ∧ z.toNat % 2 = 1 ∧
        decLen z.toNat ≠ ulD1 ∧ g1.report = g.report ∧
        g1.screen = Msg.digitConflict ulD1 (decLen z.toNat) :: g.screen := by
  rcases step_cases E C fuel r g ctl g1 h with hu | ⟨d, z, hR, hc⟩
  · exfalso
    have := hu.2.1
    omega
  · obtain ⟨-, b2, -, b4, -, -, -, -, -, -, -, b12⟩ := backupState_fields C r d g
    rcases candidate_report E C fuel r d (mr2Of C d) z.toNat _ ctl g1 hc (by rw [he, b2]) with
      ⟨m, h1, t, h2⟩ | ⟨h1, h2, h3, h4, h5⟩
    · exact Or.inl ⟨m, by rw [h1, b4], t, h2⟩
    · exact Or.inr ⟨d, z, hR, h1, h2, h3, by rw [h4, b4], by rw [h5, b12]⟩

/-- Witness of C18, the failing input: the fixed-column record with gap 4, prime field `103`
and stated digit count 5 is counted as an error, its line is on the interactive stream and
the report file is empty. -/
theorem C18_digit_conflict_not_reported_witness :
    (step exactExt cfg0 0 (colRec 4 5 "103") init).map
        (fun p => (p.2.ulErrors, p.2.screen, p.2.report))
      = some (1, [Msg.digitConflict 5 3], []) ∧
    ((∃ m, (countError (backupState cfg0 (colRec 4 5 "103") 5 init)
          (Msg.digitConflict 5 3) false).report = m :: init.report ∧
        ∃ t, (countError (backupState cfg0 (colRec 4 5 "103") 5 init)
          (Msg.digitConflict 5 3) false).screen = m :: t) ∨
      ∃ ulD1 z, Reaches exactExt cfg0 (colRec 4 5 "103") ulD1 z ∧
        (colRec 4 5 "103").ulGap % 2 = 0 ∧ z.toNat % 2 = 1 ∧
        decLen z.toNat ≠ ulD1 ∧
        (countError (backupState cfg0 (colRec 4 5 "103") 5 init)
          (Msg.digitConflict 5 3) false).report = init.report ∧
        (countError (backupState cfg0 (colRec 4 5 "103") 5 init)
          (Msg.digitConflict 5 3) false).screen
          = Msg.digitConflict ulD1 (decLen z.toNat) :: init.screen) :=
  ⟨by decide,
    C18_digit_conflict_not_reported exactExt cfg0 0 (colRec 4 5 "103") init Ctl.next
      (countError (backupState cfg0 (colRec 4 5 "103") 5 init) (Msg.digitConflict 5 3) false)
      rfl rfl⟩

/-- C20: a round of the record loop that counts the record as confirmed or as an error,
collects it, or calls any test or the sieve for it (the call log grows) has a record whose
gap lies between the minimum and the maximum gap and whose digit count, as the layout
dispatch yields it, lies between the minimum and the maximum digit count. -/
theorem C20_selection_filters (E : Ext) (C : Cfg) (fuel : Nat) (r : Rec) (g : Globals)
    (ctl : Ctl) (g1 : Globals) (h : step E C fuel r g = some (ctl, g1))
    (hc : g1.ulOK ≠ g.ulOK ∨ g1.ulErrors ≠ g.ulErrors ∨ g1.iNCGaps ≠ g.iNCGaps ∨
      g1.nocheck ≠ g.nocheck ∨ g1.log ≠ g.log) :
    ∃ ulD1, field E r = Field.digits ulD1 ∧ C.ulMinGap ≤ r.ulGap ∧ r.ulGap ≤ C.ulMaxGap ∧
      C.ulMinDigits ≤ ulD1 ∧ ulD1 ≤ C.ulMaxDigits := by
  rcases step_cases E C fuel r g ctl g1 h with hu | ⟨d, z, hR, -⟩
  · exfalso
    obtain ⟨u1, u2, u3, u4, -, -, u7, -⟩ := hu
    rcases hc with hc | hc | hc | hc | hc
    · exact hc u1
    · exact hc u2
    · exact hc u3
    · exact hc u7
    · exact hc u4
  · obtain ⟨-, -, -, -, -, h6, h7, h8, -, h10, h11, -⟩ := hR
    exact ⟨d, h6, h7, h8, h10, h11⟩

/-- Witness of C20: the record `1  2` is confirmed in a run with the default limits. -/
theorem C20_selection_filters_witness :
    ∃ ulD1, field exactExt (freeRec 1 "2") = Field.digits ulD1 ∧
      cfg0.ulMinGap ≤ (freeRec 1 "2").ulGap ∧ (freeRec 1 "2").ulGap ≤ cfg0.ulMaxGap ∧
      cfg0.ulMinDigits ≤ ulD1 ∧ ulD1 ≤ cfg0.ulMaxDigits :=
  C20_selection_filters exactExt cfg0 0 (freeRec 1 "2") init Ctl.next
    (countOK cfg0 (backupState cfg0 (freeRec 1 "2") 1 init) Msg.okCertfd) rfl
    (Or.inl (by decide))

/-- C21: in endpoints-only mode (not collection-only; the interior toggle is ignored when
the endpoints option is given), for a record that passes the filters with an even gap, an
odd `P1` and the right digit count, the round returns for every fuel; the record is counted
as confirmed when the endpoint test accepts both `P1` and `P1 + gap` and as an error
otherwise; the sieve buffers and the files are left as they were and the only calls are the
endpoint tests and trial divisions of `P1` and `P1 + gap`; and a run with other
collaborators that answer alike on `P1` and `P1 + gap` ends in the same state. -/
theorem C21_endpoints_only (E : Ext) (C : Cfg) (fuel : Nat) (r : Rec) (g : Globals)
    (ulD1 : Nat) (z : Int) (hR : Reaches E C r ulD1 z) (hgap : r.ulGap % 2 = 0)
    (hodd : z.toNat % 2 = 1) (hD : decLen z.toNat = ulD1) (hepo : C.iEPO = true)
    (hnc : C.iNoCheck = false) (hint : C.iInterior = false) :
    ∃ g1, step E C fuel r g = some (Ctl.next, g1) ∧
      ((endTest E C (mr2Of C ulD1) z.toNat = true ∧
          endTest E C (mr2Of C ulD1) (z.toNat + r.ulGap) = true) →
        g1.ulOK = g.ulOK + 1 ∧ g1.ulErrors = g.ulErrors) ∧
      (¬ (endTest E C (mr2Of C ulD1) z.toNat = true ∧
          endTest E C (mr2Of C ulD1) (z.toNat + r.ulGap) = true) →
        g1.ulOK = g.ulOK ∧ g1.ulErrors = g.ulErrors + 1) ∧
      g1.uchSieve = g.uchSieve ∧ g1.ulLPD = g.ulLPD ∧ g1.bak = g.bak ∧ g1.siv = g.siv ∧
      (∀ e ∈ g1.log, e ∈ g.log ∨ e = endEv C (mr2Of C ulD1) z.toNat ∨
        e = endEv C (mr2Of C ulD1) (z.toNat + r.ulGap) ∨ e = Ev.prmDiv z.toNat 1000000 ∨
        e = Ev.prmDiv (z.toNat + r.ulGap) 1000000) ∧
      (∀ (E1 : Ext) (fuel1 : Nat), E1.parseP1 = E.parseP1 →
        (∀ n, n = z.toNat ∨ n = z.toNat + r.ulGap →
          (∀ a b, E1.iPrP n a b = E.iPrP n a b) ∧
          (∀ a, E1.iMillerRabin n a = E.iMillerRabin n a) ∧
          (∀ b, E1.ulPrmDiv n b = E.ulPrmDiv n b)) →
        step E1 C fuel1 r g = some (Ctl.next, g1)) := by
  obtain ⟨b1, b2, b3, -, b5, b6, b7, b8, -⟩ := backupState_fields C r ulD1 g
  rw [step_of_reaches E C fuel r g ulD1 z hR,
    candidate_epo E C fuel r ulD1 (mr2Of C ulD1) z.toNat _ hgap hodd hD hnc hepo hint]
  refine ⟨_, rfl, ?_, ?_, ?_, ?_, ?_, ?_, ?_, ?_⟩
  · rintro ⟨h1, h2⟩
    simp only [h1, h2, Bool.not_true, Bool.false_eq_true, if_false]
    exact ⟨by show (backupState C r ulD1 g).ulOK + 1 = g.ulOK + 1; rw [b1], b2⟩
  · intro hn
    by_cases h1 : endTest E C (mr2Of C ulD1) z.toNat = true
    · have h2 : endTest E C (mr2Of C ulD1) (z.toNat + r.ulGap) = false := by
        by_contra hc; exact hn ⟨h1, by simpa using hc⟩
      simp only [h1, h2, Bool.not_true, Bool.not_false, Bool.false_eq_true, if_false, if_true]
      exact ⟨b1, by show (backupState C r ulD1 g).ulErrors + 1 = g.ulErrors + 1; rw [b2]⟩
    · have h1f : endTest E C (mr2Of C ulD1) z.toNat = false := by simpa using h1
      simp only [h1f, Bool.not_false, if_true]
      exact ⟨b1, by show (backupState C r ulD1 g).ulErrors + 1 = g.ulErrors + 1; rw [b2]⟩
  · split
    · exact b5
    · split
      · exact b5
      · exact b5
  · split
    · exact b6
    · split
      · exact b6
      · exact b6
  · split
    · exact b7
    · split
      · exact b7
      · exact b7
  · split
    · exact b8
    · split
      · exact b8
      · exact b8
  · intro e he
    split at he
    · simp only [countError, logDiv, logTest, List.mem_cons, b3] at he
      rcases he with he | he | he
      · exact Or.inr (Or.inr (Or.inr (Or.inl he)))
      · exact Or.inr (Or.inl he)
      · exact Or.inl he
    · split at he
      · simp only [countError, logDiv, logTest, List.mem_cons, b3] at he
        rcases he with he | he | he | he
        · exact Or.inr (Or.inr (Or.inr (Or.inr he)))
        · exact Or.inr (Or.inr (Or.inl he))
        · exact Or.inr (Or.inl he)
        · exact Or.inl he
      · simp only [countOK, logTest, List.mem_cons, b3] at he
        rcases he with he | he | he
        · exact Or.inr (Or.inr (Or.inl he))
        · exact Or.inr (Or.inl he)
        · exact Or.inl he
  · intro E1 fuel1 hP hag
    obtain ⟨a1, a2, a3⟩ := hag z.toNat (Or.inl rfl)
    obtain ⟨c1, c2, c3⟩ := hag (z.toNat + r.ulGap) (Or.inr rfl)
    obtain ⟨t1, d1⟩ := endTest_congr E E1 C (mr2Of C ulD1) z.toNat a1 a2 a3
    obtain ⟨t2, d2⟩ := endTest_congr E E1 C (mr2Of C ulD1) (z.toNat + r.ulGap) c1 c2 c3
    rw [step_of_reaches E1 C fuel1 r g ulD1 z (reaches_congr E E1 C r ulD1 z hP hR),
      candidate_epo E1 C fuel1 r ulD1 (mr2Of C ulD1) z.toNat _ hgap hodd hD hnc hepo hint,
      t1, t2, d1, d2]

/-- Witness of C21: the record `6  23` in an endpoints-only run (23 and 29 are prime). -/
theorem C21_endpoints_only_witness :
    ∃ g1, step exactExt { cfg0 with iEPO := true } 0 (freeRec 6 "23") init
        = some (Ctl.next, g1) ∧ g1.ulOK = init.ulOK + 1 ∧ g1.ulErrors = init.ulErrors := by
  obtain ⟨g1, h1, h2, -⟩ := C21_endpoints_only exactExt { cfg0 with iEPO := true } 0
    (freeRec 6 "23") init 2 23 (by decide) (by decide) (by decide) (by decide) rfl rfl rfl
  exact ⟨g1, h1, h2 (by decide)⟩

/-- C22 (what the code does): in interior-only mode (endpoints-only off), with the resume
offset at 2 and no checkpoint with an offset 0 on disk, the round of a record that passes the
filters is the same for two sets of collaborators that differ only in the answers of the
oracle and of the trial division on `P1`: the lower endpoint is never tested.  The upper
endpoint `P1 + gap` is tested by the search when it arrives there (see the witness). -/
theorem C22_interior_only (E E1 : Ext) (C : Cfg) (fuel : Nat) (r : Rec) (g : Globals)
    (ulD1 : Nat) (z : Int) (hR : Reaches E C r ulD1 z) (hint : C.iInterior = true)
    (hepo : C.iEPO = false) (hgb : g.ulGBack = 2)
    (hck : ∀ b, g.bak r.ulGap = some b → 1 ≤ b.ulG) (hag : AgreeOff E E1 z.toNat) :
    step E1 C fuel r g = step E C fuel r g := by
  obtain ⟨-, -, -, -, -, -, b7, -, b9, -⟩ := backupState_fields C r ulD1 g
  have hpos : 1 ≤ r.ulGap := by
    have h1 := hR.2.1
    have h2 := hR.2.2.2.1
    omega
  rw [step_of_reaches E C fuel r g ulD1 z hR,
    step_of_reaches E1 C fuel r g ulD1 z (reaches_congr E E1 C r ulD1 z hag.2.2.2.1 hR)]
  exact candidate_interior_congr E E1 C fuel r ulD1 (mr2Of C ulD1) z.toNat _ hag hpos hint
    hepo (by rw [b9]; exact hgb) (fun b hb => hck b (by rw [← b7]; exact hb))

/-- Witness of C22, the failing input.  In interior-only mode the record `2  7` (the interior
holds no prime, `P1 + gap = 9` is composite) is reported as `P2 composite (3|P2)`, so the
upper endpoint was tested; for the record `4  7` the outcome changes from confirmed to
`P2 composite` when the oracle's answer on `P1 + gap = 11` alone is changed; changing the
answer on `P1 = 7` changes nothing. -/
theorem C22_interior_only_witness :
    (step exactExt { cfg0 with iInterior := true } 3 (freeRec 2 "7") init).map
        (fun p => (p.2.ulOK, p.2.ulErrors, p.2.report))
      = some (0, 1, [Msg.p2Composite 2 (Wit.factor 3) 4]) ∧
    (step exactExt { cfg0 with iInterior := true } 3 (freeRec 4 "7") init).map
        (fun p => (p.2.ulOK, p.2.ulErrors, p.2.report)) = some (1, 0, [Msg.ok 4]) ∧
    (step { exactExt with iPrP := fun n a b => if n = 11 then false else exactExt.iPrP n a b }
        { cfg0 with iInterior := true } 3 (freeRec 4 "7") init).map
        (fun p => (p.2.ulOK, p.2.ulErrors, p.2.report))
      = some (0, 1, [Msg.p2Composite 4 Wit.xBPSW 6]) ∧
    step { exactExt with iPrP := fun n a b => if n = 7 then false else exactExt.iPrP n a b }
        { cfg0 with iInterior := true } 3 (freeRec 4 "7") init =
      step exactExt { cfg0 with iInterior := true } 3 (freeRec 4 "7") init :=
  ⟨by decide, by decide, by decide,
    C22_interior_only exactExt
      { exactExt with iPrP := fun n a b => if n = 7 then false else exactExt.iPrP n a b }
      { cfg0 with iInterior := true } 3 (freeRec 4 "7") init 1 7 (by decide) rfl rfl rfl
      (fun b hb => by cases hb)
      ⟨rfl, rfl, rfl, rfl, fun m hm =>
        ⟨fun a b => by
          show (if m = 7 then false else exactExt.iPrP m a b) = exactExt.iPrP m a b
          have h7 : ¬ m = 7 := hm
          rw [if_neg h7], fun _ => rfl, fun _ => rfl⟩⟩⟩

/-- C23 (what the code does): after the interior search of a candidate, the sieve snapshot
of its gap is gone on both search paths unless `CHECK_SIEVE` is set; the checkpoint of its
gap is gone after the helper-assisted search, but the internal search `mpz_gap` leaves the
checkpoint files exactly as they were, so a checkpoint it resumed from is still there. -/
theorem C23_checkpoint_left_by_internal_search (E : Ext) (C : Cfg) (fuel ulD1 : Nat)
    (mr2 : Bool) (mpzP1 ulGap : Nat) (g : Globals) (ctl : Ctl) (g1 : Globals)
    (hp : mpzP1 ≠ 2) (h : interior E C fuel ulD1 mr2 mpzP1 ulGap g = some (ctl, g1)) :
    (C.iCheckSieve = false → g1.siv ulGap = none) ∧
      (helperUsed C ulD1 = true → g1.bak ulGap = none) ∧
      (helperUsed C ulD1 = false → g1.bak = g.bak) := by
  rw [interior_eq E C fuel ulD1 mr2 mpzP1 ulGap g hp] at h
  cases hf : firstGood (searchGood E C ulD1 mr2 mpzP1 ulGap g) fuel g.ulGBack with
  | none => rw [hf] at h; cases h
  | some x =>
    rw [hf] at h
    simp only [Option.map_some', Option.some.injEq, Prod.mk.injEq] at h
    obtain ⟨v1, v2⟩ := verdict_files E C mpzP1 ulGap x
      (afterSearch C (helperUsed C ulD1) mpzP1 ulGap
        (sieveOf E C ulD1 mpzP1 ulGap (mpzP1 % 2 ^ 64) g) g)
    rw [← h.2, v1, v2]
    refine ⟨fun hc => ?_, fun hh => ?_, fun hh => ?_⟩
    · simp [afterSearch, hc, putFile]
    · simp [afterSearch, hh, putFile]
    · simp [afterSearch, hh]

/-- Witness of C23, the failing input: the record `4  7` in full-check mode without helper,
with the checkpoint `4  7  4` on disk.  The search resumes at offset 4, the record is
confirmed, and the checkpoint file is still there. -/
theorem C23_checkpoint_left_by_internal_search_witness :
    (step exactExt cfg0 3 (freeRec 4 "7")
        { init with bak := fun k =>
            if k = 4 then some { gap := 4, p1rem := 7, ulG := 4 } else none }).map
        (fun p => (p.2.ulOK, p.2.bak 4, p.2.siv 4))
      = some (1, some { gap := 4, p1rem := 7, ulG := 4 }, none) ∧
    ∀ g1, interior exactExt cfg0 3 1 false 7 4
        { init with bak := fun k =>
            if k = 4 then some { gap := 4, p1rem := 7, ulG := 4 } else none, ulGBack := 4 }
        = some (Ctl.next, g1) →
      g1.bak 4 = some { gap := 4, p1rem := 7, ulG := 4 } :=
  ⟨by decide, fun g1 h => by
    rw [(C23_checkpoint_left_by_internal_search exactExt cfg0 3 1 false 7 4 _ Ctl.next g1
      (by decide) h).2.2 rfl]
    rfl⟩

/-- C24 (what the code does): the checkpoint is written by count, not by the clock.  In the
loop of `mpz_gap_pfgw` for a candidate of at least 4000 digits with backup on, along any
stretch of `n` offsets that are all tested and rejected, the checkpoint file is rewritten at
the 10th, 20th, ... test and holds the offset of the last of these; with backup off the file
is never written.  No time enters the decision: the loop reads the clock for the progress
line and the elapsed fields only, and the interval `lfBUI` is never read. -/
theorem C24_checkpoint_by_count (E : Ext) (uch : Nat → Nat) (mr2 : Bool)
    (reps ulD1 mpzP1 ulGap rem : Nat) (hD : 4000 ≤ ulD1) (n ulG : Nat)
    (hT : ∀ i, i < n → iTest uch ulGap (ulG + 2 * i) = true)
    (hrej : ∀ i, i < n → (E.pfgw (mpzP1 + (ulG + 2 * i)) != 1 &&
      oracleAt E mr2 reps mpzP1 ulGap (ulG + 2 * i)) = false) :
    pfgwBakAt E uch mr2 true reps ulD1 mpzP1 ulGap rem n ulG 0 0 none =
        (if n < 10 then none
         else some { gap := ulGap, p1rem := rem, ulG := ulG + 2 * (10 * (n / 10) - 1) }) ∧
      pfgwBakAt E uch mr2 false reps ulD1 mpzP1 ulGap rem n ulG 0 0 none = none := by
  refine ⟨?_, pfgwBakAt_off E uch mr2 reps ulD1 mpzP1 ulGap rem n ulG 0 0 none⟩
  rw [pfgwBakAt_tenth E uch mr2 reps ulD1 mpzP1 ulGap rem hD n ulG 0 none (by omega) hT hrej]
  simp only [Nat.zero_add, Nat.sub_zero]

/-- Witness of C24: 25 tests from offset 2 with a helper that reports every number as
composite; the file holds the offset 40 of the 20th test. -/
theorem C24_checkpoint_by_count_witness :
    pfgwBakAt { exactExt with pfgw := fun _ => 1 } (fun _ => 1) false true 1 4000 7 100 7
        25 2 0 0 none =
        (if 25 < 10 then none
         else some { gap := 100, p1rem := 7, ulG := 2 + 2 * (10 * (25 / 10) - 1) }) ∧
      pfgwBakAt { exactExt with pfgw := fun _ => 1 } (fun _ => 1) false false 1 4000 7 100 7
        25 2 0 0 none = none :=
  C24_checkpoint_by_count { exactExt with pfgw := fun _ => 1 } (fun _ => 1) false 1 4000 7
    100 7 (by decide) 25 2 (fun i _ => by unfold iTest; simp) (fun i _ => by simp)

/-- C25: the helper never accepts a number on its own.  The loop of `mpz_gap_pfgw` returns
an offset only when the sieve let it through, the helper's status for it was not the
composite code 1, and the internal oracle accepted it; at a tested offset with a status
other than 1 the round ends the search exactly when the oracle accepts; `mpz_gap_pfgw` as a
whole returns (for `P1 ≠ 2`) only offsets the oracle accepts; and when no helper was
detected the search dispatched at `INTERIOR` is `mpz_gap`. -/
theorem C25_helper_never_decides (E : Ext) (uch : Nat → Nat) (mr2 bk : Bool)
    (reps ulD1 mpzP1 ulGap rem : Nat) :
    (∀ fuel ulG c1 c2 bak g bak1,
        pfgwLoop E uch mr2 bk reps ulD1 mpzP1 ulGap rem fuel ulG c1 c2 bak = some (g, bak1) →
        iTest uch ulGap g = true ∧ E.pfgw (mpzP1 + g) ≠ 1 ∧
          oracleAt E mr2 reps mpzP1 ulGap g = true) ∧
      (∀ fuel ulG c1 c2 bak, iTest uch ulGap ulG = true → E.pfgw (mpzP1 + ulG) ≠ 1 →
        ((pfgwLoop E uch mr2 bk reps ulD1 mpzP1 ulGap rem (fuel + 1) ulG c1 c2 bak).map
            Prod.fst = some ulG ↔ oracleAt E mr2 reps mpzP1 ulGap ulG = true)) ∧
      (∀ (C : Cfg) fuel (g : Globals) x gs, mpzP1 ≠ 2 →
        mpz_gap_pfgw E C fuel ulD1 mr2 mpzP1 ulGap rem g = some (x, gs) →
        oracleAt E mr2 C.ulMRReps mpzP1 ulGap x = true) ∧
      (∀ (C : Cfg) fuel (g : Globals), C.iPFGW = false →
        search E C fuel ulD1 mr2 mpzP1 ulGap g =
          mpz_gap E C fuel ulD1 mr2 mpzP1 ulGap (mpzP1 % 2 ^ 64) g) := by
  have key : ∀ (u : Nat → Nat) (b : Bool) (rp d rm : Nat) fuel ulG c1 c2 bak g bak1,
      pfgwLoop E u mr2 b rp d mpzP1 ulGap rm fuel ulG c1 c2 bak = some (g, bak1) →
      iTest u ulGap g = true ∧ E.pfgw (mpzP1 + g) ≠ 1 ∧
        oracleAt E mr2 rp mpzP1 ulGap g = true := by
    intro u b rp d rm fuel ulG c1 c2 bak g bak1 h
    have h1 := pfgwLoop_fst E u mr2 b rp d mpzP1 ulGap rm fuel ulG c1 c2 bak
    rw [h] at h1
    obtain ⟨k, -, -, k3, -⟩ := firstGood_some _ fuel ulG g h1.symm
    unfold goodAtP at k3
    simp only [Bool.and_eq_true, bne_iff_ne, ne_eq] at k3
    exact ⟨k3.1, k3.2.1, k3.2.2⟩
  refine ⟨key uch bk reps ulD1 rem, ?_, ?_, ?_⟩
  · intro fuel ulG c1 c2 bak ht hs
    rw [pfgwLoop_fst]
    unfold firstGood goodAtP
    rw [ht]
    have : (E.pfgw (mpzP1 + ulG) != 1) = true := by simpa using hs
    rw [this]
    simp only [Bool.true_and]
    by_cases ho : oracleAt E mr2 reps mpzP1 ulGap ulG = true
    · rw [if_pos ho]; simp [ho]
    · rw [if_neg ho]
      constructor
      · intro h
        exfalso
        obtain ⟨k, -, k2, -, -⟩ := firstGood_some _ fuel (ulG + 2) ulG h
        omega
      · intro h; exact absurd h ho
  · intro C fuel g x gs hp h
    unfold mpz_gap_pfgw at h
    rw [if_neg hp] at h
    cases hl : pfgwLoop E (sieveOf E C ulD1 mpzP1 ulGap rem g).buf.uchSieve mr2 g.iBackup
        C.ulMRReps ulD1 mpzP1 ulGap rem fuel g.ulGBack 0 0 (g.bak ulGap) with
    | none => rw [hl] at h; cases h
    | some q =>
      rw [hl] at h
      simp only [Option.some.injEq, Prod.mk.injEq] at h
      obtain ⟨q1, q2⟩ := q
      have := key _ _ _ _ _ fuel g.ulGBack 0 0 (g.bak ulGap) q1 q2 hl
      rw [← h.1]
      exact this.2.2
  · intro C fuel g hp
    unfold search helperUsed
    rw [hp]
    simp

/-- Witness of C25: the helper-assisted loop on `P1 = 7`, gap 4, every index switched on. -/
theorem C25_helper_never_decides_witness :
    iTest (fun _ => 1) 4 4 = true ∧ exactExt.pfgw (7 + 4) ≠ 1 ∧
      oracleAt exactExt false 1 7 4 4 = true :=
  (C25_helper_never_decides exactExt (fun _ => 1) false false 1 1000 7 4 7).1 3 2 0 0 none 4
    none (by decide)

/-- C26: snapshot round trip.  The snapshot written for a buffer (header gap, fingerprint,
sum of the offsets, one offset `2i + 2` per index switched on below the gap) is accepted by
the loader for the same gap and fingerprint; the buffer loaded is switched on below the gap
exactly at the indices that were on when the snapshot was written, and has the same list of
survivors.  In particular a call of `vSieve2` with backup on (at least 3 digits, no earlier
snapshot) writes such a file, and any later call that finds it returns its survivors. -/
theorem C26_snapshot_round_trip (u v : Nat → Nat) (ulGap rem : Nat)
    (hb : ulGap ≤ 999999999) :
    (∃ w, loadSiv ulGap rem (some (mkSiv u ulGap rem)) v = some w ∧
      (∀ j, j < ulGap → (w j ≠ 0 ↔ u j ≠ 0)) ∧ survivors w ulGap = survivors u ulGap) ∧
    ∀ (E : Ext) (cs cs1 bk1 : Bool) (ulD1 mpzP1 : Nat) (b c : Buf), 3 ≤ ulD1 →
      (vSieve2 E cs true ulD1 mpzP1 ulGap rem none b).siv =
          some (mkSiv (vSieve2 E cs true ulD1 mpzP1 ulGap rem none b).buf.uchSieve ulGap rem) ∧
        survivors (vSieve2 E cs1 bk1 ulD1 mpzP1 ulGap rem
            (vSieve2 E cs true ulD1 mpzP1 ulGap rem none b).siv c).buf.uchSieve ulGap =
          survivors (vSieve2 E cs true ulD1 mpzP1 ulGap rem none b).buf.uchSieve ulGap := by
  have hload : ∀ (u v : Nat → Nat), ∃ w,
      loadSiv ulGap rem (some (mkSiv u ulGap rem)) v = some w ∧
      (∀ j, j < ulGap → (w j ≠ 0 ↔ u j ≠ 0)) ∧ survivors w ulGap = survivors u ulGap := by
    intro u v
    obtain ⟨w, h1, h2, -⟩ := loadSiv_mkSiv u v ulGap rem hb
    have h3 : ∀ j, j < ulGap → (w j ≠ 0 ↔ u j ≠ 0) := by
      intro j hj
      rw [h2 j hj]
      by_cases hu : u j ≠ 0
      · rw [if_pos hu]; simp [hu]
      · rw [if_neg hu]; simp [hu]
    refine ⟨w, h1, h3, ?_⟩
    unfold survivors
    congr 1
    apply List.filter_congr
    intro x hx
    have := h3 x (List.mem_range.mp hx)
    by_cases hu : u x = 0
    · have hw : w x = 0 := by
        by_contra hc; exact (this.mp hc) hu
      simp [hu, hw]
    · have hw : w x ≠ 0 := this.mpr hu
      have a1 : (w x != 0) = true := bne_iff_ne.mpr hw
      have a2 : (u x != 0) = true := bne_iff_ne.mpr hu
      rw [a1, a2]
  refine ⟨hload u v, ?_⟩
  intro E cs cs1 bk1 ulD1 mpzP1 b c hD
  have hs : (vSieve2 E cs true ulD1 mpzP1 ulGap rem none b).siv =
      some (mkSiv (vSieve2 E cs true ulD1 mpzP1 ulGap rem none b).buf.uchSieve ulGap rem) := by
    unfold vSieve2 loadSiv
    rw [if_neg (by omega)]
    rfl
  refine ⟨hs, ?_⟩
  rw [hs]
  obtain ⟨w, h1, -, h3⟩ :=
    hload (vSieve2 E cs true ulD1 mpzP1 ulGap rem none b).buf.uchSieve c.uchSieve
  have : (vSieve2 E cs1 bk1 ulD1 mpzP1 ulGap rem
      (some (mkSiv (vSieve2 E cs true ulD1 mpzP1 ulGap rem none b).buf.uchSieve ulGap rem))
      c).buf.uchSieve = w := by
    generalize (vSieve2 E cs true ulD1 mpzP1 ulGap rem none b).buf.uchSieve = u0 at h1 ⊢
    unfold vSieve2
    rw [h1]
  rw [this]
  exact h3

/-- Witness of C26: the sieve of `P1 = 101`, gap 10 with backup on, read back. -/
theorem C26_snapshot_round_trip_witness :
    (vSieve2 exactExt false true 3 101 10 101 none
        { uchSieve := init.uchSieve, ulLPD := init.ulLPD }).siv =
      some (mkSiv (vSieve2 exactExt false true 3 101 10 101 none
        { uchSieve := init.uchSieve, ulLPD := init.ulLPD }).buf.uchSieve 10 101) ∧
    survivors (vSieve2 exactExt false false 3 101 10 101
        (vSieve2 exactExt false true 3 101 10 101 none
          { uchSieve := init.uchSieve, ulLPD := init.ulLPD }).siv
        { uchSieve := fun _ => 5, ulLPD := init.ulLPD }).buf.uchSieve 10 =
      survivors (vSieve2 exactExt false true 3 101 10 101 none
        { uchSieve := init.uchSieve, ulLPD := init.ulLPD }).buf.uchSieve 10 :=
  (C26_snapshot_round_trip (fun _ => 1) (fun _ => 0) 10 101 (by decide)).2 exactExt false
    false false 3 101 { uchSieve := init.uchSieve, ulLPD := init.ulLPD }
    { uchSieve := fun _ => 5, ulLPD := init.ulLPD } (by decide)

/-- C28: when the helper reports composite (status 1) exactly on the numbers that fail the
base-2 Fermat screen, `mpz_gap_pfgw` and `mpz_gap` return the same observed gap from the same
state (same sieve, same resume offset), and so do their loops on any sieve buffer from any
offset. -/
theorem C28_helper_refines_internal (E : Ext) (hH : ∀ n, E.pfgw n = 1 ↔ fermat2 n = false)
    (C : Cfg) (fuel ulD1 : Nat) (mr2 : Bool) (mpzP1 ulGap rem : Nat) (g : Globals) :
    (mpz_gap_pfgw E C fuel ulD1 mr2 mpzP1 ulGap rem g).map Prod.fst =
        (mpz_gap E C fuel ulD1 mr2 mpzP1 ulGap rem g).map Prod.fst ∧
      ∀ (uch : Nat → Nat) (bk : Bool) (reps ulG c1 c2 : Nat) (bak : Option Bak),
        (pfgwLoop E uch mr2 bk reps ulD1 mpzP1 ulGap rem fuel ulG c1 c2 bak).map Prod.fst =
          gapLoop E uch mr2 reps mpzP1 ulGap fuel ulG := by
  have hloop : ∀ (uch : Nat → Nat) (bk : Bool) (reps ulG c1 c2 : Nat) (bak : Option Bak),
      (pfgwLoop E uch mr2 bk reps ulD1 mpzP1 ulGap rem fuel ulG c1 c2 bak).map Prod.fst =
        gapLoop E uch mr2 reps mpzP1 ulGap fuel ulG := by
    intro uch bk reps ulG c1 c2 bak
    rw [pfgwLoop_fst, gapLoop_eq_firstGood]
    congr 1
    funext x
    exact goodAtP_eq_goodAt E hH uch mr2 reps mpzP1 ulGap x
  refine ⟨?_, hloop⟩
  unfold mpz_gap_pfgw mpz_gap
  by_cases hp : mpzP1 = 2
  · rw [if_pos hp, if_pos hp]
  · rw [if_neg hp, if_neg hp]
    have := hloop (sieveOf E C ulD1 mpzP1 ulGap rem g).buf.uchSieve g.iBackup C.ulMRReps
      g.ulGBack 0 0 (g.bak ulGap)
    cases h1 : pfgwLoop E (sieveOf E C ulD1 mpzP1 ulGap rem g).buf.uchSieve mr2 g.iBackup
        C.ulMRReps ulD1 mpzP1 ulGap rem fuel g.ulGBack 0 0 (g.bak ulGap) with
    | none =>
      rw [h1] at this
      simp only [Option.map_none'] at this
      rw [← this]
    | some q =>
      rw [h1] at this
      simp only [Option.map_some'] at this
      rw [← this]
      rfl

/-- Witness of C28: the exact collaborators with a helper that is the Fermat screen. -/
theorem C28_helper_refines_internal_witness :
    (mpz_gap_pfgw { exactExt with pfgw := fun n => if fermat2 n then 0 else 1 } cfg0 5 1000
        false 7 4 7 init).map Prod.fst =
      (mpz_gap { exactExt with pfgw := fun n => if fermat2 n then 0 else 1 } cfg0 5 1000
        false 7 4 7 init).map Prod.fst :=
  (C28_helper_refines_internal { exactExt with pfgw := fun n => if fermat2 n then 0 else 1 }
    (fun n => by cases h : fermat2 n <;> simp [h]) cfg0 5 1000 false 7 4 7 init).1

/-- C29: termination of the loop of `mpz_gap`.  For odd `P1 >= 3`, any claimed gap, any sieve
buffer and any even resume offset `r >= 2`, when the oracle accepts every prime (the base-2
Fermat screen does, by Fermat's little theorem) and a prime beyond the sieved interval is in
reach of the 64-bit offset (which Bertrand's postulate gives when `P1 + 2r + 4*gap + 2` is
below `2^64`, and which is assumed otherwise): there are a fuel and an offset `g` such that
the loop returns `g` for that fuel and every larger one; `g` is even, at least `r`, below
`2^64`, at most `P1 + 2r + 4*gap + 2`, at most every even offset beyond the sieved interval
at which a prime stands, and accepted by the oracle; every offset from `r` to `g` lies in
`[2, 2^64)` and the sieve cell read for it lies below the gap, so the offset never wraps and
no read leaves the buffer; every offset passed without a test is below `2*gap` and switched
off in the sieve, and every offset tested before `g` was rejected by the screen or by the
oracle. -/
theorem C29_search_terminates (E : Ext) (uch : Nat → Nat) (mr2 : Bool)
    (reps mpzP1 ulGap r : Nat) (h3 : 3 ≤ mpzP1) (hodd : mpzP1 % 2 = 1) (hr2 : 2 ≤ r)
    (hev : r % 2 = 0) (hprp : ∀ n a, Nat.Prime n → E.iPrP n a 2 = true)
    (hmr : ∀ n, Nat.Prime n → E.iMillerRabin n 2 = true)
    (hq : mpzP1 + 2 * r + 4 * ulGap + 2 < 2 ^ 64 ∨
      ∃ G, G % 2 = 0 ∧ r ≤ G ∧ 2 * ulGap ≤ G ∧ G < 2 ^ 64 ∧ Nat.Prime (mpzP1 + G)) :
    ∃ fuel g,
      (∀ fuel1, fuel ≤ fuel1 → gapLoop E uch mr2 reps mpzP1 ulGap fuel1 r = some g) ∧
      g % 2 = 0 ∧ r ≤ g ∧ g < 2 ^ 64 ∧ g ≤ mpzP1 + 2 * r + 4 * ulGap + 2 ∧
      (∀ G, G % 2 = 0 → r ≤ G → 2 * ulGap ≤ G → Nat.Prime (mpzP1 + G) → g ≤ G) ∧
      oracleAt E mr2 reps mpzP1 ulGap g = true ∧
      2 * ulGap < 2 ^ 64 ∧
      (∀ ulG, r ≤ ulG → ulG ≤ g →
        2 ≤ ulG ∧ ulG < 2 ^ 64 ∧ (ulG < 2 * ulGap → idx2 ulG < ulGap)) ∧
      (∀ ulG, r ≤ ulG → ulG < g → ulG % 2 = 0 → iTest uch ulGap ulG = false →
        ulG < 2 * ulGap ∧ uch (idx2 ulG) = 0) ∧
      (∀ ulG, r ≤ ulG → ulG < g → ulG % 2 = 0 → iTest uch ulGap ulG = true →
        fermat2 (mpzP1 + ulG) = false ∨ oracleAt E mr2 reps mpzP1 ulGap ulG = false) := by
  have hpow : (2 : Nat) ^ 64 = 18446744073709551616 := by norm_num
  have hgoodP : ∀ G, 2 * ulGap ≤ G → Nat.Prime (mpzP1 + G) →
      goodAt E uch mr2 reps mpzP1 ulGap G = true := by
    intro G hG hp
    unfold goodAt
    have e1 : iTest uch ulGap G = true := by
      unfold iTest
      simp only [Bool.or_eq_true, decide_eq_true_eq]
      exact Or.inl (by omega)
    have e2 : fermat2 (mpzP1 + G) = true := fermat2_of_prime hp (by omega)
    have e3 : oracleAt E mr2 reps mpzP1 ulGap G = true := by
      unfold oracleAt
      split
      · rename_i he
        split
        · exact hmr _ (by rw [← he]; exact hp)
        · exact hprp _ _ (by rw [← he]; exact hp)
      · exact hprp _ _ hp
    rw [e1, e2, e3]
    rfl
  obtain ⟨q, hq0, hq1, hq3⟩ :=
    Nat.exists_prime_lt_and_le_two_mul (mpzP1 + (r + 2 * ulGap) + 1) (by omega)
  have hq2 : q % 2 = 1 := by
    rcases hq0.eq_two_or_odd with h | h
    · omega
    · exact h
  obtain ⟨k, hk⟩ : ∃ k, q = mpzP1 + (r + 2 * k) := ⟨(q - mpzP1 - r) / 2, by omega⟩
  have hk2 : ulGap ≤ k := by omega
  have hgood : goodAt E uch mr2 reps mpzP1 ulGap (r + 2 * k) = true :=
    hgoodP (r + 2 * k) (by omega) (by rw [← hk]; exact hq0)
  obtain ⟨g, hg⟩ := firstGood_exists _ k r hgood
  obtain ⟨j, j1, j2, j3, j4⟩ := firstGood_some _ (k + 1) r g hg
  have hg3 := j3
  unfold goodAt at hg3
  simp only [Bool.and_eq_true] at hg3
  have hbefore : ∀ ulG, r ≤ ulG → ulG < g → ulG % 2 = 0 →
      goodAt E uch mr2 reps mpzP1 ulGap ulG = false := by
    intro ulG a1 a2 a3
    have := j4 ((ulG - r) / 2) (by omega)
    have e : r + 2 * ((ulG - r) / 2) = ulG := by omega
    rw [e] at this
    exact this
  have hmin : ∀ G, G % 2 = 0 → r ≤ G → 2 * ulGap ≤ G → Nat.Prime (mpzP1 + G) → g ≤ G := by
    intro G a1 a2 a3 a4
    by_contra hlt
    have := hbefore G a2 (by omega) a1
    rw [hgoodP G a3 a4] at this
    cases this
  have hbound : g ≤ mpzP1 + 2 * r + 4 * ulGap + 2 := by omega
  have hlt : g < 2 ^ 64 ∧ 2 * ulGap < 2 ^ 64 := by
    rcases hq with h | ⟨G, a1, a2, a3, a4, a5⟩
    · omega
    · have := hmin G a1 a2 a3 a5
      omega
  refine ⟨k + 1, g, fun fuel1 hf => ?_, by omega, by omega, hlt.1, hbound, hmin, hg3.2,
    hlt.2, ?_, ?_, ?_⟩
  · rw [gapLoop_eq_firstGood]
    exact firstGood_mono _ (k + 1) fuel1 r g hg hf
  · intro ulG a1 a2
    refine ⟨by omega, by omega, fun a3 => ?_⟩
    unfold idx2
    have := hlt.1
    omega
  · intro ulG a1 a2 a3 ht
    unfold iTest at ht
    simp only [Bool.or_eq_false_iff, decide_eq_false_iff_not, bne_eq_false_iff_eq] at ht
    exact ⟨by omega, ht.2⟩
  · intro ulG a1 a2 a3 ht
    have := hbefore ulG a1 a2 a3
    unfold goodAt at this
    rw [ht] at this
    simp only [Bool.true_and, Bool.and_eq_false_iff] at this
    exact this

/-- Witness of C29: `P1 = 7` from offset 2 under the exact oracle. -/
theorem C29_search_terminates_witness :
    ∃ fuel g,
      (∀ fuel1, fuel ≤ fuel1 → gapLoop exactExt (fun _ => 1) false 1 7 4 fuel1 2 = some g) ∧
      g % 2 = 0 ∧ 2 ≤ g ∧ g < 2 ^ 64 ∧ g ≤ 7 + 2 * 2 + 4 * 4 + 2 ∧
      (∀ G, G % 2 = 0 → 2 ≤ G → 2 * 4 ≤ G → Nat.Prime (7 + G) → g ≤ G) ∧
      oracleAt exactExt false 1 7 4 g = true ∧
      2 * 4 < 2 ^ 64 ∧
      (∀ ulG, 2 ≤ ulG → ulG ≤ g →
        2 ≤ ulG ∧ ulG < 2 ^ 64 ∧ (ulG < 2 * 4 → idx2 ulG < 4)) ∧
      (∀ ulG, 2 ≤ ulG → ulG < g → ulG % 2 = 0 → iTest (fun _ => 1) 4 ulG = false →
        ulG < 2 * 4 ∧ (fun _ => 1) (idx2 ulG) = 0) ∧
      (∀ ulG, 2 ≤ ulG → ulG < g → ulG % 2 = 0 → iTest (fun _ => 1) 4 ulG = true →
        fermat2 (7 + ulG) = false ∨ oracleAt exactExt false 1 7 4 ulG = false) :=
  C29_search_terminates exactExt (fun _ => 1) false 1 7 4 2 (by decide) (by decide)
    (by decide) (by decide) (fun n a hp => (prpExact_exactExt n a 2).mpr hp)
    (fun n hp => (mrExact_exactExt n).mpr hp) (Or.inl (by decide))

/-- C30 (what the code does): when the trial division returns a value at most 1 or a prime
proper divisor, a `P1 composite` line that names a factor `f` names a divisor of `P1` with
`1 < f < P1`, with two exceptions in which `f` is the constant 2: a record with gap 1 and an
odd `P1` (2 does not divide `P1`, and `P1` may be prime), and a record with `P1 = 2` and an
even gap (2 is not a proper divisor, `P1` is prime). -/
theorem C30_witness_factor (E : Ext) (C : Cfg) (fuel : Nat) (r : Rec) (g : Globals)
    (ctl : Ctl) (g1 : Globals) (gp f : Nat)
    (hdiv : ∀ n b, E.ulPrmDiv n b ≤ 1 ∨
      (Nat.Prime (E.ulPrmDiv n b) ∧ E.ulPrmDiv n b ∣ n ∧ E.ulPrmDiv n b < n))
    (h : step E C fuel r g = some (ctl, g1))
    (hm : g1.report = Msg.p1Composite gp (Wit.factor f) :: g.report) :
    ∃ ulD1 z, Reaches E C r ulD1 z ∧
      ((1 < f ∧ f < z.toNat ∧ f ∣ z.toNat) ∨ (f = 2 ∧ r.ulGap = 1 ∧ z.toNat % 2 = 1) ∨
        (f = 2 ∧ z = 2 ∧ r.ulGap % 2 = 0)) := by
  rcases step_report E C fuel r g ctl g1 h with h1 | h1 | ⟨d, z, hR, hc⟩
  · rw [h1] at hm
    exact absurd hm.symm (List.cons_ne_self _ _)
  · rw [h1] at hm
    have := (List.cons.inj hm).1
    cases this
  · obtain ⟨-, -, -, b4, -⟩ := backupState_fields C r d g
    have hz : 2 ≤ z := hR.2.2.2.2.2.2.2.2.2.2.2.2
    have hgap : r.iG % 2 = 1 → r.iG = 1 := hR.2.2.1
    have hgi : (r.ulGap : Int) = r.iG := hR.2.2.2.1
    refine ⟨d, z, hR, ?_⟩
    rcases candidate_p1msg E C fuel r d (mr2Of C d) z.toNat _ ctl g1 gp f hc
      (by rw [hm, b4]) with ⟨a1, a2, a3⟩ | ⟨a1, a2, a3⟩ | ⟨a1, a2, a3⟩
    · by_cases hpar : z.toNat % 2 = 1
      · exact Or.inr (Or.inl ⟨a3, a1, hpar⟩)
      · refine Or.inl ⟨by omega, by omega, ?_⟩
        rw [a3]
        exact Nat.dvd_of_mod_eq_zero (by omega)
    · by_cases h2 : z.toNat = 2
      · exact Or.inr (Or.inr ⟨a3, by omega, by omega⟩)
      · refine Or.inl ⟨by omega, by omega, ?_⟩
        rw [a3]
        exact Nat.dvd_of_mod_eq_zero a2
    · rcases hdiv z.toNat 1000000 with hd | ⟨-, hd2, hd3⟩
      · omega
      · rw [a2]
        exact Or.inl ⟨by omega, hd3, hd2⟩

/-- Witness of C30, the failing inputs: the record `1  3` gets the line
`P1 composite (2|P1)` although 2 does not divide 3 and 3 is prime, and so does the record
`4  2` although 2 is prime. -/
theorem C30_witness_factor_witness :
    (step exactExt cfg0 0 (freeRec 1 "3") init).map (fun p => (p.2.ulErrors, p.2.report))
      = some (1, [Msg.p1Composite 1 (Wit.factor 2)]) ∧ ¬ 2 ∣ 3 ∧ Nat.Prime 3 ∧
    (step exactExt cfg0 0 (freeRec 4 "2") init).map (fun p => (p.2.ulErrors, p.2.report))
      = some (1, [Msg.p1Composite 4 (Wit.factor 2)]) ∧ Nat.Prime 2 ∧
    ∃ ulD1 z, Reaches exactExt cfg0 (freeRec 1 "3") ulD1 z ∧
      ((1 < 2 ∧ 2 < z.toNat ∧ 2 ∣ z.toNat) ∨
        (2 = 2 ∧ (freeRec 1 "3").ulGap = 1 ∧ z.toNat % 2 = 1) ∨
        (2 = 2 ∧ z = 2 ∧ (freeRec 1 "3").ulGap % 2 = 0)) :=
  ⟨by decide, by decide, by norm_num, by decide, by norm_num,
    C30_witness_factor exactExt cfg0 0 (freeRec 1 "3") init Ctl.next
      (countError (backupState cfg0 (freeRec 1 "3") 1 init)
        (Msg.p1Composite 1 (Wit.factor 2)) true) 1 2
      prmDiv_exactExt rfl rfl⟩


end Cglp4
